import Mathlib

/-!
# The push lexer of `source/testbed/ConfigStream.cpp`

A shallow embedding of the lexer (`ConfigFile::consume` and its sub-scanners)
and of the operator spelling table (`ConfigFile::token`).

Conventions of the embedding:

* the input buffer `[begin, end)` is a `List Char`; pointers into it are offsets
  from `begin` (`Nat`), so `begin = 0` and `end = buf.length`;
* every interaction of the lexer with its two external collaborators (the
  callback object and the diagnostics sink) is appended, in the order in which it
  happens, to the `history` field of the stream model;
* a C++ `throw` is the `throw` constructor of `Res` (or `raise` of `Step`); the
  stream is kept so that the cursor and the history at the point of failure stay
  observable;
* loops are unrolled by structural recursion on a fuel argument that the callers
  set from the number of characters left; `diverge` marks exhausted fuel and is
  proved never to be produced by a scan (`consume_total`);
* `ConfigStream.h` is not among the sources at hand: the operator enumeration,
  the token views, the callback interface and the members `eof`, `current` and
  `get` of the stream are modelled from the specification. A read at the end
  boundary of the buffer, which the specification leaves undefined, yields the
  NUL character; callbacks are deterministic and leave the cursor and the
  diagnostics sink alone;
* two further copies of the scanners keep apart what depends on that read: one
  with checked reads, in which a read at the end boundary has no value
  (`consumeChecked`), and one over the memory after the buffer, in which such a
  read yields what is stored there (`consumeBeyond`). A scan in which the first
  returns is the same in all three (`consumeChecked_sound`,
  `consumeBeyond_of_checked`).
-/

namespace ConfigFile

/-! ## Data model -/

/-- Modelled from the spec: the closed enumeration of operator kinds declared in
`ConfigStream.h` (not part of the sources at hand); the enumerators are those
named by `getOperator`, `consume` and `token`. -/
inductive OPERATOR_TOKEN where
  | INVALID | PLUS | MINUS | ASTERISK | SLASH | CIRCUMFLEX | TILDE
  | LPARENT | RPARENT | LBRACKET | RBRACKET | LBRACE | RBRACE
  | QUEST | DOT | COLON | COMMA | SEMICOLON
  | EQ | EEQ | NEQ | LT | LEQ | LL | GT | GEQ | GG
  | AND | AAND | OR | OOR | BANG | PERCENT | ARROW
  deriving DecidableEq, Repr

/-- Modelled from the spec: the `Token(begin, end)` view of `ConfigStream.h`, a
half-open span `[start, stop)` of offsets into the scanned buffer. -/
structure Token where
  start : Nat
  stop : Nat
  deriving DecidableEq, Repr

/-- The source text a span denotes in a buffer. -/
def Token.text (t : Token) (buf : List Char) : List Char :=
  (buf.drop t.start).take (t.stop - t.start)

/-- Modelled from the spec: the `Token(pointer, length)` view of `ConfigStream.h`
over a static string literal, as built by `token`. -/
structure LiteralToken where
  literal : String
  length : Nat
  deriving DecidableEq, Repr

/-- The characters a literal view covers: the first `length` characters of the
literal it points to. -/
def LiteralToken.text (t : LiteralToken) : List Char :=
  t.literal.toList.take t.length

/-- Modelled from the spec: one invocation of a method of the `LexerCallback`
interface of `ConfigStream.h`, with the arguments it receives. -/
inductive Call where
  | consumeIdentifier (t : Token)
  | consumeIntegerLiteral (t : Token)
  | consumeFloatLiteral (t : Token)
  | consumeStringLiteral (t : Token)
  | consumeOperator (op : OPERATOR_TOKEN) (t : Token)
  | consumeComment (t : Token)
  | consumeEOL
  | consumeEOF
  deriving DecidableEq, Repr

/-- Modelled from the spec: what `Log::error` receives:
`(message, stream name, line, column)`. -/
structure Diagnostic where
  message : String
  stream_name : String
  line : Nat
  column : Int
  deriving DecidableEq, Repr

/-- An observable interaction of the lexer with its environment. -/
inductive Obs where
  | call (c : Call)
  | error (d : Diagnostic)
  deriving DecidableEq, Repr

/-- Modelled from the spec: a `LexerCallback` object of `ConfigStream.h`. The
object is deterministic and does not move the cursor, so the boolean it returns
is a function of what has been observed so far (first argument, which fixes the
internal state of the object) and of the present invocation. -/
abbrev LexerCallback := List Obs → Call → Bool

/-- The cursor `ConfigFile::Stream`: `ptr`, `end` (the length of `buf`),
`stream_name`, `lines` and, for `log`, the record of what was sent out. -/
structure Stream where
  buf : List Char
  ptr : Nat
  lines : List Nat
  stream_name : String
  history : List Obs
  deriving DecidableEq, Repr

/-- The constructor `Stream::Stream(begin, end, name, log)`:
`ptr(begin)` and `lines.push_back(begin)`. -/
def Stream.new (buf : List Char) (name : String) : Stream :=
  { buf := buf, ptr := 0, lines := [0], stream_name := name, history := [] }

/-- The character stored at the end boundary of the buffer: the terminator of
a C string. -/
abbrev NUL : Char := Char.ofNat 0

/-- The double quote character. -/
abbrev QUOTE : Char := Char.ofNat 34

/-- The apostrophe character. -/
abbrev APOSTROPHE : Char := Char.ofNat 39

/-- The backslash character. -/
abbrev BACKSLASH : Char := Char.ofNat 92

/-- Modelled from the spec: `Stream::eof()` of `ConfigStream.h`, true when the
position has reached the end boundary. -/
def Stream.eof (s : Stream) : Bool := decide (s.buf.length ≤ s.ptr)

/-- Modelled from the spec: `*stream.current()` of `ConfigStream.h`, the
character at the present position. The spec leaves the read at the end boundary
undefined; the model reads the terminating NUL there. What a statement would owe
to that choice is kept apart: `Stream.currentChecked` has no value at the end
boundary, and `Stream.currentBeyond` reads there what the memory after the
buffer holds. -/
def Stream.current (s : Stream) : Char := s.buf.getD s.ptr NUL

/-- Modelled from the spec: `Stream::get()` of `ConfigStream.h`: advance by one
and, if the advanced-over character is a newline, append the new position to the
line-start list. (The pointer it returns is the old `ptr`, which the callers
below read off the stream before the call.) -/
def Stream.get (s : Stream) : Stream :=
  { s with
    ptr := s.ptr + 1
    lines := if s.current = '\n' then s.lines ++ [s.ptr + 1] else s.lines }

/-- The method `Stream::getCurrentLineNumber`. -/
def Stream.getCurrentLineNumber (s : Stream) : Nat := s.lines.length

/-- The method `Stream::getCurrentColumn`: `ptr - lines.back()`. -/
def Stream.getCurrentColumn (s : Stream) : Int :=
  (s.ptr : Int) - ((s.lines.getLastD 0 : Nat) : Int)

/-- The method `Stream::error`: forwards
`(message, stream_name, line, column)` to the sink; it does not throw. -/
def Stream.error (s : Stream) (message : String) : Stream :=
  { s with
    history := s.history ++
      [Obs.error ⟨message, s.stream_name, s.getCurrentLineNumber, s.getCurrentColumn⟩] }

/-- Result of a sub-scanner: normal return, a thrown `lexer_error`, or fuel
exhaustion of the model. -/
inductive Res (α : Type) where
  | ok (a : α) (s : Stream)
  | throw (msg : String) (s : Stream)
  | diverge
  deriving DecidableEq, Repr

/-- Returning the value and the stream of a pair. -/
def Res.ofPair {α : Type} (r : α × Stream) : Res α := Res.ok r.1 r.2

/-- Invoking a callback method: the answer of the callback object, and the
stream with the invocation recorded. -/
def invoke (cb : LexerCallback) (s : Stream) (c : Call) : Bool × Stream :=
  (cb s.history c, { s with history := s.history ++ [Obs.call c] })

/-! ## Character classifiers -/

/-- The classifier `isalpha`. -/
def isalpha (c : Char) : Bool :=
  (decide ('A' ≤ c) && decide (c ≤ 'Z')) || (decide ('a' ≤ c) && decide (c ≤ 'z')) ||
    decide (c = '$') || decide (c = '_') || decide (c = '.') || decide (c = '@')

/-- The classifier `isdigit_dec`. -/
def isdigit_dec (c : Char) : Bool :=
  decide ('0' ≤ c) && decide (c ≤ '9')

/-- The classifier `isdigit_hex`. -/
def isdigit_hex (c : Char) : Bool :=
  (decide ('0' ≤ c) && decide (c ≤ '9')) || (decide ('A' ≤ c) && decide (c ≤ 'F')) ||
    (decide ('a' ≤ c) && decide (c ≤ 'f'))

/-- The classifier `isalnum`. -/
def isalnum (c : Char) : Bool :=
  isalpha c || isdigit_dec c

/-! ## Sub-scanners -/

/-- The message built by `invalidCharacter`. -/
def invalidCharacterMessage (c : Char) : String :=
  ("invalid input character: ".push APOSTROPHE).push c |>.push APOSTROPHE

/-- The helper `invalidCharacter`: report and throw, naming `*stream.current()`. -/
def invalidCharacter {α : Type} (s : Stream) : Res α :=
  let msg := invalidCharacterMessage s.current
  Res.throw msg (s.error msg)

/-- The helper `next`: `get()`, then report and throw if that reached the end. -/
def next (s : Stream) : Res Unit :=
  let s1 := s.get
  if s1.eof then
    Res.throw "unexpected end of file" (s1.error "unexpected end of file")
  else
    Res.ok () s1

/-- The loop of `readSequence`, run for at most `fuel` characters. -/
def readSequenceLoop (f : Char → Bool) : Nat → Stream → Stream
  | 0, s => s
  | fuel + 1, s =>
    if !s.eof && f s.current then readSequenceLoop f fuel s.get else s

/-- The template `readSequence`: `while (!eof && f(*current)) get()`. The loop
cannot run for more rounds than there are characters left. -/
def readSequence (f : Char → Bool) (s : Stream) : Stream :=
  readSequenceLoop f (s.buf.length - s.ptr) s

/-- The scanner `readLineComment`. -/
def readLineComment (s : Stream) : Stream :=
  readSequence (fun c => decide (c ≠ '\n')) s

/-- The `while (true)` loop of `readBlockComment`. -/
def readBlockCommentLoop : Nat → Stream → Char → Res Unit
  | 0, _, _ => Res.diverge
  | fuel + 1, s, c0 =>
    match next s with
    | Res.ok _ s1 =>
      let c1 := s1.current
      if c0 = '*' ∧ c1 = '/' then Res.ok () s1
      else readBlockCommentLoop fuel s1 c1
    | Res.throw msg s1 => Res.throw msg s1
    | Res.diverge => Res.diverge

/-- The scanner `readBlockComment`. -/
def readBlockComment (s : Stream) : Res Unit :=
  match next s with
  | Res.ok _ s1 => readBlockCommentLoop (s1.buf.length - s1.ptr) s1 s1.current
  | Res.throw msg s1 => Res.throw msg s1
  | Res.diverge => Res.diverge

/-- The scanner `readIdentifier`. -/
def readIdentifier (s : Stream) : Stream :=
  readSequence isalnum s

/-- The `while (true)` loop of `readStringLiteral`, with its `escape` flag. -/
def readStringLiteralLoop : Nat → Stream → Bool → Res Unit
  | 0, _, _ => Res.diverge
  | fuel + 1, s, escape =>
    if s.current = QUOTE ∧ escape = false then
      Res.ok () s.get
    else if s.current = '\n' then
      Res.throw "line break in string literal" (s.error "line break in string literal")
    else if s.eof then
      Res.throw "end of file in string literal" (s.error "end of file in string literal")
    else if s.current = BACKSLASH ∧ escape = false then
      match next s with
      | Res.ok _ s1 => readStringLiteralLoop fuel s1 true
      | Res.throw msg s1 => Res.throw msg s1
      | Res.diverge => Res.diverge
    else
      match next s with
      | Res.ok _ s1 => readStringLiteralLoop fuel s1 false
      | Res.throw msg s1 => Res.throw msg s1
      | Res.diverge => Res.diverge

/-- The scanner `readStringLiteral`. -/
def readStringLiteral (s : Stream) : Res Unit :=
  readStringLiteralLoop (s.buf.length - s.ptr + 1) s false

/-- The scanner `readFloatLiteralExponent`; `start` is its `begin` argument. -/
def readFloatLiteralExponent (cb : LexerCallback) (s : Stream) (start : Nat) : Res Bool :=
  let deliver (s : Stream) : Res Bool :=
    let r := invoke cb s (Call.consumeFloatLiteral ⟨start, s.ptr⟩)
    Res.ok r.1 r.2
  if !s.eof && (decide (s.current = 'e') || decide (s.current = 'E')) then
    match next s with
    | Res.ok _ s1 =>
      let afterSign : Res Unit :=
        if s1.current = '+' ∨ s1.current = '-' then next s1 else Res.ok () s1
      match afterSign with
      | Res.ok _ s2 =>
        if !isdigit_dec s2.current then invalidCharacter s2
        else deliver (readSequence isdigit_dec s2)
      | Res.throw msg s2 => Res.throw msg s2
      | Res.diverge => Res.diverge
    | Res.throw msg s1 => Res.throw msg s1
    | Res.diverge => Res.diverge
  else
    deliver s

/-- The scanner `readFloatLiteralFraction`. -/
def readFloatLiteralFraction (cb : LexerCallback) (s : Stream) (start : Nat) : Res Bool :=
  readFloatLiteralExponent cb (readSequence isdigit_dec s) start

/-- The scanner `readNumberLiteral`. -/
def readNumberLiteral (cb : LexerCallback) (s : Stream) (start : Nat) : Res Bool :=
  let s1 := readSequence isdigit_dec s
  if !s1.eof && decide (s1.current = '.') then
    readFloatLiteralFraction cb s1.get start
  else
    let r := invoke cb s1 (Call.consumeIntegerLiteral ⟨start, s1.ptr⟩)
    Res.ok r.1 r.2

/-- The scanner `readNumberLiteralPrefix`. -/
def readNumberLiteralPrefix (cb : LexerCallback) (s : Stream) (start : Nat) : Res Bool :=
  if s.current = 'x' ∨ s.current = 'X' then
    let letterAt := s.ptr
    let s1 := readSequence isdigit_hex s.get
    if (s1.ptr : Int) - (letterAt : Int) ≤ 1 then invalidCharacter s1
    else
      let r := invoke cb s1 (Call.consumeIntegerLiteral ⟨start, s1.ptr⟩)
      Res.ok r.1 r.2
  else
    readNumberLiteral cb s start

/-- The four-argument overload of `getTwoCharacterOp`. -/
def getTwoCharacterOp (s : Stream) (op1 : OPERATOR_TOKEN) (c2 : Char) (op2 : OPERATOR_TOKEN) :
    OPERATOR_TOKEN × Stream :=
  if !s.eof && decide (s.current = c2) then (op2, s.get) else (op1, s)

/-- The six-argument overload of `getTwoCharacterOp`. -/
def getTwoCharacterOp3 (s : Stream) (op1 : OPERATOR_TOKEN) (c2 : Char) (op2 : OPERATOR_TOKEN)
    (c3 : Char) (op3 : OPERATOR_TOKEN) : OPERATOR_TOKEN × Stream :=
  if !s.eof then
    if s.current = c2 then (op2, s.get)
    else if s.current = c3 then (op3, s.get)
    else (op1, s)
  else (op1, s)

/-- The `switch` of `getOperator` on the character `c` that `get()` has just
consumed, `s1` being the stream after that `get()`. -/
def getOperatorCase (c : Char) (s1 : Stream) : Res OPERATOR_TOKEN :=
  if c = '+' then Res.ok OPERATOR_TOKEN.PLUS s1
  else if c = '-' then
    Res.ofPair (getTwoCharacterOp s1 OPERATOR_TOKEN.MINUS '>' OPERATOR_TOKEN.ARROW)
  else if c = '*' then Res.ok OPERATOR_TOKEN.ASTERISK s1
  else if c = '^' then Res.ok OPERATOR_TOKEN.CIRCUMFLEX s1
  else if c = '~' then Res.ok OPERATOR_TOKEN.TILDE s1
  else if c = '(' then Res.ok OPERATOR_TOKEN.LPARENT s1
  else if c = ')' then Res.ok OPERATOR_TOKEN.RPARENT s1
  else if c = '{' then Res.ok OPERATOR_TOKEN.LBRACE s1
  else if c = '}' then Res.ok OPERATOR_TOKEN.RBRACE s1
  else if c = '[' then Res.ok OPERATOR_TOKEN.LBRACKET s1
  else if c = ']' then Res.ok OPERATOR_TOKEN.RBRACKET s1
  else if c = '?' then Res.ok OPERATOR_TOKEN.QUEST s1
  else if c = ':' then Res.ok OPERATOR_TOKEN.COLON s1
  else if c = ',' then Res.ok OPERATOR_TOKEN.COMMA s1
  else if c = ';' then Res.ok OPERATOR_TOKEN.SEMICOLON s1
  else if c = '<' then
    Res.ofPair
      (getTwoCharacterOp3 s1 OPERATOR_TOKEN.LT '=' OPERATOR_TOKEN.LEQ '<' OPERATOR_TOKEN.LL)
  else if c = '>' then
    Res.ofPair
      (getTwoCharacterOp3 s1 OPERATOR_TOKEN.GT '=' OPERATOR_TOKEN.GEQ '<' OPERATOR_TOKEN.GG)
  else if c = '&' then
    Res.ofPair (getTwoCharacterOp s1 OPERATOR_TOKEN.AND '&' OPERATOR_TOKEN.AAND)
  else if c = '|' then
    Res.ofPair (getTwoCharacterOp s1 OPERATOR_TOKEN.OR '&' OPERATOR_TOKEN.OOR)
  else if c = '=' then
    Res.ofPair (getTwoCharacterOp s1 OPERATOR_TOKEN.EQ '=' OPERATOR_TOKEN.EEQ)
  else if c = '!' then
    Res.ofPair (getTwoCharacterOp s1 OPERATOR_TOKEN.BANG '=' OPERATOR_TOKEN.NEQ)
  else invalidCharacter s1

/-- The function `getOperator`: `switch (*stream.get())`, and after the `switch`
`invalidCharacter(stream)`. -/
def getOperator (s : Stream) : Res OPERATOR_TOKEN :=
  getOperatorCase s.current s.get

/-! ## The driver loop -/

/-- What one round of the `while` loop of `consume` does: `break` (go on with
the next round), `return stream`, a thrown `lexer_error`, or fuel exhaustion of
the model. -/
inductive Step where
  | proceed (s : Stream)
  | stop (s : Stream)
  | raise (msg : String) (s : Stream)
  | diverge
  deriving DecidableEq, Repr

/-- The pattern `if (!callback.consumeX(stream, ...)) return stream; break;`. -/
def deliver (cb : LexerCallback) (s : Stream) (c : Call) : Step :=
  let r := invoke cb s c
  if r.1 then Step.proceed r.2 else Step.stop r.2

/-- The pattern `if (!readX(stream, begin, callback)) return stream; break;`. -/
def Step.ofRes : Res Bool → Step
  | Res.ok true s => Step.proceed s
  | Res.ok false s => Step.stop s
  | Res.throw msg s => Step.raise msg s
  | Res.diverge => Step.diverge

/-- The body of the `while` loop of `consume`: the `switch` on
`*stream.current()`. -/
def consumeStep (cb : LexerCallback) (s : Stream) : Step :=
  let c := s.current
  let start := s.ptr
  if c = '/' then
    let s1 := s.get
    if !s1.eof && decide (s1.current = '/') then
      let s2 := readLineComment s1
      deliver cb s2 (Call.consumeComment ⟨start, s2.ptr⟩)
    else if !s1.eof && decide (s1.current = '*') then
      match readBlockComment s1 with
      | Res.ok _ s2 => deliver cb s2 (Call.consumeComment ⟨start, s2.ptr⟩)
      | Res.throw msg s2 => Step.raise msg s2
      | Res.diverge => Step.diverge
    else
      deliver cb s1 (Call.consumeOperator OPERATOR_TOKEN.SLASH ⟨start, s1.ptr⟩)
  else if c = '.' then
    let s1 := s.get
    if !s1.eof && isdigit_dec s1.current then
      Step.ofRes (readFloatLiteralFraction cb s1 start)
    else
      deliver cb s1 (Call.consumeOperator OPERATOR_TOKEN.DOT ⟨start, s1.ptr⟩)
  else if c = '%' then
    let s1 := s.get
    if !s1.eof && isalnum s1.current then
      let s2 := readIdentifier s1
      deliver cb s2 (Call.consumeIdentifier ⟨start, s2.ptr⟩)
    else
      deliver cb s1 (Call.consumeOperator OPERATOR_TOKEN.PERCENT ⟨start, s1.ptr⟩)
  else if c = '0' then
    Step.ofRes (readNumberLiteralPrefix cb s.get start)
  else if c = QUOTE then
    match readStringLiteral s.get with
    | Res.ok _ s2 => deliver cb s2 (Call.consumeStringLiteral ⟨start, s2.ptr⟩)
    | Res.throw msg s2 => Step.raise msg s2
    | Res.diverge => Step.diverge
  else if c = '\n' then
    deliver cb s.get Call.consumeEOL
  else if c = '\r' ∨ c = '\t' ∨ c = ' ' then
    Step.proceed s.get
  else if isdigit_dec c then
    Step.ofRes (readNumberLiteral cb s start)
  else if isalnum c then
    let s2 := readIdentifier s
    deliver cb s2 (Call.consumeIdentifier ⟨start, s2.ptr⟩)
  else
    match getOperator s with
    | Res.ok op s2 => deliver cb s2 (Call.consumeOperator op ⟨start, s2.ptr⟩)
    | Res.throw msg s2 => Step.raise msg s2
    | Res.diverge => Step.diverge

/-- How the `while (!stream.eof())` loop of `consume` is left. -/
inductive LoopExit where
  | exhausted (s : Stream)
  | stopped (s : Stream)
  | raised (msg : String) (s : Stream)
  | diverge
  deriving DecidableEq, Repr

/-- The `while (!stream.eof())` loop of `consume`, run for at most `fuel`
rounds: it ends when the input is exhausted, when a callback answers `false`
(`return stream`), or by a throw. -/
def consumeLoop (cb : LexerCallback) : Nat → Stream → LoopExit
  | 0, s => if s.eof then LoopExit.exhausted s else LoopExit.diverge
  | fuel + 1, s =>
    if s.eof then LoopExit.exhausted s
    else
      match consumeStep cb s with
      | Step.proceed s1 => consumeLoop cb fuel s1
      | Step.stop s1 => LoopExit.stopped s1
      | Step.raise msg s1 => LoopExit.raised msg s1
      | Step.diverge => LoopExit.diverge

/-- The `while (!stream.eof())` loop of `consume` from the stream `s`; every
round consumes at least one character, so the characters left bound the number
of rounds. -/
def consumeWhile (cb : LexerCallback) (s : Stream) : LoopExit :=
  consumeLoop cb (s.buf.length - s.ptr) s

/-- The history at the exit of the loop: the invocations and diagnostics made
from inside the loop. -/
def LoopExit.history : LoopExit → List Obs
  | LoopExit.exhausted s => s.history
  | LoopExit.stopped s => s.history
  | LoopExit.raised _ s => s.history
  | LoopExit.diverge => []

/-- The function `ConfigFile::consume`: the loop, then, when the loop ran out of
input, `callback.consumeEOL(stream); callback.consumeEOF(stream);` with the
answers ignored. -/
def consume (cb : LexerCallback) (s : Stream) : Res Unit :=
  match consumeWhile cb s with
  | LoopExit.exhausted s1 =>
    let s2 := (invoke cb s1 Call.consumeEOL).2
    let s3 := (invoke cb s2 Call.consumeEOF).2
    Res.ok () s3
  | LoopExit.stopped s1 => Res.ok () s1
  | LoopExit.raised msg s1 => Res.throw msg s1
  | LoopExit.diverge => Res.diverge

/-- The callback that always answers "continue". -/
def alwaysContinue : LexerCallback := fun _ _ => true

/-- Scanning a text from a fresh stream: the outcome of `consume`. -/
def scan (cb : LexerCallback) (text : String) : Res Unit :=
  consume cb (Stream.new text.toList "input")

/-! ## The operator spelling table -/

/-- The function `ConfigFile::token`; the `throw std::runtime_error("invalid enum")`
after the `switch` is `Except.error`. -/
def token (op : OPERATOR_TOKEN) : Except String LiteralToken :=
  match op with
  | OPERATOR_TOKEN.PLUS => Except.ok ⟨"+", 1⟩
  | OPERATOR_TOKEN.MINUS => Except.ok ⟨"-", 1⟩
  | OPERATOR_TOKEN.ASTERISK => Except.ok ⟨"*", 1⟩
  | OPERATOR_TOKEN.SLASH => Except.ok ⟨"/", 1⟩
  | OPERATOR_TOKEN.CIRCUMFLEX => Except.ok ⟨"^", 1⟩
  | OPERATOR_TOKEN.TILDE => Except.ok ⟨"~", 1⟩
  | OPERATOR_TOKEN.LPARENT => Except.ok ⟨"(", 1⟩
  | OPERATOR_TOKEN.RPARENT => Except.ok ⟨")", 1⟩
  | OPERATOR_TOKEN.LBRACKET => Except.ok ⟨"[", 1⟩
  | OPERATOR_TOKEN.RBRACKET => Except.ok ⟨"]", 1⟩
  | OPERATOR_TOKEN.LBRACE => Except.ok ⟨"\x7b", 1⟩
  | OPERATOR_TOKEN.RBRACE => Except.ok ⟨"\x7d", 1⟩
  | OPERATOR_TOKEN.QUEST => Except.ok ⟨"?", 1⟩
  | OPERATOR_TOKEN.DOT => Except.ok ⟨".", 1⟩
  | OPERATOR_TOKEN.COLON => Except.ok ⟨":", 1⟩
  | OPERATOR_TOKEN.COMMA => Except.ok ⟨",", 1⟩
  | OPERATOR_TOKEN.SEMICOLON => Except.ok ⟨";", 1⟩
  | OPERATOR_TOKEN.EQ => Except.ok ⟨"=", 1⟩
  | OPERATOR_TOKEN.EEQ => Except.ok ⟨"==", 2⟩
  | OPERATOR_TOKEN.NEQ => Except.ok ⟨"!=", 2⟩
  | OPERATOR_TOKEN.LT => Except.ok ⟨"<", 1⟩
  | OPERATOR_TOKEN.LEQ => Except.ok ⟨"<=", 2⟩
  | OPERATOR_TOKEN.LL => Except.ok ⟨"<<", 2⟩
  | OPERATOR_TOKEN.GT => Except.ok ⟨">", 1⟩
  | OPERATOR_TOKEN.GEQ => Except.ok ⟨">=", 2⟩
  | OPERATOR_TOKEN.GG => Except.ok ⟨">>", 2⟩
  | OPERATOR_TOKEN.AND => Except.ok ⟨"&", 1⟩
  | OPERATOR_TOKEN.AAND => Except.ok ⟨"&&", 2⟩
  | OPERATOR_TOKEN.OR => Except.ok ⟨"|", 1⟩
  | OPERATOR_TOKEN.OOR => Except.ok ⟨"||", 2⟩
  | OPERATOR_TOKEN.BANG => Except.ok ⟨"!", 1⟩
  | OPERATOR_TOKEN.PERCENT => Except.ok ⟨"%", 1⟩
  | OPERATOR_TOKEN.ARROW => Except.ok ⟨"->", 1⟩
  | OPERATOR_TOKEN.INVALID => Except.error "invalid enum"

/-! ## Measures, relations and invariants used in the statements -/

/-- Number of newline characters among the first `p` characters of a buffer. -/
def newlinesBefore (buf : List Char) (p : Nat) : Nat := (buf.take p).count '\n'

/-- The relation `Adv P s t`: `t` is `s` after zero or more `get()` calls made
inside the buffer, every consumed character satisfying `P`. -/
inductive Adv (P : Char → Prop) : Stream → Stream → Prop where
  | refl (s : Stream) : Adv P s s
  | step {s t : Stream} : s.ptr < s.buf.length → P s.current → Adv P s.get t → Adv P s t

/-- Any character. -/
abbrev anyChar : Char → Prop := fun _ => True

/-- Any character but the newline. -/
abbrev notNewline : Char → Prop := fun c => c ≠ '\n'

/-- The line-start list has one entry for the start of the buffer and one per
newline consumed. -/
def LinesInv (s : Stream) : Prop :=
  s.lines.length = 1 + newlinesBefore s.buf s.ptr

/-- What a scanner that takes no callback may do: advance over characters that
satisfy `P` and return, or advance, report and throw; it never runs out of
fuel. -/
def Res.Sound {α : Type} (P : Char → Prop) (s : Stream) : Res α → Prop
  | Res.ok _ t => Adv P s t
  | Res.throw msg t => ∃ s1, Adv anyChar s s1 ∧ t = s1.error msg
  | Res.diverge => False

/-- What a number scanner may do from `s`: advance over characters other than the
newline and hand the span from `start` to the callback as an integer or as a
float literal, or advance, report and throw. -/
inductive Delivers (cb : LexerCallback) (s : Stream) (start : Nat) : Res Bool → Prop where
  | integer (t : Stream) : Adv notNewline s t →
      Delivers cb s start
        (Res.ok (invoke cb t (Call.consumeIntegerLiteral ⟨start, t.ptr⟩)).1
          (invoke cb t (Call.consumeIntegerLiteral ⟨start, t.ptr⟩)).2)
  | float (t : Stream) : Adv notNewline s t →
      Delivers cb s start
        (Res.ok (invoke cb t (Call.consumeFloatLiteral ⟨start, t.ptr⟩)).1
          (invoke cb t (Call.consumeFloatLiteral ⟨start, t.ptr⟩)).2)
  | throw (t : Stream) (msg : String) : Adv anyChar s t →
      Delivers cb s start (Res.throw msg (t.error msg))

/-- What the two overloads of `getTwoCharacterOp` may return: the stream
unchanged with the one-character kind, or the stream after one more `get()` over
the awaited character with a two-character kind. -/
inductive OpResult (s1 : Stream) : Res OPERATOR_TOKEN → Prop where
  | same (op : OPERATOR_TOKEN) : op ≠ OPERATOR_TOKEN.INVALID → OpResult s1 (Res.ok op s1)
  | more (op : OPERATOR_TOKEN) : op ≠ OPERATOR_TOKEN.INVALID → s1.ptr < s1.buf.length →
      s1.current ≠ '\n' → OpResult s1 (Res.ok op s1.get)
  | throw (msg : String) : OpResult s1 (Res.throw msg (s1.error msg))

/-- The content-token invocations that carry the span `t`; an operator
invocation never carries `INVALID`. -/
inductive TokenCall (t : Token) : Call → Prop where
  | identifier : TokenCall t (Call.consumeIdentifier t)
  | integer : TokenCall t (Call.consumeIntegerLiteral t)
  | float : TokenCall t (Call.consumeFloatLiteral t)
  | string : TokenCall t (Call.consumeStringLiteral t)
  | operator (op : OPERATOR_TOKEN) : op ≠ OPERATOR_TOKEN.INVALID →
      TokenCall t (Call.consumeOperator op t)

/-- The five things one round of the loop of `consume` can do from `s`:
skip one blank; consume a newline and invoke `consumeEOL`; scan a comment and
deliver it; scan a content token free of newlines and deliver it; or advance,
report a diagnostic and throw. Tokens span from the position at the start of
the round to the position at the invocation, and that span is not empty. -/
inductive StepSpec (cb : LexerCallback) (s : Stream) : Step → Prop where
  | blank : (s.current = '\r' ∨ s.current = '\t' ∨ s.current = ' ') →
      StepSpec cb s (Step.proceed s.get)
  | eol : s.current = '\n' → StepSpec cb s (deliver cb s.get Call.consumeEOL)
  | comment (t : Stream) : Adv anyChar s t → s.ptr < t.ptr →
      StepSpec cb s (deliver cb t (Call.consumeComment ⟨s.ptr, t.ptr⟩))
  | token (t : Stream) (c : Call) : Adv notNewline s t → s.ptr < t.ptr →
      TokenCall ⟨s.ptr, t.ptr⟩ c → StepSpec cb s (deliver cb t c)
  | raise (t : Stream) (msg : String) : Adv anyChar s t →
      StepSpec cb s (Step.raise msg (t.error msg))

/-- Number of `consumeEOL` invocations in a history. -/
def eolCalls (h : List Obs) : Nat := h.count (Obs.call Call.consumeEOL)

/-- Number of newline characters of the buffer that lie inside the spans handed
to `consumeComment` in a history. -/
def commentNewlines (buf : List Char) : List Obs → Nat
  | [] => 0
  | Obs.call (Call.consumeComment t) :: h => (t.text buf).count '\n' + commentNewlines buf h
  | _ :: h => commentNewlines buf h

/-- A history made of callback invocations only, each of which the callback
answered with `true`. -/
inductive Accepted (cb : LexerCallback) : List Obs → Prop where
  | nil : Accepted cb []
  | snoc (h : List Obs) (c : Call) : Accepted cb h → cb h c = true →
      Accepted cb (h ++ [Obs.call c])

/-- The invariant of the cursor and the history while a scan is under way: the
cursor is inside the buffer, the line-start list has one entry per newline
consumed plus one, every invocation so far was answered `true`, and
`consumeEOF` has not been invoked. -/
structure Sane (cb : LexerCallback) (s : Stream) : Prop where
  bound : s.ptr ≤ s.buf.length
  lines : LinesInv s
  accepted : Accepted cb s.history
  noEOF : Obs.call Call.consumeEOF ∉ s.history

/-- The counting invariant at the head of the loop: every newline consumed so
far either produced one `consumeEOL` invocation or lies inside a delivered
comment. -/
def Counted (s : Stream) : Prop :=
  s.lines.length = 1 + eolCalls s.history + commentNewlines s.buf s.history

/-- Relation of two states of one scan: same buffer and name, the history of
the first is an initial part of the history of the second. -/
structure Extends (s t : Stream) : Prop where
  buf : t.buf = s.buf
  name : t.stream_name = s.stream_name
  hist : s.history <+: t.history
  ptr : s.ptr ≤ t.ptr

/-- What one round of the loop amounts to for the invariants. -/
inductive StepOutcome (cb : LexerCallback) (s : Stream) : Step → Prop where
  | proceed (t : Stream) : Sane cb t → Counted t → Extends s t → s.ptr < t.ptr →
      StepOutcome cb s (Step.proceed t)
  | stop (t : Stream) (c : Call) : Sane cb t → Extends s t → cb t.history c = false →
      c ≠ Call.consumeEOF → StepOutcome cb s (Step.stop (invoke cb t c).2)
  | raise (t : Stream) (msg : String) : Sane cb t → Extends s t →
      StepOutcome cb s (Step.raise msg (t.error msg))

/-- What the loop of `consume` amounts to, seen from the state `s` it starts
in: it runs out of input in a state that satisfies the invariants, or it stops
on an invocation answered `false`, or it throws right after a diagnostic; it
never runs out of fuel. -/
inductive ExitSpec (cb : LexerCallback) (s : Stream) : LoopExit → Prop where
  | exhausted (t : Stream) : Sane cb t → Counted t → Extends s t → t.ptr = t.buf.length →
      ExitSpec cb s (LoopExit.exhausted t)
  | stopped (t : Stream) (c : Call) : Sane cb t → Extends s t → cb t.history c = false →
      c ≠ Call.consumeEOF → ExitSpec cb s (LoopExit.stopped (invoke cb t c).2)
  | raised (t : Stream) (msg : String) : Sane cb t → Extends s t →
      ExitSpec cb s (LoopExit.raised msg (t.error msg))

/-- The history a result carries (empty for `diverge`). -/
def Res.history {α : Type} : Res α → List Obs
  | Res.ok _ s => s.history
  | Res.throw _ s => s.history
  | Res.diverge => []

/-- Number of consecutive backslashes that immediately precede position `i`. -/
def backslashesBefore (buf : List Char) : Nat → Nat
  | 0 => 0
  | i + 1 => if buf.getD i NUL = BACKSLASH then backslashesBefore buf i + 1 else 0

/-- Position `q` holds a double quote preceded by an even number (possibly
zero) of consecutive backslashes. -/
abbrev closesAt (buf : List Char) (q : Nat) : Prop :=
  buf.getD q NUL = QUOTE ∧ backslashesBefore buf q % 2 = 0

/-- The characters from the cursor to the end boundary. -/
def Stream.rest (s : Stream) : List Char := s.buf.drop s.ptr

/-- The stream `t` is the stream `s` after `k` more characters: same buffer and
history, `r` is what is left of the input. -/
structure Moved (s t : Stream) (k : Nat) (r : List Char) : Prop where
  rest : t.rest = r
  ptr : t.ptr = s.ptr + k
  history : t.history = s.history
  buf : t.buf = s.buf

/-- An exponent: `e` or `E`, an optional `+` or `-`, and at least one decimal
digit. -/
def IsExponent (ex : List Char) : Prop :=
  ∃ e sg xs, ex = e :: (sg ++ xs) ∧ (e = 'e' ∨ e = 'E') ∧
    (sg = [] ∨ sg = ['+'] ∨ sg = ['-']) ∧ xs ≠ [] ∧ ∀ c ∈ xs, isdigit_dec c = true

/-- An identifier as the driver loop recognises it at its default case: a
character of class `isalpha` other than `.` (which the loop dispatches on
before), followed by characters of class `isalnum`. -/
def IsIdentifier (text : List Char) : Prop :=
  ∃ a r, text = a :: r ∧ isalpha a = true ∧ a ≠ '.' ∧ ∀ c ∈ r, isalnum c = true

/-- The span a content-token invocation carries (identifier, integer, float,
string, operator, comment); `consumeEOL` and `consumeEOF` carry none. -/
def Call.span? : Call → Option Token
  | Call.consumeIdentifier t => some t
  | Call.consumeIntegerLiteral t => some t
  | Call.consumeFloatLiteral t => some t
  | Call.consumeStringLiteral t => some t
  | Call.consumeOperator _ t => some t
  | Call.consumeComment t => some t
  | Call.consumeEOL => none
  | Call.consumeEOF => none

/-- The span an entry of the history carries. -/
def Obs.span? : Obs → Option Token
  | Obs.call c => c.span?
  | Obs.error _ => none

/-- The token spans handed to the callback in a history, in order of delivery. -/
def spans (h : List Obs) : List Token := h.filterMap Obs.span?

/-- The characters the driver loop consumes without a content token: `\r`,
`\t`, space and newline. -/
abbrev isBlank (c : Char) : Prop := c = '\r' ∨ c = '\t' ∨ c = ' ' ∨ c = '\n'

/-- Position `i` lies inside one of the spans delivered in the history. -/
abbrev coveredBy (h : List Obs) (i : Nat) : Prop := ∃ t ∈ spans h, t.start ≤ i ∧ i < t.stop

/-- The spans of a history tile the buffer up to position `p`: each span is
non-empty and ends at or before `p`, every span starts at or after the end of
the spans delivered before it, and every character before `p` is inside a span
or is a blank. -/
structure Tiled (buf : List Char) (h : List Obs) (p : Nat) : Prop where
  nonempty : ∀ t ∈ spans h, t.start < t.stop
  inside : ∀ t ∈ spans h, t.stop ≤ p
  ordered : (spans h).Pairwise (fun a b => a.stop ≤ b.start)
  covered : ∀ i, i < p → coveredBy h i ∨ isBlank (buf.getD i NUL)

/-- What the loop of `consume` guarantees about the spans on a buffer `buf`: when
it runs out of input or stops on a callback, the spans tile the buffer up to the
cursor; when it throws, they tile it up to some position at or before the
cursor (the start of the round that failed). -/
def TiledExit (buf : List Char) : LoopExit → Prop
  | LoopExit.exhausted t => Tiled t.buf t.history t.ptr ∧ t.ptr ≤ t.buf.length ∧ t.buf = buf
  | LoopExit.stopped t => Tiled t.buf t.history t.ptr ∧ t.ptr ≤ t.buf.length ∧ t.buf = buf
  | LoopExit.raised _ t =>
    (∃ p, p ≤ t.ptr ∧ Tiled t.buf t.history p) ∧ t.ptr ≤ t.buf.length ∧ t.buf = buf
  | LoopExit.diverge => False

/-! ## The scanner with checked reads

The same functions once more, with every `*stream.current()` going through
`Stream.currentChecked`, which has no value at the end boundary. A function
returns `none` when it performs such a read; otherwise it returns what the
function above returns. `Stream::get`, `Stream::error`, `next` and the callback
invocations perform no `*stream.current()` and are used as they are. -/

/-- Modelled from the spec: `*stream.current()` with the caller's obligation
made explicit ("callers must always check `eof()` before dereferencing"): the
character at the present position, and no value at the end boundary. -/
def Stream.currentChecked (s : Stream) : Option Char :=
  if s.eof then none else some s.current

/-- The helper `invalidCharacter`, reads checked. -/
def invalidCharacterChecked {α : Type} (s : Stream) : Option (Res α) :=
  s.currentChecked.bind fun c =>
    let msg := invalidCharacterMessage c
    some (Res.throw msg (s.error msg))

/-- The loop of `readSequence`, reads checked: `!stream.eof() && f(*stream.current())`
reads only when `eof()` is false. -/
def readSequenceLoopChecked (f : Char → Bool) : Nat → Stream → Option Stream
  | 0, s => some s
  | fuel + 1, s =>
    if s.eof then some s
    else
      match s.currentChecked with
      | none => none
      | some c => if f c then readSequenceLoopChecked f fuel s.get else some s

/-- The template `readSequence`, reads checked. -/
def readSequenceChecked (f : Char → Bool) (s : Stream) : Option Stream :=
  readSequenceLoopChecked f (s.buf.length - s.ptr) s

/-- The scanner `readLineComment`, reads checked. -/
def readLineCommentChecked (s : Stream) : Option Stream :=
  readSequenceChecked (fun c => decide (c ≠ '\n')) s

/-- The `while (true)` loop of `readBlockComment`, reads checked. -/
def readBlockCommentLoopChecked : Nat → Stream → Char → Option (Res Unit)
  | 0, _, _ => some Res.diverge
  | fuel + 1, s, c0 =>
    match next s with
    | Res.ok _ s1 =>
      match s1.currentChecked with
      | none => none
      | some c1 =>
        if c0 = '*' ∧ c1 = '/' then some (Res.ok () s1)
        else readBlockCommentLoopChecked fuel s1 c1
    | Res.throw msg s1 => some (Res.throw msg s1)
    | Res.diverge => some Res.diverge

/-- The scanner `readBlockComment`, reads checked. -/
def readBlockCommentChecked (s : Stream) : Option (Res Unit) :=
  match next s with
  | Res.ok _ s1 =>
    s1.currentChecked.bind fun c0 =>
      readBlockCommentLoopChecked (s1.buf.length - s1.ptr) s1 c0
  | Res.throw msg s1 => some (Res.throw msg s1)
  | Res.diverge => some Res.diverge

/-- The scanner `readIdentifier`, reads checked. -/
def readIdentifierChecked (s : Stream) : Option Stream :=
  readSequenceChecked isalnum s

/-- The `while (true)` loop of `readStringLiteral`, reads checked: the first
condition of each round reads `*stream.current()` before `eof()` is asked. -/
def readStringLiteralLoopChecked : Nat → Stream → Bool → Option (Res Unit)
  | 0, _, _ => some Res.diverge
  | fuel + 1, s, escape =>
    match s.currentChecked with
    | none => none
    | some c =>
      if c = QUOTE ∧ escape = false then
        some (Res.ok () s.get)
      else if c = '\n' then
        some (Res.throw "line break in string literal" (s.error "line break in string literal"))
      else if s.eof then
        some (Res.throw "end of file in string literal" (s.error "end of file in string literal"))
      else if c = BACKSLASH ∧ escape = false then
        match next s with
        | Res.ok _ s1 => readStringLiteralLoopChecked fuel s1 true
        | Res.throw msg s1 => some (Res.throw msg s1)
        | Res.diverge => some Res.diverge
      else
        match next s with
        | Res.ok _ s1 => readStringLiteralLoopChecked fuel s1 false
        | Res.throw msg s1 => some (Res.throw msg s1)
        | Res.diverge => some Res.diverge

/-- The scanner `readStringLiteral`, reads checked. -/
def readStringLiteralChecked (s : Stream) : Option (Res Unit) :=
  readStringLiteralLoopChecked (s.buf.length - s.ptr + 1) s false

/-- The part of `readFloatLiteralExponent` after `next(stream)`, reads checked:
the sign, the digit test, `invalidCharacter` or the digits; `deliver` is the
final callback invocation. -/
def readExponentDigitsChecked (deliver : Stream → Res Bool) (s1 : Stream) :
    Option (Res Bool) :=
  s1.currentChecked.bind fun c1 =>
    let afterSign : Res Unit :=
      if c1 = '+' ∨ c1 = '-' then next s1 else Res.ok () s1
    match afterSign with
    | Res.ok _ s2 =>
      s2.currentChecked.bind fun c2 =>
        if !isdigit_dec c2 then invalidCharacterChecked s2
        else (readSequenceChecked isdigit_dec s2).map deliver
    | Res.throw msg s2 => some (Res.throw msg s2)
    | Res.diverge => some Res.diverge

/-- The scanner `readFloatLiteralExponent`, reads checked. -/
def readFloatLiteralExponentChecked (cb : LexerCallback) (s : Stream) (start : Nat) :
    Option (Res Bool) :=
  let deliver (s : Stream) : Res Bool :=
    let r := invoke cb s (Call.consumeFloatLiteral ⟨start, s.ptr⟩)
    Res.ok r.1 r.2
  if s.eof then some (deliver s)
  else
    s.currentChecked.bind fun c =>
      if c = 'e' ∨ c = 'E' then
        match next s with
        | Res.ok _ s1 => readExponentDigitsChecked deliver s1
        | Res.throw msg s1 => some (Res.throw msg s1)
        | Res.diverge => some Res.diverge
      else
        some (deliver s)

/-- The scanner `readFloatLiteralFraction`, reads checked. -/
def readFloatLiteralFractionChecked (cb : LexerCallback) (s : Stream) (start : Nat) :
    Option (Res Bool) :=
  (readSequenceChecked isdigit_dec s).bind fun s1 =>
    readFloatLiteralExponentChecked cb s1 start

/-- The scanner `readNumberLiteral`, reads checked. -/
def readNumberLiteralChecked (cb : LexerCallback) (s : Stream) (start : Nat) :
    Option (Res Bool) :=
  (readSequenceChecked isdigit_dec s).bind fun s1 =>
    let integer : Res Bool :=
      let r := invoke cb s1 (Call.consumeIntegerLiteral ⟨start, s1.ptr⟩)
      Res.ok r.1 r.2
    if s1.eof then some integer
    else
      s1.currentChecked.bind fun c =>
        if c = '.' then readFloatLiteralFractionChecked cb s1.get start
        else some integer

/-- The scanner `readNumberLiteralPrefix`, reads checked: its first statement
reads `*stream.current()` without asking `eof()`. -/
def readNumberLiteralPrefixChecked (cb : LexerCallback) (s : Stream) (start : Nat) :
    Option (Res Bool) :=
  s.currentChecked.bind fun c =>
    if c = 'x' ∨ c = 'X' then
      let letterAt := s.ptr
      (readSequenceChecked isdigit_hex s.get).bind fun s1 =>
        if (s1.ptr : Int) - (letterAt : Int) ≤ 1 then invalidCharacterChecked s1
        else
          let r := invoke cb s1 (Call.consumeIntegerLiteral ⟨start, s1.ptr⟩)
          some (Res.ok r.1 r.2)
    else
      readNumberLiteralChecked cb s start

/-- The four-argument overload of `getTwoCharacterOp`, reads checked. -/
def getTwoCharacterOpChecked (s : Stream) (op1 : OPERATOR_TOKEN) (c2 : Char)
    (op2 : OPERATOR_TOKEN) : Option (OPERATOR_TOKEN × Stream) :=
  if s.eof then some (op1, s)
  else s.currentChecked.bind fun c => if c = c2 then some (op2, s.get) else some (op1, s)

/-- The six-argument overload of `getTwoCharacterOp`, reads checked. -/
def getTwoCharacterOp3Checked (s : Stream) (op1 : OPERATOR_TOKEN) (c2 : Char)
    (op2 : OPERATOR_TOKEN) (c3 : Char) (op3 : OPERATOR_TOKEN) :
    Option (OPERATOR_TOKEN × Stream) :=
  if s.eof then some (op1, s)
  else
    s.currentChecked.bind fun c =>
      if c = c2 then some (op2, s.get)
      else if c = c3 then some (op3, s.get)
      else some (op1, s)

/-- The `switch` of `getOperator`, reads checked; after the `switch`,
`invalidCharacter(stream)` reads at the position after the consumed character. -/
def getOperatorCaseChecked (c : Char) (s1 : Stream) : Option (Res OPERATOR_TOKEN) :=
  if c = '+' then some (Res.ok OPERATOR_TOKEN.PLUS s1)
  else if c = '-' then
    (getTwoCharacterOpChecked s1 OPERATOR_TOKEN.MINUS '>' OPERATOR_TOKEN.ARROW).map Res.ofPair
  else if c = '*' then some (Res.ok OPERATOR_TOKEN.ASTERISK s1)
  else if c = '^' then some (Res.ok OPERATOR_TOKEN.CIRCUMFLEX s1)
  else if c = '~' then some (Res.ok OPERATOR_TOKEN.TILDE s1)
  else if c = '(' then some (Res.ok OPERATOR_TOKEN.LPARENT s1)
  else if c = ')' then some (Res.ok OPERATOR_TOKEN.RPARENT s1)
  else if c = '{' then some (Res.ok OPERATOR_TOKEN.LBRACE s1)
  else if c = '}' then some (Res.ok OPERATOR_TOKEN.RBRACE s1)
  else if c = '[' then some (Res.ok OPERATOR_TOKEN.LBRACKET s1)
  else if c = ']' then some (Res.ok OPERATOR_TOKEN.RBRACKET s1)
  else if c = '?' then some (Res.ok OPERATOR_TOKEN.QUEST s1)
  else if c = ':' then some (Res.ok OPERATOR_TOKEN.COLON s1)
  else if c = ',' then some (Res.ok OPERATOR_TOKEN.COMMA s1)
  else if c = ';' then some (Res.ok OPERATOR_TOKEN.SEMICOLON s1)
  else if c = '<' then
    (getTwoCharacterOp3Checked s1 OPERATOR_TOKEN.LT '=' OPERATOR_TOKEN.LEQ '<'
      OPERATOR_TOKEN.LL).map Res.ofPair
  else if c = '>' then
    (getTwoCharacterOp3Checked s1 OPERATOR_TOKEN.GT '=' OPERATOR_TOKEN.GEQ '<'
      OPERATOR_TOKEN.GG).map Res.ofPair
  else if c = '&' then
    (getTwoCharacterOpChecked s1 OPERATOR_TOKEN.AND '&' OPERATOR_TOKEN.AAND).map Res.ofPair
  else if c = '|' then
    (getTwoCharacterOpChecked s1 OPERATOR_TOKEN.OR '&' OPERATOR_TOKEN.OOR).map Res.ofPair
  else if c = '=' then
    (getTwoCharacterOpChecked s1 OPERATOR_TOKEN.EQ '=' OPERATOR_TOKEN.EEQ).map Res.ofPair
  else if c = '!' then
    (getTwoCharacterOpChecked s1 OPERATOR_TOKEN.BANG '=' OPERATOR_TOKEN.NEQ).map Res.ofPair
  else invalidCharacterChecked s1

/-- The function `getOperator`, reads checked: `*stream.get()` reads the
character at the position before the advance. -/
def getOperatorChecked (s : Stream) : Option (Res OPERATOR_TOKEN) :=
  s.currentChecked.bind fun c => getOperatorCaseChecked c s.get

/-- The pattern `readX(stream); if (!callback.consumeX(stream, Token(begin,
stream.current()))) return stream; break;` for a scanner that may throw. -/
def deliverAfter (cb : LexerCallback) (call : Stream → Call) : Res Unit → Step
  | Res.ok _ s2 => deliver cb s2 (call s2)
  | Res.throw msg s2 => Step.raise msg s2
  | Res.diverge => Step.diverge

/-- The body of the `while` loop of `consume`, reads checked. -/
def consumeStepChecked (cb : LexerCallback) (s : Stream) : Option Step :=
  s.currentChecked.bind fun c =>
    let start := s.ptr
    if c = '/' then
      let s1 := s.get
      let slash := deliver cb s1 (Call.consumeOperator OPERATOR_TOKEN.SLASH ⟨start, s1.ptr⟩)
      if s1.eof then some slash
      else
        s1.currentChecked.bind fun c1 =>
          if c1 = '/' then
            (readLineCommentChecked s1).map fun s2 =>
              deliver cb s2 (Call.consumeComment ⟨start, s2.ptr⟩)
          else if c1 = '*' then
            (readBlockCommentChecked s1).map
              (deliverAfter cb fun s2 => Call.consumeComment ⟨start, s2.ptr⟩)
          else some slash
    else if c = '.' then
      let s1 := s.get
      let dot := deliver cb s1 (Call.consumeOperator OPERATOR_TOKEN.DOT ⟨start, s1.ptr⟩)
      if s1.eof then some dot
      else
        s1.currentChecked.bind fun c1 =>
          if isdigit_dec c1 then (readFloatLiteralFractionChecked cb s1 start).map Step.ofRes
          else some dot
    else if c = '%' then
      let s1 := s.get
      let percent :=
        deliver cb s1 (Call.consumeOperator OPERATOR_TOKEN.PERCENT ⟨start, s1.ptr⟩)
      if s1.eof then some percent
      else
        s1.currentChecked.bind fun c1 =>
          if isalnum c1 then
            (readIdentifierChecked s1).map fun s2 =>
              deliver cb s2 (Call.consumeIdentifier ⟨start, s2.ptr⟩)
          else some percent
    else if c = '0' then
      (readNumberLiteralPrefixChecked cb s.get start).map Step.ofRes
    else if c = QUOTE then
      (readStringLiteralChecked s.get).map
        (deliverAfter cb fun s2 => Call.consumeStringLiteral ⟨start, s2.ptr⟩)
    else if c = '\n' then
      some (deliver cb s.get Call.consumeEOL)
    else if c = '\r' ∨ c = '\t' ∨ c = ' ' then
      some (Step.proceed s.get)
    else if isdigit_dec c then
      (readNumberLiteralChecked cb s start).map Step.ofRes
    else if isalnum c then
      (readIdentifierChecked s).map fun s2 =>
        deliver cb s2 (Call.consumeIdentifier ⟨start, s2.ptr⟩)
    else
      (getOperatorChecked s).map fun r =>
        match r with
        | Res.ok op s2 => deliver cb s2 (Call.consumeOperator op ⟨start, s2.ptr⟩)
        | Res.throw msg s2 => Step.raise msg s2
        | Res.diverge => Step.diverge

/-- The `while (!stream.eof())` loop of `consume`, reads checked, run for at
most `fuel` rounds. -/
def consumeLoopChecked (cb : LexerCallback) : Nat → Stream → Option LoopExit
  | 0, s => some (if s.eof then LoopExit.exhausted s else LoopExit.diverge)
  | fuel + 1, s =>
    if s.eof then some (LoopExit.exhausted s)
    else
      match consumeStepChecked cb s with
      | none => none
      | some (Step.proceed s1) => consumeLoopChecked cb fuel s1
      | some (Step.stop s1) => some (LoopExit.stopped s1)
      | some (Step.raise msg s1) => some (LoopExit.raised msg s1)
      | some Step.diverge => some LoopExit.diverge

/-- The function `ConfigFile::consume`, reads checked: `none` when the scan
reads `*stream.current()` at the end boundary, the outcome of the scan otherwise. -/
def consumeChecked (cb : LexerCallback) (s : Stream) : Option (Res Unit) :=
  (consumeLoopChecked cb (s.buf.length - s.ptr) s).map fun e =>
    match e with
    | LoopExit.exhausted s1 =>
      let s2 := (invoke cb s1 Call.consumeEOL).2
      let s3 := (invoke cb s2 Call.consumeEOF).2
      Res.ok () s3
    | LoopExit.stopped s1 => Res.ok () s1
    | LoopExit.raised msg s1 => Res.throw msg s1
    | LoopExit.diverge => Res.diverge

/-! ## The scanner over the memory after the buffer

The same functions a third time, for a buffer that is followed in memory by the
characters `m 0`, `m 1`, ...: a read of `*stream.current()` at the end boundary
or after it yields what is stored there, and `get()` advances over it. Inside
the buffer nothing changes. `Stream::eof`, `Stream::error` and the callback
invocations are used as they are. -/

/-- Modelled from the spec: `*stream.current()` when the characters stored at
and after the end boundary are `m 0`, `m 1`, ...: the character at the present
position. The spec leaves the read at the end boundary undefined; here it yields
what the memory holds there. -/
def Stream.currentBeyond (m : Nat → Char) (s : Stream) : Char :=
  if s.ptr < s.buf.length then s.current else m (s.ptr - s.buf.length)

/-- Modelled from the spec: `Stream::get()` over the memory `m`: advance by one
and, if the advanced-over character is a newline, append the new position to the
line-start list. -/
def Stream.getBeyond (m : Nat → Char) (s : Stream) : Stream :=
  { s with
    ptr := s.ptr + 1
    lines := if s.currentBeyond m = '\n' then s.lines ++ [s.ptr + 1] else s.lines }

/-- The helper `invalidCharacter` over the memory `m`: report and throw, naming
`*stream.current()`. -/
def invalidCharacterBeyond (m : Nat → Char) {α : Type} (s : Stream) : Res α :=
  let msg := invalidCharacterMessage (s.currentBeyond m)
  Res.throw msg (s.error msg)

/-- The helper `next` over the memory `m`: `get()`, then report and throw if that
reached the end. -/
def nextBeyond (m : Nat → Char) (s : Stream) : Res Unit :=
  let s1 := s.getBeyond m
  if s1.eof then
    Res.throw "unexpected end of file" (s1.error "unexpected end of file")
  else
    Res.ok () s1

/-- The loop of `readSequence` over the memory `m`, run for at most `fuel`
characters. -/
def readSequenceLoopBeyond (m : Nat → Char) (f : Char → Bool) : Nat → Stream → Stream
  | 0, s => s
  | fuel + 1, s =>
    if !s.eof && f (s.currentBeyond m) then readSequenceLoopBeyond m f fuel (s.getBeyond m)
    else s

/-- The template `readSequence` over the memory `m`:
`while (!eof && f(*current)) get()`. -/
def readSequenceBeyond (m : Nat → Char) (f : Char → Bool) (s : Stream) : Stream :=
  readSequenceLoopBeyond m f (s.buf.length - s.ptr) s

/-- The scanner `readLineComment` over the memory `m`. -/
def readLineCommentBeyond (m : Nat → Char) (s : Stream) : Stream :=
  readSequenceBeyond m (fun c => decide (c ≠ '\n')) s

/-- The `while (true)` loop of `readBlockComment` over the memory `m`. -/
def readBlockCommentLoopBeyond (m : Nat → Char) : Nat → Stream → Char → Res Unit
  | 0, _, _ => Res.diverge
  | fuel + 1, s, c0 =>
    match nextBeyond m s with
    | Res.ok _ s1 =>
      let c1 := s1.currentBeyond m
      if c0 = '*' ∧ c1 = '/' then Res.ok () s1
      else readBlockCommentLoopBeyond m fuel s1 c1
    | Res.throw msg s1 => Res.throw msg s1
    | Res.diverge => Res.diverge

/-- The scanner `readBlockComment` over the memory `m`. -/
def readBlockCommentBeyond (m : Nat → Char) (s : Stream) : Res Unit :=
  match nextBeyond m s with
  | Res.ok _ s1 => readBlockCommentLoopBeyond m (s1.buf.length - s1.ptr) s1 (s1.currentBeyond m)
  | Res.throw msg s1 => Res.throw msg s1
  | Res.diverge => Res.diverge

/-- The scanner `readIdentifier` over the memory `m`. -/
def readIdentifierBeyond (m : Nat → Char) (s : Stream) : Stream :=
  readSequenceBeyond m isalnum s

/-- The `while (true)` loop of `readStringLiteral` over the memory `m`, with its
`escape` flag. -/
def readStringLiteralLoopBeyond (m : Nat → Char) : Nat → Stream → Bool → Res Unit
  | 0, _, _ => Res.diverge
  | fuel + 1, s, escape =>
    if s.currentBeyond m = QUOTE ∧ escape = false then
      Res.ok () (s.getBeyond m)
    else if s.currentBeyond m = '\n' then
      Res.throw "line break in string literal" (s.error "line break in string literal")
    else if s.eof then
      Res.throw "end of file in string literal" (s.error "end of file in string literal")
    else if s.currentBeyond m = BACKSLASH ∧ escape = false then
      match nextBeyond m s with
      | Res.ok _ s1 => readStringLiteralLoopBeyond m fuel s1 true
      | Res.throw msg s1 => Res.throw msg s1
      | Res.diverge => Res.diverge
    else
      match nextBeyond m s with
      | Res.ok _ s1 => readStringLiteralLoopBeyond m fuel s1 false
      | Res.throw msg s1 => Res.throw msg s1
      | Res.diverge => Res.diverge

/-- The scanner `readStringLiteral` over the memory `m`. -/
def readStringLiteralBeyond (m : Nat → Char) (s : Stream) : Res Unit :=
  readStringLiteralLoopBeyond m (s.buf.length - s.ptr + 1) s false

/-- The scanner `readFloatLiteralExponent` over the memory `m`; `start` is its
`begin` argument. -/
def readFloatLiteralExponentBeyond (m : Nat → Char) (cb : LexerCallback) (s : Stream)
    (start : Nat) : Res Bool :=
  let deliver (s : Stream) : Res Bool :=
    let r := invoke cb s (Call.consumeFloatLiteral ⟨start, s.ptr⟩)
    Res.ok r.1 r.2
  if !s.eof && (decide (s.currentBeyond m = 'e') || decide (s.currentBeyond m = 'E')) then
    match nextBeyond m s with
    | Res.ok _ s1 =>
      let afterSign : Res Unit :=
        if s1.currentBeyond m = '+' ∨ s1.currentBeyond m = '-' then nextBeyond m s1
        else Res.ok () s1
      match afterSign with
      | Res.ok _ s2 =>
        if !isdigit_dec (s2.currentBeyond m) then invalidCharacterBeyond m s2
        else deliver (readSequenceBeyond m isdigit_dec s2)
      | Res.throw msg s2 => Res.throw msg s2
      | Res.diverge => Res.diverge
    | Res.throw msg s1 => Res.throw msg s1
    | Res.diverge => Res.diverge
  else
    deliver s

/-- The scanner `readFloatLiteralFraction` over the memory `m`. -/
def readFloatLiteralFractionBeyond (m : Nat → Char) (cb : LexerCallback) (s : Stream)
    (start : Nat) : Res Bool :=
  readFloatLiteralExponentBeyond m cb (readSequenceBeyond m isdigit_dec s) start

/-- The scanner `readNumberLiteral` over the memory `m`. -/
def readNumberLiteralBeyond (m : Nat → Char) (cb : LexerCallback) (s : Stream) (start : Nat) :
    Res Bool :=
  let s1 := readSequenceBeyond m isdigit_dec s
  if !s1.eof && decide (s1.currentBeyond m = '.') then
    readFloatLiteralFractionBeyond m cb (s1.getBeyond m) start
  else
    let r := invoke cb s1 (Call.consumeIntegerLiteral ⟨start, s1.ptr⟩)
    Res.ok r.1 r.2

/-- The scanner `readNumberLiteralPrefix` over the memory `m`. -/
def readNumberLiteralPrefixBeyond (m : Nat → Char) (cb : LexerCallback) (s : Stream)
    (start : Nat) : Res Bool :=
  if s.currentBeyond m = 'x' ∨ s.currentBeyond m = 'X' then
    let letterAt := s.ptr
    let s1 := readSequenceBeyond m isdigit_hex (s.getBeyond m)
    if (s1.ptr : Int) - (letterAt : Int) ≤ 1 then invalidCharacterBeyond m s1
    else
      let r := invoke cb s1 (Call.consumeIntegerLiteral ⟨start, s1.ptr⟩)
      Res.ok r.1 r.2
  else
    readNumberLiteralBeyond m cb s start

/-- The four-argument overload of `getTwoCharacterOp` over the memory `m`. -/
def getTwoCharacterOpBeyond (m : Nat → Char) (s : Stream) (op1 : OPERATOR_TOKEN) (c2 : Char)
    (op2 : OPERATOR_TOKEN) : OPERATOR_TOKEN × Stream :=
  if !s.eof && decide (s.currentBeyond m = c2) then (op2, (s.getBeyond m)) else (op1, s)

/-- The six-argument overload of `getTwoCharacterOp` over the memory `m`. -/
def getTwoCharacterOp3Beyond (m : Nat → Char) (s : Stream) (op1 : OPERATOR_TOKEN) (c2 : Char)
    (op2 : OPERATOR_TOKEN) (c3 : Char) (op3 : OPERATOR_TOKEN) : OPERATOR_TOKEN × Stream :=
  if !s.eof then
    if s.currentBeyond m = c2 then (op2, (s.getBeyond m))
    else if s.currentBeyond m = c3 then (op3, (s.getBeyond m))
    else (op1, s)
  else (op1, s)

/-- The `switch` of `getOperator` over the memory `m`, on the character `c` that
`get()` has just consumed, `s1` being the stream after that `get()`. -/
def getOperatorCaseBeyond (m : Nat → Char) (c : Char) (s1 : Stream) : Res OPERATOR_TOKEN :=
  if c = '+' then Res.ok OPERATOR_TOKEN.PLUS s1
  else if c = '-' then
    Res.ofPair (getTwoCharacterOpBeyond m s1 OPERATOR_TOKEN.MINUS '>' OPERATOR_TOKEN.ARROW)
  else if c = '*' then Res.ok OPERATOR_TOKEN.ASTERISK s1
  else if c = '^' then Res.ok OPERATOR_TOKEN.CIRCUMFLEX s1
  else if c = '~' then Res.ok OPERATOR_TOKEN.TILDE s1
  else if c = '(' then Res.ok OPERATOR_TOKEN.LPARENT s1
  else if c = ')' then Res.ok OPERATOR_TOKEN.RPARENT s1
  else if c = '{' then Res.ok OPERATOR_TOKEN.LBRACE s1
  else if c = '}' then Res.ok OPERATOR_TOKEN.RBRACE s1
  else if c = '[' then Res.ok OPERATOR_TOKEN.LBRACKET s1
  else if c = ']' then Res.ok OPERATOR_TOKEN.RBRACKET s1
  else if c = '?' then Res.ok OPERATOR_TOKEN.QUEST s1
  else if c = ':' then Res.ok OPERATOR_TOKEN.COLON s1
  else if c = ',' then Res.ok OPERATOR_TOKEN.COMMA s1
  else if c = ';' then Res.ok OPERATOR_TOKEN.SEMICOLON s1
  else if c = '<' then
    Res.ofPair
      (getTwoCharacterOp3Beyond m s1 OPERATOR_TOKEN.LT '=' OPERATOR_TOKEN.LEQ '<' OPERATOR_TOKEN.LL)
  else if c = '>' then
    Res.ofPair
      (getTwoCharacterOp3Beyond m s1 OPERATOR_TOKEN.GT '=' OPERATOR_TOKEN.GEQ '<' OPERATOR_TOKEN.GG)
  else if c = '&' then
    Res.ofPair (getTwoCharacterOpBeyond m s1 OPERATOR_TOKEN.AND '&' OPERATOR_TOKEN.AAND)
  else if c = '|' then
    Res.ofPair (getTwoCharacterOpBeyond m s1 OPERATOR_TOKEN.OR '&' OPERATOR_TOKEN.OOR)
  else if c = '=' then
    Res.ofPair (getTwoCharacterOpBeyond m s1 OPERATOR_TOKEN.EQ '=' OPERATOR_TOKEN.EEQ)
  else if c = '!' then
    Res.ofPair (getTwoCharacterOpBeyond m s1 OPERATOR_TOKEN.BANG '=' OPERATOR_TOKEN.NEQ)
  else invalidCharacterBeyond m s1

/-- The function `getOperator` over the memory `m`: `switch (*stream.get())`, and
after the `switch` `invalidCharacter(stream)`. -/
def getOperatorBeyond (m : Nat → Char) (s : Stream) : Res OPERATOR_TOKEN :=
  getOperatorCaseBeyond m (s.currentBeyond m) (s.getBeyond m)

/-- The body of the `while` loop of `consume` over the memory `m`: the `switch` on
`*stream.current()`. -/
def consumeStepBeyond (m : Nat → Char) (cb : LexerCallback) (s : Stream) : Step :=
  let c := s.currentBeyond m
  let start := s.ptr
  if c = '/' then
    let s1 := s.getBeyond m
    if !s1.eof && decide (s1.currentBeyond m = '/') then
      let s2 := readLineCommentBeyond m s1
      deliver cb s2 (Call.consumeComment ⟨start, s2.ptr⟩)
    else if !s1.eof && decide (s1.currentBeyond m = '*') then
      match readBlockCommentBeyond m s1 with
      | Res.ok _ s2 => deliver cb s2 (Call.consumeComment ⟨start, s2.ptr⟩)
      | Res.throw msg s2 => Step.raise msg s2
      | Res.diverge => Step.diverge
    else
      deliver cb s1 (Call.consumeOperator OPERATOR_TOKEN.SLASH ⟨start, s1.ptr⟩)
  else if c = '.' then
    let s1 := s.getBeyond m
    if !s1.eof && isdigit_dec (s1.currentBeyond m) then
      Step.ofRes (readFloatLiteralFractionBeyond m cb s1 start)
    else
      deliver cb s1 (Call.consumeOperator OPERATOR_TOKEN.DOT ⟨start, s1.ptr⟩)
  else if c = '%' then
    let s1 := s.getBeyond m
    if !s1.eof && isalnum (s1.currentBeyond m) then
      let s2 := readIdentifierBeyond m s1
      deliver cb s2 (Call.consumeIdentifier ⟨start, s2.ptr⟩)
    else
      deliver cb s1 (Call.consumeOperator OPERATOR_TOKEN.PERCENT ⟨start, s1.ptr⟩)
  else if c = '0' then
    Step.ofRes (readNumberLiteralPrefixBeyond m cb (s.getBeyond m) start)
  else if c = QUOTE then
    match readStringLiteralBeyond m (s.getBeyond m) with
    | Res.ok _ s2 => deliver cb s2 (Call.consumeStringLiteral ⟨start, s2.ptr⟩)
    | Res.throw msg s2 => Step.raise msg s2
    | Res.diverge => Step.diverge
  else if c = '\n' then
    deliver cb (s.getBeyond m) Call.consumeEOL
  else if c = '\r' ∨ c = '\t' ∨ c = ' ' then
    Step.proceed (s.getBeyond m)
  else if isdigit_dec c then
    Step.ofRes (readNumberLiteralBeyond m cb s start)
  else if isalnum c then
    let s2 := readIdentifierBeyond m s
    deliver cb s2 (Call.consumeIdentifier ⟨start, s2.ptr⟩)
  else
    match getOperatorBeyond m s with
    | Res.ok op s2 => deliver cb s2 (Call.consumeOperator op ⟨start, s2.ptr⟩)
    | Res.throw msg s2 => Step.raise msg s2
    | Res.diverge => Step.diverge

/-- The `while (!stream.eof())` loop of `consume` over the memory `m`, run for at
most `fuel` rounds. -/
def consumeLoopBeyond (m : Nat → Char) (cb : LexerCallback) : Nat → Stream → LoopExit
  | 0, s => if s.eof then LoopExit.exhausted s else LoopExit.diverge
  | fuel + 1, s =>
    if s.eof then LoopExit.exhausted s
    else
      match consumeStepBeyond m cb s with
      | Step.proceed s1 => consumeLoopBeyond m cb fuel s1
      | Step.stop s1 => LoopExit.stopped s1
      | Step.raise msg s1 => LoopExit.raised msg s1
      | Step.diverge => LoopExit.diverge

/-- The `while (!stream.eof())` loop of `consume` over the memory `m`, from the
stream `s`. -/
def consumeWhileBeyond (m : Nat → Char) (cb : LexerCallback) (s : Stream) : LoopExit :=
  consumeLoopBeyond m cb (s.buf.length - s.ptr) s

/-- The function `ConfigFile::consume` over the memory `m`: the loop, then, when the
loop ran out of input, `callback.consumeEOL(stream); callback.consumeEOF(stream);`
with the answers ignored. -/
def consumeBeyond (m : Nat → Char) (cb : LexerCallback) (s : Stream) : Res Unit :=
  match consumeWhileBeyond m cb s with
  | LoopExit.exhausted s1 =>
    let s2 := (invoke cb s1 Call.consumeEOL).2
    let s3 := (invoke cb s2 Call.consumeEOF).2
    Res.ok () s3
  | LoopExit.stopped s1 => Res.ok () s1
  | LoopExit.raised msg s1 => Res.throw msg s1
  | LoopExit.diverge => Res.diverge

/-! ## Elementary facts about the cursor -/

@[simp] theorem Stream.get_buf (s : Stream) : s.get.buf = s.buf := rfl

@[simp] theorem Stream.get_ptr (s : Stream) : s.get.ptr = s.ptr + 1 := rfl

@[simp] theorem Stream.get_stream_name (s : Stream) : s.get.stream_name = s.stream_name := rfl

@[simp] theorem Stream.get_history (s : Stream) : s.get.history = s.history := rfl

@[simp] theorem Stream.error_buf (s : Stream) (m : String) : (s.error m).buf = s.buf := rfl

@[simp] theorem Stream.error_ptr (s : Stream) (m : String) : (s.error m).ptr = s.ptr := rfl

@[simp] theorem Stream.error_lines (s : Stream) (m : String) : (s.error m).lines = s.lines := rfl

@[simp] theorem Stream.error_stream_name (s : Stream) (m : String) :
    (s.error m).stream_name = s.stream_name := rfl

@[simp] theorem invoke_fst (cb : LexerCallback) (s : Stream) (c : Call) :
    (invoke cb s c).1 = cb s.history c := rfl

@[simp] theorem invoke_buf (cb : LexerCallback) (s : Stream) (c : Call) :
    (invoke cb s c).2.buf = s.buf := rfl

@[simp] theorem invoke_ptr (cb : LexerCallback) (s : Stream) (c : Call) :
    (invoke cb s c).2.ptr = s.ptr := rfl

@[simp] theorem invoke_lines (cb : LexerCallback) (s : Stream) (c : Call) :
    (invoke cb s c).2.lines = s.lines := rfl

@[simp] theorem invoke_stream_name (cb : LexerCallback) (s : Stream) (c : Call) :
    (invoke cb s c).2.stream_name = s.stream_name := rfl

@[simp] theorem invoke_history (cb : LexerCallback) (s : Stream) (c : Call) :
    (invoke cb s c).2.history = s.history ++ [Obs.call c] := rfl

theorem Stream.eof_eq_false_iff (s : Stream) : s.eof = false ↔ s.ptr < s.buf.length := by
  simp [Stream.eof]

theorem Stream.eof_eq_true_iff (s : Stream) : s.eof = true ↔ s.buf.length ≤ s.ptr := by
  simp [Stream.eof]

/-- At the end boundary the model reads the terminator. -/
theorem Stream.current_of_eof (s : Stream) (h : s.buf.length ≤ s.ptr) : s.current = NUL := by
  unfold Stream.current
  exact List.getD_eq_default _ _ h

theorem Stream.lt_of_current_ne_NUL (s : Stream) (h : s.current ≠ NUL) :
    s.ptr < s.buf.length := by
  by_contra hlt
  exact h (s.current_of_eof (Nat.le_of_not_lt hlt))

theorem Stream.get_lines_of_ne (s : Stream) (h : s.current ≠ '\n') : s.get.lines = s.lines := by
  simp [Stream.get, h]

theorem Stream.current_eq_getElem (s : Stream) (h : s.ptr < s.buf.length) :
    s.current = s.buf[s.ptr] := by
  unfold Stream.current
  rw [List.getD_eq_getElem?_getD, List.getElem?_eq_getElem h]
  rfl

theorem newlinesBefore_succ (s : Stream) (h : s.ptr < s.buf.length) :
    newlinesBefore s.buf (s.ptr + 1) =
      newlinesBefore s.buf s.ptr + (if s.current = '\n' then 1 else 0) := by
  unfold newlinesBefore
  rw [List.take_succ, List.count_append, s.current_eq_getElem h, List.getElem?_eq_getElem h]
  by_cases hc : s.buf[s.ptr] = '\n'
  · simp [hc]
  · simp [hc, List.count_cons]

theorem Stream.get_lines_length (s : Stream) :
    s.get.lines.length = s.lines.length + (if s.current = '\n' then 1 else 0) := by
  unfold Stream.get
  by_cases hc : s.current = '\n' <;> simp [hc]

/-! ## Advancing the cursor -/

theorem Adv.mono {P Q : Char → Prop} (hPQ : ∀ c, P c → Q c) {s t : Stream} (h : Adv P s t) :
    Adv Q s t := by
  induction h with
  | refl s => exact Adv.refl s
  | step hlt hp _ ih => exact Adv.step hlt (hPQ _ hp) ih

theorem Adv.any {P : Char → Prop} {s t : Stream} (h : Adv P s t) : Adv anyChar s t :=
  h.mono (fun _ _ => trivial)

theorem Adv.trans {P : Char → Prop} {s t u : Stream} (h1 : Adv P s t) (h2 : Adv P t u) :
    Adv P s u := by
  induction h1 with
  | refl s => exact h2
  | step hlt hp _ ih => exact Adv.step hlt hp (ih h2)

theorem Adv.one {P : Char → Prop} {s : Stream} (hlt : s.ptr < s.buf.length) (hp : P s.current) :
    Adv P s s.get :=
  Adv.step hlt hp (Adv.refl _)

theorem Adv.oneNotNewline {s : Stream} (hlt : s.ptr < s.buf.length) (hp : s.current ≠ '\n') :
    Adv notNewline s s.get :=
  Adv.one hlt hp

theorem Adv.buf_eq {P : Char → Prop} {s t : Stream} (h : Adv P s t) : t.buf = s.buf := by
  induction h with
  | refl s => rfl
  | step _ _ _ ih => simpa using ih

theorem Adv.stream_name_eq {P : Char → Prop} {s t : Stream} (h : Adv P s t) :
    t.stream_name = s.stream_name := by
  induction h with
  | refl s => rfl
  | step _ _ _ ih => simpa using ih

theorem Adv.history_eq {P : Char → Prop} {s t : Stream} (h : Adv P s t) :
    t.history = s.history := by
  induction h with
  | refl s => rfl
  | step _ _ _ ih => simpa using ih

theorem Adv.ptr_le {P : Char → Prop} {s t : Stream} (h : Adv P s t) : s.ptr ≤ t.ptr := by
  induction h with
  | refl s => exact Nat.le_refl _
  | step _ _ _ ih => simp at ih; omega

theorem Adv.ptr_le_length {P : Char → Prop} {s t : Stream} (h : Adv P s t)
    (hs : s.ptr ≤ s.buf.length) : t.ptr ≤ t.buf.length := by
  induction h with
  | refl s => exact hs
  | step hlt _ _ ih => exact ih (by simp; omega)

/-- Every character between the two positions satisfies the predicate. -/
theorem Adv.chars {P : Char → Prop} {s t : Stream} (h : Adv P s t) (i : Nat)
    (h1 : s.ptr ≤ i) (h2 : i < t.ptr) : P (s.buf.getD i NUL) := by
  induction h with
  | refl s => omega
  | @step s0 t0 hlt hp _ ih =>
    by_cases hi : i = s0.ptr
    · subst hi; exact hp
    · exact ih (by rw [Stream.get_ptr]; omega) h2

theorem Adv.lines_eq {s t : Stream} (h : Adv notNewline s t) : t.lines = s.lines := by
  induction h with
  | refl s => rfl
  | step _ hp _ ih => rw [ih, Stream.get_lines_of_ne _ hp]

theorem LinesInv.get {s : Stream} (h : LinesInv s) (hlt : s.ptr < s.buf.length) :
    LinesInv s.get := by
  unfold LinesInv at *
  rw [Stream.get_buf, Stream.get_ptr, newlinesBefore_succ _ hlt, Stream.get_lines_length]
  omega

theorem Adv.linesInv {P : Char → Prop} {s t : Stream} (h : Adv P s t) (hs : LinesInv s) :
    LinesInv t := by
  induction h with
  | refl s => exact hs
  | step hlt _ _ ih => exact ih (hs.get hlt)

/-- Growth of the line-start list: one entry per newline between the positions. -/
theorem Adv.lines_length {P : Char → Prop} {s t : Stream} (h : Adv P s t) :
    t.lines.length + newlinesBefore s.buf s.ptr = s.lines.length + newlinesBefore s.buf t.ptr := by
  induction h with
  | refl s => rfl
  | @step s0 t0 hlt _ _ ih =>
    rw [Stream.get_buf, Stream.get_ptr, newlinesBefore_succ _ hlt, Stream.get_lines_length] at ih
    omega

/-! ## What the sub-scanners do to the cursor -/

theorem readSequenceLoop_adv (f : Char → Bool) :
    ∀ (n : Nat) (s : Stream), Adv (fun c => f c = true) s (readSequenceLoop f n s)
  | 0, s => Adv.refl s
  | n + 1, s => by
    unfold readSequenceLoop
    split
    · rename_i h
      simp only [Bool.and_eq_true, Bool.not_eq_true'] at h
      exact Adv.step ((s.eof_eq_false_iff).1 h.1) h.2 (readSequenceLoop_adv f n s.get)
    · exact Adv.refl s

theorem readSequence_adv (f : Char → Bool) (s : Stream) :
    Adv (fun c => f c = true) s (readSequence f s) :=
  readSequenceLoop_adv f _ s

/-- The loop of `readSequence` stops only at the end of input or at a character
that fails the predicate: the fuel never cuts it short. -/
theorem readSequenceLoop_stop (f : Char → Bool) :
    ∀ (n : Nat) (s : Stream), s.buf.length - s.ptr ≤ n →
      (readSequenceLoop f n s).eof = true ∨ f (readSequenceLoop f n s).current = false
  | 0, s, h => by
    left
    unfold readSequenceLoop
    rw [Stream.eof_eq_true_iff]
    omega
  | n + 1, s, h => by
    unfold readSequenceLoop
    split
    · exact readSequenceLoop_stop f n s.get (by simp; omega)
    · rename_i hc
      simp only [Bool.and_eq_true, Bool.not_eq_true', not_and, Bool.not_eq_true] at hc
      by_cases he : s.eof = true
      · exact Or.inl he
      · exact Or.inr (hc (by simpa using he))

theorem readSequence_stop (f : Char → Bool) (s : Stream) :
    (readSequence f s).eof = true ∨ f (readSequence f s).current = false :=
  readSequenceLoop_stop f _ s (Nat.le_refl _)

/-- One unrolling of the loop of `readSequence`. -/
theorem readSequence_get (f : Char → Bool) (s : Stream) (hlt : s.ptr < s.buf.length)
    (hf : f s.current = true) : readSequence f s = readSequence f s.get := by
  unfold readSequence
  have hfuel : s.buf.length - s.ptr = (s.get.buf.length - s.get.ptr) + 1 := by
    simp; omega
  rw [hfuel]
  conv_lhs => unfold readSequenceLoop
  simp [hf, (s.eof_eq_false_iff).2 hlt]

theorem readSequence_of_stop (f : Char → Bool) (s : Stream)
    (h : s.eof = true ∨ f s.current = false) : readSequence f s = s := by
  unfold readSequence
  cases hn : s.buf.length - s.ptr with
  | zero => rfl
  | succ n =>
    unfold readSequenceLoop
    rcases h with h | h <;> simp [h]

theorem next_cases (s : Stream) :
    (next s = Res.ok () s.get ∧ s.ptr + 1 < s.buf.length) ∨
      (next s = Res.throw "unexpected end of file" (s.get.error "unexpected end of file") ∧
        s.buf.length ≤ s.ptr + 1) := by
  unfold next
  by_cases h : s.get.eof = true
  · right
    refine ⟨by simp [h], ?_⟩
    simpa [Stream.eof_eq_true_iff] using h
  · left
    refine ⟨by simp [h], ?_⟩
    have := (s.get.eof_eq_false_iff).1 (by simpa using h)
    simpa using this

theorem Res.Sound.after_adv {α : Type} {P : Char → Prop} {s s1 : Stream} {r : Res α}
    (h1 : Adv P s s1) (h : Res.Sound P s1 r) : Res.Sound P s r := by
  cases r with
  | ok a t => exact h1.trans h
  | throw msg t =>
    obtain ⟨s2, h2, rfl⟩ := h
    exact ⟨s2, h1.any.trans h2, rfl⟩
  | diverge => exact h

theorem readBlockCommentLoop_sound :
    ∀ (n : Nat) (s : Stream) (c0 : Char), s.ptr < s.buf.length → s.buf.length - s.ptr ≤ n →
      Res.Sound anyChar s (readBlockCommentLoop n s c0)
  | 0, s, c0, hlt, hn => by omega
  | n + 1, s, c0, hlt, hn => by
    unfold readBlockCommentLoop
    rcases next_cases s with ⟨h, hlt1⟩ | ⟨h, _⟩
    · rw [h]
      simp only
      split
      · exact Adv.one hlt trivial
      · exact Res.Sound.after_adv (Adv.one hlt trivial)
          (readBlockCommentLoop_sound n s.get _ (by simpa using hlt1) (by simp; omega))
    · rw [h]
      exact ⟨s.get, Adv.one hlt trivial, rfl⟩

theorem readBlockComment_sound (s : Stream) (hlt : s.ptr < s.buf.length) :
    Res.Sound anyChar s (readBlockComment s) := by
  unfold readBlockComment
  rcases next_cases s with ⟨h, hlt1⟩ | ⟨h, _⟩
  · rw [h]
    exact Res.Sound.after_adv (Adv.one hlt trivial)
      (readBlockCommentLoop_sound _ s.get _ (by simpa using hlt1) (Nat.le_refl _))
  · rw [h]
    exact ⟨s.get, Adv.one hlt trivial, rfl⟩

theorem readStringLiteralLoop_sound :
    ∀ (n : Nat) (s : Stream) (escape : Bool), s.buf.length - s.ptr + 1 ≤ n →
      Res.Sound notNewline s (readStringLiteralLoop n s escape)
  | 0, s, escape, hn => by omega
  | n + 1, s, escape, hn => by
    unfold readStringLiteralLoop
    split
    · rename_i hq
      have hne : s.current ≠ '\n' := by rw [hq.1]; decide
      exact Adv.one (s.lt_of_current_ne_NUL (by rw [hq.1]; decide)) hne
    · split
      · exact ⟨s, Adv.refl s, rfl⟩
      · rename_i hnl
        split
        · exact ⟨s, Adv.refl s, rfl⟩
        · rename_i he
          have hlt : s.ptr < s.buf.length := (s.eof_eq_false_iff).1 (by simpa using he)
          split
          · rcases next_cases s with ⟨h, hlt1⟩ | ⟨h, _⟩
            · rw [h]
              exact Res.Sound.after_adv (Adv.one hlt hnl)
                (readStringLiteralLoop_sound n s.get true (by simp; omega))
            · rw [h]
              exact ⟨s.get, Adv.one hlt trivial, rfl⟩
          · rcases next_cases s with ⟨h, hlt1⟩ | ⟨h, _⟩
            · rw [h]
              exact Res.Sound.after_adv (Adv.one hlt hnl)
                (readStringLiteralLoop_sound n s.get false (by simp; omega))
            · rw [h]
              exact ⟨s.get, Adv.one hlt trivial, rfl⟩

theorem readStringLiteral_sound (s : Stream) :
    Res.Sound notNewline s (readStringLiteral s) :=
  readStringLiteralLoop_sound _ s false (Nat.le_refl _)

theorem Delivers.behind {cb : LexerCallback} {s s1 : Stream} {start : Nat} {r : Res Bool}
    (h1 : Adv notNewline s s1) (h : Delivers cb s1 start r) : Delivers cb s start r := by
  cases h with
  | integer t ht => exact Delivers.integer t (h1.trans ht)
  | float t ht => exact Delivers.float t (h1.trans ht)
  | throw t msg ht => exact Delivers.throw t msg (h1.any.trans ht)

theorem isdigit_dec_ne_newline (c : Char) (h : isdigit_dec c = true) : c ≠ '\n' := by
  rintro rfl
  revert h
  decide

theorem isdigit_hex_ne_newline (c : Char) (h : isdigit_hex c = true) : c ≠ '\n' := by
  rintro rfl
  revert h
  decide

theorem isalnum_ne_newline (c : Char) (h : isalnum c = true) : c ≠ '\n' := by
  rintro rfl
  revert h
  decide

theorem readDigits_adv (s : Stream) : Adv notNewline s (readSequence isdigit_dec s) :=
  (readSequence_adv isdigit_dec s).mono isdigit_dec_ne_newline

theorem readFloatLiteralExponent_spec (cb : LexerCallback) (s : Stream) (start : Nat) :
    Delivers cb s start (readFloatLiteralExponent cb s start) := by
  unfold readFloatLiteralExponent
  simp only
  split
  · rename_i hc
    simp only [Bool.and_eq_true, Bool.not_eq_true', Bool.or_eq_true, decide_eq_true_eq] at hc
    have hlt : s.ptr < s.buf.length := (s.eof_eq_false_iff).1 hc.1
    have hne : s.current ≠ '\n' := by
      rcases hc.2 with h | h <;> rw [h] <;> decide
    rcases next_cases s with ⟨h, hlt1⟩ | ⟨h, _⟩
    · rw [h]
      simp only
      have hlt2 : s.get.ptr < s.get.buf.length := by simpa using hlt1
      by_cases hsign : s.get.current = '+' ∨ s.get.current = '-'
      · rw [if_pos hsign]
        have hne2 : s.get.current ≠ '\n' := by
          rcases hsign with h | h <;> rw [h] <;> decide
        rcases next_cases s.get with ⟨h2, _⟩ | ⟨h2, _⟩
        · rw [h2]
          simp only
          split
          · exact Delivers.throw _ _ ((Adv.oneNotNewline hlt hne).trans (Adv.oneNotNewline hlt2 hne2)).any
          · exact Delivers.float _
              (((Adv.oneNotNewline hlt hne).trans (Adv.oneNotNewline hlt2 hne2)).trans (readDigits_adv _))
        · rw [h2]
          exact Delivers.throw _ _ ((Adv.oneNotNewline hlt hne).trans (Adv.oneNotNewline hlt2 hne2)).any
      · rw [if_neg hsign]
        simp only
        split
        · exact Delivers.throw _ _ (Adv.oneNotNewline hlt hne).any
        · exact Delivers.float _ ((Adv.oneNotNewline hlt hne).trans (readDigits_adv _))
    · rw [h]
      exact Delivers.throw _ _ (Adv.oneNotNewline hlt hne).any
  · exact Delivers.float _ (Adv.refl s)

theorem readFloatLiteralFraction_spec (cb : LexerCallback) (s : Stream) (start : Nat) :
    Delivers cb s start (readFloatLiteralFraction cb s start) :=
  Delivers.behind (readDigits_adv s) (readFloatLiteralExponent_spec cb _ start)

theorem readNumberLiteral_spec (cb : LexerCallback) (s : Stream) (start : Nat) :
    Delivers cb s start (readNumberLiteral cb s start) := by
  unfold readNumberLiteral
  simp only
  split
  · rename_i hc
    simp only [Bool.and_eq_true, Bool.not_eq_true', decide_eq_true_eq] at hc
    have hlt := ((readSequence isdigit_dec s).eof_eq_false_iff).1 hc.1
    have hne : (readSequence isdigit_dec s).current ≠ '\n' := by rw [hc.2]; decide
    exact Delivers.behind ((readDigits_adv s).trans (Adv.one hlt hne))
      (readFloatLiteralFraction_spec cb _ start)
  · exact Delivers.integer _ (readDigits_adv s)

theorem readNumberLiteralPrefix_spec (cb : LexerCallback) (s : Stream) (start : Nat) :
    Delivers cb s start (readNumberLiteralPrefix cb s start) := by
  unfold readNumberLiteralPrefix
  split
  · rename_i hx
    have hne : s.current ≠ '\n' := by
      rcases hx with h | h <;> rw [h] <;> decide
    have hlt : s.ptr < s.buf.length := by
      apply s.lt_of_current_ne_NUL
      rcases hx with h | h <;> rw [h] <;> decide
    have hadv : Adv notNewline s (readSequence isdigit_hex s.get) :=
      (Adv.one hlt hne).trans ((readSequence_adv isdigit_hex s.get).mono isdigit_hex_ne_newline)
    simp only
    split
    · exact Delivers.throw _ _ hadv.any
    · exact Delivers.integer _ hadv
  · exact readNumberLiteral_spec cb s start

theorem getTwoCharacterOp_result (s1 : Stream) (op1 : OPERATOR_TOKEN) (c2 : Char)
    (op2 : OPERATOR_TOKEN) (hc2 : c2 ≠ '\n') (ho1 : op1 ≠ OPERATOR_TOKEN.INVALID)
    (ho2 : op2 ≠ OPERATOR_TOKEN.INVALID) :
    OpResult s1 (Res.ofPair (getTwoCharacterOp s1 op1 c2 op2)) := by
  unfold getTwoCharacterOp Res.ofPair
  split
  · rename_i hc
    simp only [Bool.and_eq_true, Bool.not_eq_true', decide_eq_true_eq] at hc
    exact OpResult.more op2 ho2 ((s1.eof_eq_false_iff).1 hc.1) (by rw [hc.2]; exact hc2)
  · exact OpResult.same op1 ho1

theorem getTwoCharacterOp3_result (s1 : Stream) (op1 : OPERATOR_TOKEN) (c2 : Char)
    (op2 : OPERATOR_TOKEN) (c3 : Char) (op3 : OPERATOR_TOKEN) (hc2 : c2 ≠ '\n')
    (hc3 : c3 ≠ '\n') (ho1 : op1 ≠ OPERATOR_TOKEN.INVALID)
    (ho2 : op2 ≠ OPERATOR_TOKEN.INVALID) (ho3 : op3 ≠ OPERATOR_TOKEN.INVALID) :
    OpResult s1 (Res.ofPair (getTwoCharacterOp3 s1 op1 c2 op2 c3 op3)) := by
  unfold getTwoCharacterOp3 Res.ofPair
  split
  · rename_i he
    have hlt1 := (s1.eof_eq_false_iff).1 (by simpa using he)
    split
    · rename_i hc
      exact OpResult.more op2 ho2 hlt1 (by rw [hc]; exact hc2)
    · split
      · rename_i hc
        exact OpResult.more op3 ho3 hlt1 (by rw [hc]; exact hc3)
      · exact OpResult.same op1 ho1
  · exact OpResult.same op1 ho1

theorem OpResult.ite {s1 : Stream} {p : Prop} [Decidable p] {a b : Res OPERATOR_TOKEN}
    (ha : OpResult s1 a) (hb : OpResult s1 b) : OpResult s1 (if p then a else b) := by
  split
  · exact ha
  · exact hb

theorem getOperatorCase_result (c : Char) (s1 : Stream) :
    OpResult s1 (getOperatorCase c s1) := by
  unfold getOperatorCase
  repeat' apply OpResult.ite
  all_goals first
    | exact OpResult.same _ (by decide)
    | exact getTwoCharacterOp_result _ _ _ _ (by decide) (by decide) (by decide)
    | exact getTwoCharacterOp3_result _ _ _ _ _ _ (by decide) (by decide) (by decide)
        (by decide) (by decide)
    | exact OpResult.throw _

/-- What `getOperator` may do from a position inside the buffer that does not hold
a newline: consume one or two characters and return a kind other than `INVALID`,
or consume one character, report and throw. -/
theorem getOperator_spec (s : Stream) (hlt : s.ptr < s.buf.length) (hne : s.current ≠ '\n') :
    (∃ op t, getOperator s = Res.ok op t ∧ op ≠ OPERATOR_TOKEN.INVALID ∧
        Adv notNewline s t ∧ s.ptr < t.ptr) ∨
      (∃ msg, getOperator s = Res.throw msg (s.get.error msg)) := by
  have h1 : Adv notNewline s s.get := Adv.one hlt hne
  unfold getOperator
  have h := getOperatorCase_result s.current s.get
  generalize getOperatorCase s.current s.get = r at h
  cases h with
  | same op ho => exact Or.inl ⟨op, s.get, rfl, ho, h1, by simp⟩
  | more op ho hlt1 hne1 =>
    exact Or.inl ⟨op, s.get.get, rfl, ho, h1.trans (Adv.one hlt1 hne1), by simp; omega⟩
  | throw msg => exact Or.inr ⟨msg, rfl⟩

/-! ## What one round of the driver loop does -/

theorem Step.ofRes_invoke (cb : LexerCallback) (t : Stream) (c : Call) :
    Step.ofRes (Res.ok (invoke cb t c).1 (invoke cb t c).2) = deliver cb t c := by
  cases h : cb t.history c <;> simp [Step.ofRes, deliver, h]

theorem StepSpec.ofDelivers {cb : LexerCallback} {s s1 : Stream} {r : Res Bool}
    (h1 : Adv notNewline s s1) (hlt : s.ptr < s1.ptr) (h : Delivers cb s1 s.ptr r) :
    StepSpec cb s (Step.ofRes r) := by
  cases h with
  | integer t ht =>
    rw [Step.ofRes_invoke]
    exact StepSpec.token t _ (h1.trans ht) (Nat.lt_of_lt_of_le hlt ht.ptr_le) TokenCall.integer
  | float t ht =>
    rw [Step.ofRes_invoke]
    exact StepSpec.token t _ (h1.trans ht) (Nat.lt_of_lt_of_le hlt ht.ptr_le) TokenCall.float
  | throw t msg ht => exact StepSpec.raise t msg (h1.any.trans ht)

theorem readIdentifier_adv (s : Stream) : Adv notNewline s (readIdentifier s) :=
  (readSequence_adv isalnum s).mono isalnum_ne_newline

theorem consumeStep_spec (cb : LexerCallback) (s : Stream) (hlt : s.ptr < s.buf.length) :
    StepSpec cb s (consumeStep cb s) := by
  have hget : s.ptr < s.get.ptr := by simp
  unfold consumeStep
  dsimp only
  split
  · -- '/'
    rename_i hc
    have h1 : Adv notNewline s s.get := Adv.one hlt (by rw [hc]; decide)
    split
    · rename_i h2
      simp only [Bool.and_eq_true, Bool.not_eq_true', decide_eq_true_eq] at h2
      have h3 : Adv anyChar s.get (readLineComment s.get) :=
        (readSequence_adv _ s.get).any
      exact StepSpec.comment _ (h1.any.trans h3) (Nat.lt_of_lt_of_le hget h3.ptr_le)
    · split
      · rename_i h2
        simp only [Bool.and_eq_true, Bool.not_eq_true', decide_eq_true_eq] at h2
        have h3 := readBlockComment_sound s.get ((s.get.eof_eq_false_iff).1 h2.1)
        split
        · rename_i u t hr
          rw [hr] at h3
          exact StepSpec.comment _ (h1.any.trans h3) (Nat.lt_of_lt_of_le hget (Adv.ptr_le h3))
        · rename_i msg t hr
          rw [hr] at h3
          obtain ⟨t1, ht1, rfl⟩ := h3
          exact StepSpec.raise _ _ (h1.any.trans ht1)
        · rename_i hr
          rw [hr] at h3
          exact h3.elim
      · exact StepSpec.token _ _ h1 hget (TokenCall.operator _ (by decide))
  · split
    · -- '.'
      rename_i hc
      have h1 : Adv notNewline s s.get := Adv.one hlt (by rw [hc]; decide)
      split
      · exact StepSpec.ofDelivers h1 hget (readFloatLiteralFraction_spec cb _ _)
      · exact StepSpec.token _ _ h1 hget (TokenCall.operator _ (by decide))
    · split
      · -- '%'
        rename_i hc
        have h1 : Adv notNewline s s.get := Adv.one hlt (by rw [hc]; decide)
        split
        · have h3 := readIdentifier_adv s.get
          exact StepSpec.token _ _ (h1.trans h3) (Nat.lt_of_lt_of_le hget h3.ptr_le)
            TokenCall.identifier
        · exact StepSpec.token _ _ h1 hget (TokenCall.operator _ (by decide))
      · split
        · -- '0'
          rename_i hc
          have h1 : Adv notNewline s s.get := Adv.one hlt (by rw [hc]; decide)
          exact StepSpec.ofDelivers h1 hget (readNumberLiteralPrefix_spec cb _ _)
        · split
          · -- string literal
            rename_i hc
            have h1 : Adv notNewline s s.get := Adv.one hlt (by rw [hc]; decide)
            have h3 := readStringLiteral_sound s.get
            split
            · rename_i u t hr
              rw [hr] at h3
              exact StepSpec.token _ _ (h1.trans h3) (Nat.lt_of_lt_of_le hget (Adv.ptr_le h3))
                TokenCall.string
            · rename_i msg t hr
              rw [hr] at h3
              obtain ⟨t1, ht1, rfl⟩ := h3
              exact StepSpec.raise _ _ (h1.any.trans ht1)
            · rename_i hr
              rw [hr] at h3
              exact h3.elim
          · split
            · -- newline
              rename_i hc
              exact StepSpec.eol hc
            · rename_i hnl
              split
              · -- blanks
                rename_i hc
                exact StepSpec.blank hc
              · split
                · -- decimal digit
                  rename_i hd
                  have h1 : Adv notNewline s s.get := Adv.one hlt hnl
                  have heq : readNumberLiteral cb s s.ptr = readNumberLiteral cb s.get s.ptr := by
                    unfold readNumberLiteral
                    rw [readSequence_get isdigit_dec s hlt hd]
                  rw [heq]
                  exact StepSpec.ofDelivers h1 hget (readNumberLiteral_spec cb _ _)
                · split
                  · -- identifier
                    rename_i ha
                    have h1 : Adv notNewline s s.get := Adv.one hlt hnl
                    have heq : readIdentifier s = readIdentifier s.get :=
                      readSequence_get isalnum s hlt ha
                    have h3 := readIdentifier_adv s.get
                    rw [heq]
                    exact StepSpec.token _ _ (h1.trans h3) (Nat.lt_of_lt_of_le hget h3.ptr_le)
                      TokenCall.identifier
                  · -- operator
                    rcases getOperator_spec s hlt hnl with ⟨op, t, hr, hop, hadv, hpt⟩ | ⟨msg, hr⟩
                    · rw [hr]
                      exact StepSpec.token _ _ hadv hpt (TokenCall.operator op hop)
                    · rw [hr]
                      exact StepSpec.raise _ _ (Adv.one hlt trivial)

/-! ## Invariants of the driver loop -/

theorem commentNewlines_append (buf : List Char) (h1 h2 : List Obs) :
    commentNewlines buf (h1 ++ h2) = commentNewlines buf h1 + commentNewlines buf h2 := by
  induction h1 with
  | nil => simp [commentNewlines]
  | cons o h ih =>
    cases o with
    | call c => cases c <;> simp [commentNewlines, ih, Nat.add_assoc]
    | error d => simp [commentNewlines, ih]

theorem eolCalls_append (h1 h2 : List Obs) :
    eolCalls (h1 ++ h2) = eolCalls h1 + eolCalls h2 := by
  simp [eolCalls, List.count_append]

/-- Newlines inside a span, counted through the positions of its two ends. -/
theorem text_newlines (buf : List Char) (a b : Nat) (hab : a ≤ b) :
    ((Token.mk a b).text buf).count '\n' + newlinesBefore buf a = newlinesBefore buf b := by
  unfold Token.text newlinesBefore
  have hb : b = a + (b - a) := by omega
  conv_rhs => rw [hb, List.take_add, List.count_append]
  simp only
  omega

theorem Extends.refl (s : Stream) : Extends s s :=
  ⟨rfl, rfl, List.prefix_refl _, Nat.le_refl _⟩

theorem Extends.chain {s t u : Stream} (h1 : Extends s t) (h2 : Extends t u) : Extends s u :=
  ⟨h2.buf.trans h1.buf, h2.name.trans h1.name, h1.hist.trans h2.hist,
    Nat.le_trans h1.ptr h2.ptr⟩

theorem Adv.extends {P : Char → Prop} {s t : Stream} (h : Adv P s t) : Extends s t :=
  ⟨h.buf_eq, h.stream_name_eq, by rw [h.history_eq], h.ptr_le⟩

theorem Extends.after_invoke {s t : Stream} (h : Extends s t) (cb : LexerCallback) (c : Call) :
    Extends s (invoke cb t c).2 :=
  ⟨h.buf, h.name, h.hist.trans (List.prefix_append _ _), h.ptr⟩

theorem Adv.sane {P : Char → Prop} {cb : LexerCallback} {s t : Stream} (h : Adv P s t)
    (hs : Sane cb s) : Sane cb t :=
  ⟨h.ptr_le_length hs.bound, h.linesInv hs.lines, by rw [h.history_eq]; exact hs.accepted,
    by rw [h.history_eq]; exact hs.noEOF⟩

theorem Sane.of_invoke {cb : LexerCallback} {t : Stream} (ht : Sane cb t) {c : Call}
    (hans : cb t.history c = true) (hc : c ≠ Call.consumeEOF) : Sane cb (invoke cb t c).2 := by
  refine ⟨ht.bound, ht.lines, Accepted.snoc _ _ ht.accepted hans, ?_⟩
  rw [invoke_history]
  intro hmem
  rcases List.mem_append.1 hmem with h | h
  · exact ht.noEOF h
  · simp only [List.mem_singleton, Obs.call.injEq] at h
    exact hc h.symm

theorem deliver_outcome {cb : LexerCallback} {s t : Stream} {c : Call} (ht : Sane cb t)
    (hext : Extends s t) (hlt : s.ptr < t.ptr) (hc : c ≠ Call.consumeEOF)
    (hcount : cb t.history c = true → Counted (invoke cb t c).2) :
    StepOutcome cb s (deliver cb t c) := by
  unfold deliver
  by_cases hans : cb t.history c = true
  · simp only [invoke_fst, hans, if_true]
    exact StepOutcome.proceed _ (ht.of_invoke hans hc) (hcount hans) (hext.after_invoke cb c) hlt
  · simp only [invoke_fst, hans, if_false]
    exact StepOutcome.stop t c ht hext (by simpa using hans) hc

theorem consumeStep_outcome (cb : LexerCallback) (s : Stream) (hs : Sane cb s)
    (hcnt : Counted s) (hlt : s.ptr < s.buf.length) : StepOutcome cb s (consumeStep cb s) := by
  have hspec := consumeStep_spec cb s hlt
  generalize consumeStep cb s = r at hspec
  cases hspec with
  | blank hc =>
    have hne : s.current ≠ '\n' := by
      rcases hc with h | h | h <;> rw [h] <;> decide
    have hadv : Adv notNewline s s.get := Adv.one hlt hne
    refine StepOutcome.proceed _ (hadv.sane hs) ?_ hadv.extends (by simp)
    unfold Counted at *
    rw [hadv.lines_eq, hadv.history_eq, hadv.buf_eq]
    exact hcnt
  | eol hc =>
    have hadv : Adv anyChar s s.get := Adv.one hlt trivial
    refine deliver_outcome (hadv.sane hs) hadv.extends (by simp) (by simp) ?_
    intro _
    unfold Counted at *
    have e1 : eolCalls [Obs.call Call.consumeEOL] = 1 := by simp [eolCalls]
    have e2 : commentNewlines s.buf [Obs.call Call.consumeEOL] = 0 := by simp [commentNewlines]
    rw [invoke_lines, invoke_history, invoke_buf, eolCalls_append, commentNewlines_append,
      Stream.get_lines_length, Stream.get_history, Stream.get_buf, hcnt, e1, e2, if_pos hc]
    omega
  | comment t hadv hpt =>
    refine deliver_outcome (hadv.sane hs) hadv.extends hpt (by simp) ?_
    intro _
    unfold Counted at *
    have h1 := hadv.lines_length
    have h2 := text_newlines s.buf s.ptr t.ptr hadv.ptr_le
    have h3 := hs.lines
    unfold LinesInv at h3
    have e1 : eolCalls [Obs.call (Call.consumeComment ⟨s.ptr, t.ptr⟩)] = 0 := by
      simp [eolCalls]
    have e2 : commentNewlines s.buf [Obs.call (Call.consumeComment ⟨s.ptr, t.ptr⟩)] =
        ((Token.mk s.ptr t.ptr).text s.buf).count '\n' := by simp [commentNewlines]
    rw [invoke_lines, invoke_history, invoke_buf, eolCalls_append, commentNewlines_append,
      hadv.history_eq, hadv.buf_eq, e1, e2]
    omega
  | token t c hadv hpt hc =>
    have hne : c ≠ Call.consumeEOF := by
      cases hc <;> simp
    refine deliver_outcome (hadv.sane hs) hadv.extends hpt hne ?_
    intro _
    unfold Counted at *
    have e1 : eolCalls [Obs.call c] = 0 := by
      cases hc <;> simp [eolCalls]
    have e2 : commentNewlines s.buf [Obs.call c] = 0 := by
      cases hc <;> simp [commentNewlines]
    rw [invoke_lines, invoke_history, invoke_buf, eolCalls_append, commentNewlines_append,
      hadv.history_eq, hadv.buf_eq, hadv.lines_eq, hcnt, e1, e2]
    omega
  | raise t msg hadv => exact StepOutcome.raise t msg (hadv.sane hs) hadv.extends

theorem ExitSpec.from {cb : LexerCallback} {s s1 : Stream} {e : LoopExit}
    (h : Extends s s1) (he : ExitSpec cb s1 e) : ExitSpec cb s e := by
  cases he with
  | exhausted t h1 h2 h3 h4 => exact ExitSpec.exhausted t h1 h2 (h.chain h3) h4
  | stopped t c h1 h2 h3 h4 => exact ExitSpec.stopped t c h1 (h.chain h2) h3 h4
  | raised t msg h1 h2 => exact ExitSpec.raised t msg h1 (h.chain h2)

theorem consumeLoop_spec (cb : LexerCallback) :
    ∀ (n : Nat) (s : Stream), Sane cb s → Counted s → s.buf.length - s.ptr ≤ n →
      ExitSpec cb s (consumeLoop cb n s)
  | 0, s, hs, hcnt, hn => by
    unfold consumeLoop
    have he : s.eof = true := by rw [Stream.eof_eq_true_iff]; omega
    rw [if_pos he]
    exact ExitSpec.exhausted s hs hcnt (Extends.refl s)
      (Nat.le_antisymm hs.bound ((s.eof_eq_true_iff).1 he))
  | n + 1, s, hs, hcnt, hn => by
    unfold consumeLoop
    by_cases he : s.eof = true
    · rw [if_pos he]
      exact ExitSpec.exhausted s hs hcnt (Extends.refl s)
        (Nat.le_antisymm hs.bound ((s.eof_eq_true_iff).1 he))
    · rw [if_neg he]
      have hlt : s.ptr < s.buf.length := (s.eof_eq_false_iff).1 (by simpa using he)
      have hstep := consumeStep_outcome cb s hs hcnt hlt
      generalize consumeStep cb s = r at hstep
      cases hstep with
      | proceed t h1 h2 h3 h4 =>
        exact ExitSpec.from h3 (consumeLoop_spec cb n t h1 h2 (by rw [h3.buf]; omega))
      | stop t c h1 h2 h3 h4 => exact ExitSpec.stopped t c h1 h2 h3 h4
      | raise t msg h1 h2 => exact ExitSpec.raised t msg h1 h2

theorem Stream.new_sane (cb : LexerCallback) (buf : List Char) (name : String) :
    Sane cb (Stream.new buf name) :=
  ⟨Nat.zero_le _, by simp [LinesInv, Stream.new, newlinesBefore], Accepted.nil, by
    simp [Stream.new]⟩

theorem Stream.new_counted (buf : List Char) (name : String) :
    Counted (Stream.new buf name) := by
  simp [Counted, Stream.new, eolCalls, commentNewlines]

theorem consumeWhile_spec (cb : LexerCallback) (buf : List Char) (name : String) :
    ExitSpec cb (Stream.new buf name) (consumeWhile cb (Stream.new buf name)) :=
  consumeLoop_spec cb _ _ (Stream.new_sane cb buf name) (Stream.new_counted buf name)
    (Nat.le_refl _)

/-- A scan of a fresh stream always comes to an end within the fuel that
`consumeWhile` grants: `consume` returns or throws. -/
theorem consume_total (cb : LexerCallback) (buf : List Char) (name : String) :
    consume cb (Stream.new buf name) ≠ Res.diverge := by
  have hspec := consumeWhile_spec cb buf name
  unfold consume
  generalize consumeWhile cb (Stream.new buf name) = e at hspec
  cases hspec <;> simp

/-- In an accepted history every invocation was answered `true`. -/
theorem Accepted.answered {cb : LexerCallback} {h : List Obs} (ha : Accepted cb h) :
    ∀ (pre : List Obs) (c : Call) (post : List Obs), h = pre ++ Obs.call c :: post →
      cb pre c = true := by
  induction ha with
  | nil => intro pre c post hh; simp at hh
  | snoc h0 c0 _ hans ih =>
    intro pre c post hh
    rcases List.eq_nil_or_concat post with hp | ⟨L, b, hp⟩
    · subst hp
      have := List.append_inj' hh (by simp)
      simp only [List.cons.injEq, Obs.call.injEq, and_true] at this
      rw [← this.1, ← this.2]
      exact hans
    · subst hp
      have hh2 : h0 ++ [Obs.call c0] = (pre ++ Obs.call c :: L) ++ [b] := by
        rw [hh]; simp
      exact ih pre c L (List.append_inj' hh2 rfl).1

/-- An accepted history holds no diagnostic. -/
theorem Accepted.no_error {cb : LexerCallback} {h : List Obs} (ha : Accepted cb h) :
    ∀ d : Diagnostic, Obs.error d ∉ h := by
  induction ha with
  | nil => intro d; simp
  | snoc h0 c0 _ _ ih =>
    intro d hmem
    rcases List.mem_append.1 hmem with hm | hm
    · exact ih d hm
    · simp at hm

/-! ## Termination of a scan -/

/-- C1. If `consume` throws no lexer error and every callback invocation made
from inside the driver loop is answered `true`, then the scan returns, its
history is the history of the loop followed by exactly `consumeEOL` and then
`consumeEOF`, and `consumeEOF` occurs nowhere before; nothing is assumed about
the answer to the final `consumeEOL`, nor about the buffer (it may be empty or
lack a final newline). -/
theorem consume_ends_with_EOL_EOF (cb : LexerCallback) (buf : List Char) (name : String)
    (hno : ∀ msg s, consume cb (Stream.new buf name) ≠ Res.throw msg s)
    (hall : ∀ pre c post,
      (consumeWhile cb (Stream.new buf name)).history = pre ++ Obs.call c :: post →
        cb pre c = true) :
    ∃ s, consume cb (Stream.new buf name) = Res.ok () s ∧
      s.history = (consumeWhile cb (Stream.new buf name)).history ++
        [Obs.call Call.consumeEOL, Obs.call Call.consumeEOF] ∧
      Obs.call Call.consumeEOF ∉ (consumeWhile cb (Stream.new buf name)).history := by
  have hspec := consumeWhile_spec cb buf name
  unfold consume at hno ⊢
  generalize consumeWhile cb (Stream.new buf name) = e at hspec hno hall ⊢
  cases hspec with
  | exhausted t h1 h2 h3 h4 =>
    exact ⟨_, rfl, by simp [LoopExit.history], h1.noEOF⟩
  | stopped t c h1 h2 h3 h4 =>
    have := hall t.history c [] (by simp [LoopExit.history])
    rw [h3] at this
    exact absurd this (by simp)
  | raised t msg h1 h2 => exact absurd rfl (hno msg (t.error msg))

/-- C1, witnessed on a buffer of two blanks with a callback that answers `false`
to everything: the final `consumeEOL` is answered `false` and `consumeEOF` is
invoked all the same. -/
theorem consume_ends_with_EOL_EOF_witness :
    ∃ s, consume (fun _ _ => false) (Stream.new [' ', '\t'] "cfg") = Res.ok () s ∧
      s.history = (consumeWhile (fun _ _ => false) (Stream.new [' ', '\t'] "cfg")).history ++
        [Obs.call Call.consumeEOL, Obs.call Call.consumeEOF] ∧
      Obs.call Call.consumeEOF ∉
        (consumeWhile (fun _ _ => false) (Stream.new [' ', '\t'] "cfg")).history :=
  consume_ends_with_EOL_EOF (fun _ _ => false) [' ', '\t'] "cfg"
    (by
      intro msg s h
      have h0 : consume (fun _ _ => false) (Stream.new [' ', '\t'] "cfg") =
          Res.ok () ⟨[' ', '\t'], 2, [0], "cfg",
            [Obs.call Call.consumeEOL, Obs.call Call.consumeEOF]⟩ := by decide
      rw [h0] at h
      simp at h)
    (by
      intro pre c post h
      have h0 : (consumeWhile (fun _ _ => false) (Stream.new [' ', '\t'] "cfg")).history = [] := by
        decide
      rw [h0] at h
      simp at h)

/-- C2. If a callback invocation made from inside the driver loop is answered
`false`, nothing follows it: it is the last entry of the history of the loop,
and `consume` returns with exactly that history, so that neither the trailing
`consumeEOL` nor `consumeEOF` is invoked. -/
theorem consume_stops_on_false (cb : LexerCallback) (buf : List Char) (name : String)
    (pre : List Obs) (c : Call) (post : List Obs)
    (hh : (consumeWhile cb (Stream.new buf name)).history = pre ++ Obs.call c :: post)
    (hfalse : cb pre c = false) :
    post = [] ∧ ∃ s, consume cb (Stream.new buf name) = Res.ok () s ∧
      s.history = pre ++ [Obs.call c] := by
  have hspec := consumeWhile_spec cb buf name
  unfold consume
  generalize consumeWhile cb (Stream.new buf name) = e at hspec hh ⊢
  have contra : ∀ (t : Stream) (L : List Obs), Accepted cb t.history →
      t.history = pre ++ Obs.call c :: L → False := by
    intro t L ha hL
    have := ha.answered pre c L hL
    rw [hfalse] at this
    exact absurd this (by simp)
  cases hspec with
  | exhausted t h1 h2 h3 h4 => exact (contra t post h1.accepted hh).elim
  | stopped t c0 h1 h2 h3 h4 =>
    simp only [LoopExit.history, invoke_history] at hh
    rcases List.eq_nil_or_concat post with hp | ⟨L, b, hp⟩
    · subst hp
      exact ⟨rfl, _, rfl, by rw [invoke_history]; exact hh⟩
    · subst hp
      have hh2 : t.history ++ [Obs.call c0] = (pre ++ Obs.call c :: L) ++ [b] := by
        rw [hh]; simp
      exact (contra t L h1.accepted (List.append_inj' hh2 rfl).1).elim
  | raised t msg h1 h2 =>
    simp only [LoopExit.history, Stream.error] at hh
    rcases List.eq_nil_or_concat post with hp | ⟨L, b, hp⟩
    · subst hp
      have := (List.append_inj' hh rfl).2
      simp at this
    · subst hp
      have hh2 : t.history ++ [Obs.error ⟨msg, t.stream_name, t.getCurrentLineNumber,
          t.getCurrentColumn⟩] = (pre ++ Obs.call c :: L) ++ [b] := by
        rw [hh]; simp
      exact (contra t L h1.accepted (List.append_inj' hh2 rfl).1).elim

/-- C2, witnessed on the buffer `a+b` with a callback that answers `false` to
operators: the scan ends on the operator invocation. -/
theorem consume_stops_on_false_witness :
    ([] : List Obs) = [] ∧
      ∃ s, consume (fun _ c => decide (c ≠ Call.consumeOperator OPERATOR_TOKEN.PLUS ⟨1, 2⟩))
          (Stream.new ['a', '+', 'b'] "cfg") = Res.ok () s ∧
        s.history = [Obs.call (Call.consumeIdentifier ⟨0, 1⟩)] ++
          [Obs.call (Call.consumeOperator OPERATOR_TOKEN.PLUS ⟨1, 2⟩)] :=
  consume_stops_on_false
    (fun _ c => decide (c ≠ Call.consumeOperator OPERATOR_TOKEN.PLUS ⟨1, 2⟩))
    ['a', '+', 'b'] "cfg" [Obs.call (Call.consumeIdentifier ⟨0, 1⟩)]
    (Call.consumeOperator OPERATOR_TOKEN.PLUS ⟨1, 2⟩) [] (by decide) (by decide)

/-- C7. When `consume` throws a lexer error, the last entry of the history is an
error diagnostic and it is the only diagnostic; it carries the message of the
thrown error, the stream name, as line one plus the number of newlines among
the characters consumed (the size of the line-start list), and as column the
position minus the last recorded line start. No callback invocation follows
it. -/
theorem consume_error_diagnostic (cb : LexerCallback) (buf : List Char) (name : String)
    (msg : String) (s : Stream) (h : consume cb (Stream.new buf name) = Res.throw msg s) :
    s.buf = buf ∧ s.lines.length = 1 + (buf.take s.ptr).count '\n' ∧
      ∃ pre, s.history = pre ++ [Obs.error ⟨msg, name, 1 + (buf.take s.ptr).count '\n',
          (s.ptr : Int) - ((s.lines.getLastD 0 : Nat) : Int)⟩] ∧
        ∀ d, Obs.error d ∉ pre := by
  have hspec := consumeWhile_spec cb buf name
  unfold consume at h
  generalize consumeWhile cb (Stream.new buf name) = e at hspec h
  cases hspec with
  | exhausted t h1 h2 h3 h4 => simp at h
  | stopped t c0 h1 h2 h3 h4 => simp at h
  | raised t m h1 h2 =>
    simp only [Res.throw.injEq] at h
    obtain ⟨rfl, rfl⟩ := h
    have hbuf : t.buf = buf := h2.buf
    have hname : t.stream_name = name := h2.name
    have hlines := h1.lines
    unfold LinesInv newlinesBefore at hlines
    rw [hbuf] at hlines
    refine ⟨hbuf, hlines, t.history, ?_, h1.accepted.no_error⟩
    simp only [Stream.error, Stream.getCurrentLineNumber, Stream.getCurrentColumn, hname, hlines]

/-- C7, witnessed on a buffer whose second line holds a character that starts no
token: the diagnostic is the last entry, on line 2. -/
theorem consume_error_diagnostic_witness :
    (⟨['a', '\n', ' ', '#', 'b'], 4, [0, 2], "cfg",
        [Obs.call (Call.consumeIdentifier ⟨0, 1⟩), Obs.call Call.consumeEOL,
          Obs.error ⟨invalidCharacterMessage 'b', "cfg", 2, 2⟩]⟩ : Stream).buf =
        ['a', '\n', ' ', '#', 'b'] ∧
      (⟨['a', '\n', ' ', '#', 'b'], 4, [0, 2], "cfg",
        [Obs.call (Call.consumeIdentifier ⟨0, 1⟩), Obs.call Call.consumeEOL,
          Obs.error ⟨invalidCharacterMessage 'b', "cfg", 2, 2⟩]⟩ : Stream).lines.length =
        1 + (['a', '\n', ' ', '#', 'b'].take 4).count '\n' ∧
      ∃ pre, [Obs.call (Call.consumeIdentifier ⟨0, 1⟩), Obs.call Call.consumeEOL,
          Obs.error ⟨invalidCharacterMessage 'b', "cfg", 2, 2⟩] =
          pre ++ [Obs.error ⟨invalidCharacterMessage 'b', "cfg",
            1 + (['a', '\n', ' ', '#', 'b'].take 4).count '\n',
            ((4 : Nat) : Int) - (([0, 2].getLastD 0 : Nat) : Int)⟩] ∧
        ∀ d, Obs.error d ∉ pre :=
  consume_error_diagnostic alwaysContinue ['a', '\n', ' ', '#', 'b'] "cfg"
    (invalidCharacterMessage 'b')
    ⟨['a', '\n', ' ', '#', 'b'], 4, [0, 2], "cfg",
      [Obs.call (Call.consumeIdentifier ⟨0, 1⟩), Obs.call Call.consumeEOL,
        Obs.error ⟨invalidCharacterMessage 'b', "cfg", 2, 2⟩]⟩
    (by decide)

/-! ## Operators: the lexer against the spelling table -/

/-- C3. Scanning each two-character operator text with the always-continue
callback. Seven of the nine texts give one `consumeOperator` over both
characters followed by `consumeEOL`, `consumeEOF`; the texts `>>` and `||` do
not: `getOperator` looks for `<` after `>` and for `&` after `|`, so each of
them gives two one-character operators (`GT`, `GT` and `OR`, `OR`), and it is
`><` and `|&` that give `GG` and `OOR`. -/
theorem scan_two_character_operators :
    (scan alwaysContinue "->").history =
        [Obs.call (Call.consumeOperator OPERATOR_TOKEN.ARROW ⟨0, 2⟩),
          Obs.call Call.consumeEOL, Obs.call Call.consumeEOF] ∧
      (scan alwaysContinue "<=").history =
        [Obs.call (Call.consumeOperator OPERATOR_TOKEN.LEQ ⟨0, 2⟩),
          Obs.call Call.consumeEOL, Obs.call Call.consumeEOF] ∧
      (scan alwaysContinue "<<").history =
        [Obs.call (Call.consumeOperator OPERATOR_TOKEN.LL ⟨0, 2⟩),
          Obs.call Call.consumeEOL, Obs.call Call.consumeEOF] ∧
      (scan alwaysContinue ">=").history =
        [Obs.call (Call.consumeOperator OPERATOR_TOKEN.GEQ ⟨0, 2⟩),
          Obs.call Call.consumeEOL, Obs.call Call.consumeEOF] ∧
      (scan alwaysContinue "&&").history =
        [Obs.call (Call.consumeOperator OPERATOR_TOKEN.AAND ⟨0, 2⟩),
          Obs.call Call.consumeEOL, Obs.call Call.consumeEOF] ∧
      (scan alwaysContinue "==").history =
        [Obs.call (Call.consumeOperator OPERATOR_TOKEN.EEQ ⟨0, 2⟩),
          Obs.call Call.consumeEOL, Obs.call Call.consumeEOF] ∧
      (scan alwaysContinue "!=").history =
        [Obs.call (Call.consumeOperator OPERATOR_TOKEN.NEQ ⟨0, 2⟩),
          Obs.call Call.consumeEOL, Obs.call Call.consumeEOF] ∧
      (scan alwaysContinue ">>").history =
        [Obs.call (Call.consumeOperator OPERATOR_TOKEN.GT ⟨0, 1⟩),
          Obs.call (Call.consumeOperator OPERATOR_TOKEN.GT ⟨1, 2⟩),
          Obs.call Call.consumeEOL, Obs.call Call.consumeEOF] ∧
      (scan alwaysContinue "||").history =
        [Obs.call (Call.consumeOperator OPERATOR_TOKEN.OR ⟨0, 1⟩),
          Obs.call (Call.consumeOperator OPERATOR_TOKEN.OR ⟨1, 2⟩),
          Obs.call Call.consumeEOL, Obs.call Call.consumeEOF] ∧
      (scan alwaysContinue "><").history =
        [Obs.call (Call.consumeOperator OPERATOR_TOKEN.GG ⟨0, 2⟩),
          Obs.call Call.consumeEOL, Obs.call Call.consumeEOF] ∧
      (scan alwaysContinue "|&").history =
        [Obs.call (Call.consumeOperator OPERATOR_TOKEN.OOR ⟨0, 2⟩),
          Obs.call Call.consumeEOL, Obs.call Call.consumeEOF] := by
  refine ⟨?_, ?_, ?_, ?_, ?_, ?_, ?_, ?_, ?_, ?_, ?_⟩ <;> decide

/-- C4. The view `token` returns has the length of the spelling it points to
(1 or 2) for every kind other than `INVALID` and `ARROW`; for `ARROW` it
returns the literal `->` with length 1, a view that covers the `-` only. -/
theorem token_length :
    (∀ op, op ≠ OPERATOR_TOKEN.INVALID → op ≠ OPERATOR_TOKEN.ARROW →
        ∃ t, token op = Except.ok t ∧ t.length = t.literal.length ∧
          (t.length = 1 ∨ t.length = 2)) ∧
      token OPERATOR_TOKEN.ARROW = Except.ok ⟨"->", 1⟩ ∧
      (LiteralToken.mk "->" 1).length ≠ (LiteralToken.mk "->" 1).literal.length ∧
      (LiteralToken.mk "->" 1).text = ['-'] := by
  refine ⟨?_, rfl, by decide, by decide⟩
  intro op h1 h2
  cases op <;> first
    | exact absurd rfl h1
    | exact absurd rfl h2
    | exact ⟨_, rfl, by decide, by decide⟩

/-- C5. Operator invocations whose span text differs from the text of
`token(kind)`: the buffer `><` is delivered as `GG`, whose spelling is `>>`; the
buffer `|&` is delivered as `OOR`, whose spelling is `||`; the buffer `->` is
delivered as `ARROW`, whose view covers `-` only. -/
theorem scan_operator_text_mismatch :
    ((scan alwaysContinue "><").history.head? =
          some (Obs.call (Call.consumeOperator OPERATOR_TOKEN.GG ⟨0, 2⟩)) ∧
        (Token.mk 0 2).text "><".toList = ['>', '<'] ∧
        (token OPERATOR_TOKEN.GG).toOption.map LiteralToken.text = some ['>', '>']) ∧
      ((scan alwaysContinue "|&").history.head? =
          some (Obs.call (Call.consumeOperator OPERATOR_TOKEN.OOR ⟨0, 2⟩)) ∧
        (Token.mk 0 2).text "|&".toList = ['|', '&'] ∧
        (token OPERATOR_TOKEN.OOR).toOption.map LiteralToken.text = some ['|', '|']) ∧
      ((scan alwaysContinue "->").history.head? =
          some (Obs.call (Call.consumeOperator OPERATOR_TOKEN.ARROW ⟨0, 2⟩)) ∧
        (Token.mk 0 2).text "->".toList = ['-', '>'] ∧
        (token OPERATOR_TOKEN.ARROW).toOption.map LiteralToken.text = some ['-']) := by
  refine ⟨⟨?_, ?_, ?_⟩, ⟨?_, ?_, ?_⟩, ⟨?_, ?_, ?_⟩⟩ <;> decide

/-! ## String literals -/

/-- C8. An unterminated string literal with a non-empty body: on the buffer
made of a double quote and `abc`, `next` reaches the end of input first, so the
error raised and reported is "unexpected end of file"; the branch of
`readStringLiteral` that reports "end of file in string literal" is taken
only when the buffer ends right after the opening quote (second part; the
character read at the end boundary there is the NUL of the model). In neither
case is `consumeStringLiteral` invoked. -/
theorem scan_unterminated_string :
    consume alwaysContinue (Stream.new [QUOTE, 'a', 'b', 'c'] "cfg") =
        Res.throw "unexpected end of file"
          ⟨[QUOTE, 'a', 'b', 'c'], 4, [0], "cfg",
            [Obs.error ⟨"unexpected end of file", "cfg", 1, 4⟩]⟩ ∧
      consume alwaysContinue (Stream.new [QUOTE] "cfg") =
        Res.throw "end of file in string literal"
          ⟨[QUOTE], 1, [0], "cfg",
            [Obs.error ⟨"end of file in string literal", "cfg", 1, 1⟩]⟩ := by
  constructor <;> decide

/-! ## Blanks and newlines -/

theorem consumeStep_blank (cb : LexerCallback) (s : Stream)
    (hc : s.current = '\r' ∨ s.current = '\t' ∨ s.current = ' ') :
    consumeStep cb s = Step.proceed s.get := by
  unfold consumeStep
  dsimp only
  have h1 : s.current ≠ '/' := by rcases hc with h | h | h <;> rw [h] <;> decide
  have h2 : s.current ≠ '.' := by rcases hc with h | h | h <;> rw [h] <;> decide
  have h3 : s.current ≠ '%' := by rcases hc with h | h | h <;> rw [h] <;> decide
  have h4 : s.current ≠ '0' := by rcases hc with h | h | h <;> rw [h] <;> decide
  have h5 : s.current ≠ QUOTE := by rcases hc with h | h | h <;> rw [h] <;> decide
  have h6 : s.current ≠ '\n' := by rcases hc with h | h | h <;> rw [h] <;> decide
  rw [if_neg h1, if_neg h2, if_neg h3, if_neg h4, if_neg h5, if_neg h6, if_pos hc]

/-- C6, the claim as stated fails: the buffer `/*`, newline, `*/` is scanned to
its end without error under the always-continue callback, holds one newline,
and gives one `consumeEOL` invocation (the trailing one), not two. -/
theorem scan_newline_in_block_comment :
    ∃ s, consume alwaysContinue (Stream.new ['/', '*', '\n', '*', '/'] "cfg") = Res.ok () s ∧
      eolCalls s.history ≠ ['/', '*', '\n', '*', '/'].count '\n' + 1 :=
  ⟨⟨['/', '*', '\n', '*', '/'], 5, [0, 3], "cfg",
      [Obs.call (Call.consumeComment ⟨0, 4⟩),
        Obs.call (Call.consumeOperator OPERATOR_TOKEN.SLASH ⟨4, 5⟩),
        Obs.call Call.consumeEOL, Obs.call Call.consumeEOF]⟩, by decide, by decide⟩

/-- C6, amended. A round of the loop that starts on `\r`, `\t` or a space only
advances the cursor by one character and invokes no callback; and when
`consume` returns under the always-continue callback, the number of
`consumeEOL` invocations plus the number of newlines that lie inside the spans
delivered to `consumeComment` is the number of newlines of the buffer plus one:
every newline outside a comment produces exactly one `consumeEOL`, and one more
is the trailing one. -/
theorem consume_eol_count :
    (∀ (cb : LexerCallback) (s : Stream),
        (s.current = '\r' ∨ s.current = '\t' ∨ s.current = ' ') →
          consumeStep cb s = Step.proceed s.get ∧ s.get.history = s.history ∧
            s.get.ptr = s.ptr + 1) ∧
      (∀ (buf : List Char) (name : String) (s : Stream),
        consume alwaysContinue (Stream.new buf name) = Res.ok () s →
          eolCalls s.history + commentNewlines buf s.history = buf.count '\n' + 1) := by
  refine ⟨fun cb s hc => ⟨consumeStep_blank cb s hc, rfl, rfl⟩, ?_⟩
  intro buf name s h
  have hspec := consumeWhile_spec alwaysContinue buf name
  unfold consume at h
  generalize consumeWhile alwaysContinue (Stream.new buf name) = e at hspec h
  cases hspec with
  | exhausted t h1 h2 h3 h4 =>
    simp only [Res.ok.injEq, true_and] at h
    subst h
    have hbuf : t.buf = buf := h3.buf
    have hl := h1.lines
    unfold LinesInv newlinesBefore at hl
    unfold Counted at h2
    rw [h4, List.take_length, hbuf] at hl
    rw [hbuf] at h2
    have e1 : eolCalls [Obs.call Call.consumeEOL] = 1 := by simp [eolCalls]
    have e2 : commentNewlines buf [Obs.call Call.consumeEOL] = 0 := by simp [commentNewlines]
    have e3 : eolCalls [Obs.call Call.consumeEOF] = 0 := by simp [eolCalls]
    have e4 : commentNewlines buf [Obs.call Call.consumeEOF] = 0 := by simp [commentNewlines]
    rw [invoke_history, invoke_history, eolCalls_append, eolCalls_append,
      commentNewlines_append, commentNewlines_append, e1, e2, e3, e4]
    omega
  | stopped t c0 h1 h2 h3 h4 => simp [alwaysContinue] at h3
  | raised t m h1 h2 => simp at h

/-- C6 amended, witnessed on a buffer with a newline inside a block comment and
one outside it. -/
theorem consume_eol_count_witness :
    eolCalls [Obs.call (Call.consumeComment ⟨0, 4⟩),
          Obs.call (Call.consumeOperator OPERATOR_TOKEN.SLASH ⟨4, 5⟩),
          Obs.call Call.consumeEOL, Obs.call Call.consumeEOL, Obs.call Call.consumeEOF] +
        commentNewlines ['/', '*', '\n', '*', '/', '\n']
          [Obs.call (Call.consumeComment ⟨0, 4⟩),
            Obs.call (Call.consumeOperator OPERATOR_TOKEN.SLASH ⟨4, 5⟩),
            Obs.call Call.consumeEOL, Obs.call Call.consumeEOL, Obs.call Call.consumeEOF] =
      ['/', '*', '\n', '*', '/', '\n'].count '\n' + 1 :=
  consume_eol_count.2 ['/', '*', '\n', '*', '/', '\n'] "cfg"
    ⟨['/', '*', '\n', '*', '/', '\n'], 6, [0, 3, 6], "cfg",
      [Obs.call (Call.consumeComment ⟨0, 4⟩),
        Obs.call (Call.consumeOperator OPERATOR_TOKEN.SLASH ⟨4, 5⟩),
        Obs.call Call.consumeEOL, Obs.call Call.consumeEOL, Obs.call Call.consumeEOF]⟩
    (by decide)

/-! ## The first token of a scan -/

theorem ExitSpec.history_initial {cb : LexerCallback} {s : Stream} {e : LoopExit}
    (h : ExitSpec cb s e) : s.history <+: e.history := by
  cases h with
  | exhausted t h1 h2 h3 h4 => exact h3.hist
  | stopped t c h1 h2 h3 h4 => exact h2.hist.trans (List.prefix_append _ _)
  | raised t msg h1 h2 => exact h2.hist.trans (List.prefix_append _ _)

theorem consume_history_extends (cb : LexerCallback) (s : Stream) :
    (consumeWhile cb s).history <+: (consume cb s).history := by
  unfold consume
  cases consumeWhile cb s with
  | exhausted t =>
    simp only [LoopExit.history, Res.history, invoke_history, List.append_assoc]
    exact List.prefix_append _ _
  | stopped t => exact List.prefix_refl _
  | raised msg t => exact List.prefix_refl _
  | diverge => exact List.prefix_refl _

theorem head?_of_initial {α : Type} {a : α} {l : List α} (h : [a] <+: l) :
    l.head? = some a := by
  obtain ⟨r, rfl⟩ := h
  rfl

/-- If the first round of the loop delivers the invocation `c`, then `c` is the
first entry of the history of the whole scan. -/
theorem consume_first_call (cb : LexerCallback) (buf : List Char) (name : String)
    (t : Stream) (c : Call) (hlen : 0 < buf.length)
    (hstep : consumeStep cb (Stream.new buf name) = deliver cb t c) (ht : t.history = []) :
    (consume cb (Stream.new buf name)).history.head? = some (Obs.call c) := by
  apply head?_of_initial
  refine List.IsPrefix.trans ?_ (consume_history_extends cb _)
  have hlt : (Stream.new buf name).ptr < (Stream.new buf name).buf.length := hlen
  have hout := consumeStep_outcome cb _ (Stream.new_sane cb buf name)
    (Stream.new_counted buf name) hlt
  obtain ⟨n, hn⟩ : ∃ n, (Stream.new buf name).buf.length - (Stream.new buf name).ptr = n + 1 :=
    ⟨buf.length - 1, by simp [Stream.new]; omega⟩
  unfold consumeWhile
  rw [hn]
  unfold consumeLoop
  rw [if_neg (by simpa [Stream.eof_eq_true_iff] using hlt)]
  rw [hstep] at hout ⊢
  unfold deliver at hout ⊢
  by_cases hans : cb t.history c = true
  · simp only [invoke_fst, hans, if_true] at hout ⊢
    generalize hr : Step.proceed (invoke cb t c).2 = r at hout
    cases hout with
    | proceed t1 h1 h2 h3 h4 =>
      simp only [Step.proceed.injEq] at hr
      subst hr
      have hspec := consumeLoop_spec cb n _ h1 h2 (by
        have := h3.buf
        rw [this]
        omega)
      have := hspec.history_initial
      rw [invoke_history, ht] at this
      simpa using this
    | stop t1 c1 h1 h2 h3 h4 => simp at hr
    | raise t1 msg h1 h2 => simp at hr
  · simp only [invoke_fst, hans, if_false]
    simp [LoopExit.history, ht]

theorem readStringLiteralLoop_closes (buf : List Char) (q : Nat) (hlen : q < buf.length)
    (hq : closesAt buf q) (hfirst : ∀ i < q, 1 ≤ i → ¬ closesAt buf i)
    (hnl : ∀ i < q, 1 ≤ i → buf.getD i NUL ≠ '\n') :
    ∀ (n : Nat) (s : Stream) (e : Bool), s.buf = buf → 1 ≤ s.ptr → s.ptr ≤ q → q - s.ptr < n →
      (e = true ↔ backslashesBefore buf s.ptr % 2 = 1) →
      ∃ t, readStringLiteralLoop n s e = Res.ok () t ∧ t.ptr = q + 1
  | 0, s, e, hb, h1, h2, hn, he => by omega
  | n + 1, s, e, hb, h1, h2, hn, he => by
    have hcur : s.current = buf.getD s.ptr NUL := by rw [← hb]; rfl
    unfold readStringLiteralLoop
    by_cases hp : s.ptr = q
    · have hef : e = false := by
        cases e
        · rfl
        · have := he.1 rfl
          rw [hp] at this
          have := hq.2
          omega
      have hc1 : s.current = QUOTE ∧ e = false := ⟨by rw [hcur, hp]; exact hq.1, hef⟩
      rw [if_pos hc1]
      exact ⟨s.get, rfl, by simp [hp]⟩
    · have hlt : s.ptr < q := by omega
      have hc1 : ¬ (s.current = QUOTE ∧ e = false) := by
        rintro ⟨hqq, hef⟩
        apply hfirst s.ptr hlt h1
        refine ⟨by rw [← hcur]; exact hqq, ?_⟩
        have : ¬ backslashesBefore buf s.ptr % 2 = 1 := fun h => by
          have := he.2 h
          rw [hef] at this
          exact absurd this (by simp)
        omega
      have hc2 : ¬ s.current = '\n' := by rw [hcur]; exact hnl s.ptr hlt h1
      have hc3 : ¬ s.eof = true := by
        rw [Stream.eof_eq_true_iff, hb]
        omega
      rw [if_neg hc1, if_neg hc2, if_neg hc3]
      have hnext : next s = Res.ok () s.get := by
        rcases next_cases s with ⟨h, _⟩ | ⟨_, h⟩
        · exact h
        · rw [hb] at h
          omega
      have hbs : backslashesBefore buf (s.ptr + 1) =
          if s.current = BACKSLASH then backslashesBefore buf s.ptr + 1 else 0 := by
        rw [hcur]
        rfl
      split
      · rename_i hc4
        rw [hnext]
        refine readStringLiteralLoop_closes buf q hlen hq hfirst hnl n s.get true hb
          (by simp) (by simp; omega) (by simp; omega) ?_
        have hev : ¬ backslashesBefore buf s.ptr % 2 = 1 := fun h => by
          have := he.2 h
          rw [hc4.2] at this
          exact absurd this (by simp)
        rw [Stream.get_ptr, hbs, if_pos hc4.1]
        constructor
        · intro _; omega
        · intro _; rfl
      · rename_i hc4
        rw [hnext]
        refine readStringLiteralLoop_closes buf q hlen hq hfirst hnl n s.get false hb
          (by simp) (by simp; omega) (by simp; omega) ?_
        rw [Stream.get_ptr, hbs]
        constructor
        · intro h; exact absurd h (by simp)
        · intro h
          exfalso
          by_cases hbq : s.current = BACKSLASH
          · rw [if_pos hbq] at h
            have hne : e ≠ false := fun hef => hc4 ⟨hbq, hef⟩
            have het : e = true := by
              cases e
              · exact absurd rfl hne
              · rfl
            have := he.1 het
            omega
          · rw [if_neg hbq] at h
            omega

theorem consumeStep_quote (cb : LexerCallback) (s : Stream) (hc : s.current = QUOTE) :
    consumeStep cb s =
      match readStringLiteral s.get with
      | Res.ok _ s2 => deliver cb s2 (Call.consumeStringLiteral ⟨s.ptr, s2.ptr⟩)
      | Res.throw msg s2 => Step.raise msg s2
      | Res.diverge => Step.diverge := by
  unfold consumeStep
  dsimp only
  have h1 : s.current ≠ '/' := by rw [hc]; decide
  have h2 : s.current ≠ '.' := by rw [hc]; decide
  have h3 : s.current ≠ '%' := by rw [hc]; decide
  have h4 : s.current ≠ '0' := by rw [hc]; decide
  rw [if_neg h1, if_neg h2, if_neg h3, if_neg h4, if_pos hc]

/-- C9. Let the buffer start with a double quote, let `q` be the first later
position that holds a double quote preceded by an even number (possibly zero) of
consecutive backslashes, and let no newline stand before `q`. Then the first
round of the loop scans up to the position after `q` and invokes
`consumeStringLiteral` with the span from the opening quote through `q`, and
this invocation is the first entry of the history of the scan. -/
theorem consume_string_literal (cb : LexerCallback) (buf : List Char) (name : String) (q : Nat)
    (hopen : buf.getD 0 NUL = QUOTE) (hq1 : 1 ≤ q) (hlen : q < buf.length)
    (hq : closesAt buf q) (hfirst : ∀ i < q, 1 ≤ i → ¬ closesAt buf i)
    (hnl : ∀ i < q, 1 ≤ i → buf.getD i NUL ≠ '\n') :
    (∃ t, t.buf = buf ∧ t.ptr = q + 1 ∧ t.history = [] ∧
        consumeStep cb (Stream.new buf name) =
          deliver cb t (Call.consumeStringLiteral ⟨0, q + 1⟩)) ∧
      (consume cb (Stream.new buf name)).history.head? =
        some (Obs.call (Call.consumeStringLiteral ⟨0, q + 1⟩)) := by
  have hc : (Stream.new buf name).current = QUOTE := hopen
  have hbs : backslashesBefore buf 1 = 0 := by
    show (if buf.getD 0 NUL = BACKSLASH then backslashesBefore buf 0 + 1 else 0) = 0
    rw [hopen, if_neg (by decide)]
  obtain ⟨t, hread, hptr⟩ := readStringLiteralLoop_closes buf q hlen hq hfirst hnl
    ((Stream.new buf name).get.buf.length - (Stream.new buf name).get.ptr + 1)
    (Stream.new buf name).get false rfl (by simp) (by simp [Stream.new]; omega)
    (by simp [Stream.new]; omega)
    (by
      have : (Stream.new buf name).get.ptr = 1 := rfl
      rw [this, hbs]
      simp)
  have hread2 : readStringLiteral (Stream.new buf name).get = Res.ok () t := hread
  have hsound := readStringLiteral_sound (Stream.new buf name).get
  rw [hread2] at hsound
  have hadv : Adv notNewline (Stream.new buf name).get t := hsound
  have hstep : consumeStep cb (Stream.new buf name) =
      deliver cb t (Call.consumeStringLiteral ⟨0, q + 1⟩) := by
    rw [consumeStep_quote cb _ hc, hread2]
    simp only [hptr]
    rfl
  have hhist : t.history = [] := hadv.history_eq
  exact ⟨⟨t, hadv.buf_eq, hptr, hhist, hstep⟩,
    consume_first_call cb buf name t _ (by omega) hstep hhist⟩

/-- C9, witnessed on the eleven characters `"hi\"there"`: the quote at position 4
follows one backslash and does not end the literal; the literal covers the whole
buffer. -/
theorem consume_string_literal_witness :
    (∃ t, t.buf = [QUOTE, 'h', 'i', BACKSLASH, QUOTE, 't', 'h', 'e', 'r', 'e', QUOTE] ∧
        t.ptr = 10 + 1 ∧ t.history = [] ∧
        consumeStep alwaysContinue
            (Stream.new [QUOTE, 'h', 'i', BACKSLASH, QUOTE, 't', 'h', 'e', 'r', 'e', QUOTE]
              "cfg") =
          deliver alwaysContinue t (Call.consumeStringLiteral ⟨0, 10 + 1⟩)) ∧
      (consume alwaysContinue
          (Stream.new [QUOTE, 'h', 'i', BACKSLASH, QUOTE, 't', 'h', 'e', 'r', 'e', QUOTE]
            "cfg")).history.head? =
        some (Obs.call (Call.consumeStringLiteral ⟨0, 10 + 1⟩)) :=
  consume_string_literal alwaysContinue
    [QUOTE, 'h', 'i', BACKSLASH, QUOTE, 't', 'h', 'e', 'r', 'e', QUOTE] "cfg" 10
    (by decide) (by decide) (by decide) (by decide) (by decide) (by decide)

/-! ## Hexadecimal literals -/

theorem readSequenceLoop_ptr (f : Char → Bool) :
    ∀ (n : Nat) (s : Stream), s.buf.length - s.ptr ≤ n →
      (readSequenceLoop f n s).ptr = s.ptr + ((s.buf.drop s.ptr).takeWhile f).length
  | 0, s, h => by
    unfold readSequenceLoop
    rw [List.drop_eq_nil_of_le (by omega)]
    rfl
  | n + 1, s, h => by
    unfold readSequenceLoop
    split
    · rename_i hc
      simp only [Bool.and_eq_true, Bool.not_eq_true'] at hc
      have hlt : s.ptr < s.buf.length := (s.eof_eq_false_iff).1 hc.1
      have hf : f s.buf[s.ptr] = true := by rw [← s.current_eq_getElem hlt]; exact hc.2
      rw [readSequenceLoop_ptr f n s.get (by simp; omega), Stream.get_buf, Stream.get_ptr,
        List.drop_eq_getElem_cons hlt, List.takeWhile_cons, if_pos hf, List.length_cons]
      omega
    · rename_i hc
      simp only [Bool.and_eq_true, Bool.not_eq_true', not_and, Bool.not_eq_true] at hc
      by_cases hlt : s.ptr < s.buf.length
      · have hf : f s.buf[s.ptr] = false := by
          rw [← s.current_eq_getElem hlt]
          exact hc ((s.eof_eq_false_iff).2 hlt)
        rw [List.drop_eq_getElem_cons hlt, List.takeWhile_cons, hf]
        rfl
      · rw [List.drop_eq_nil_of_le (by omega)]
        rfl

theorem readSequence_ptr (f : Char → Bool) (s : Stream) :
    (readSequence f s).ptr = s.ptr + ((s.buf.drop s.ptr).takeWhile f).length :=
  readSequenceLoop_ptr f _ s (Nat.le_refl _)

theorem consumeStep_zero (cb : LexerCallback) (s : Stream) (hc : s.current = '0') :
    consumeStep cb s = Step.ofRes (readNumberLiteralPrefix cb s.get s.ptr) := by
  unfold consumeStep
  dsimp only
  have h1 : s.current ≠ '/' := by rw [hc]; decide
  have h2 : s.current ≠ '.' := by rw [hc]; decide
  have h3 : s.current ≠ '%' := by rw [hc]; decide
  rw [if_neg h1, if_neg h2, if_neg h3, if_pos hc]

theorem invalidCharacterMessage_toList (c : Char) :
    (invalidCharacterMessage c).toList =
      "invalid input character".toList ++ [':', ' ', APOSTROPHE, c, APOSTROPHE] := by
  simp [invalidCharacterMessage, String.push, String.toList]

/-- C10. Let the buffer begin with `0` followed by `x` or `X`, and let `n` be
the length of the maximal run of hex digits that follows. If `n ≥ 1`, the first
round of the loop invokes `consumeIntegerLiteral` with the span of the `0`, the
letter and exactly that run, and this is the first entry of the history of the
scan. If `n = 0`, `consume` throws a lexer error whose message is that of
`invalidCharacter` (it starts with "invalid input character"), and the history
of the scan is exactly the diagnostic with that message: it is reported before
the throw and no callback is invoked. -/
theorem consume_hex_literal (cb : LexerCallback) (name : String) (x : Char) (rest : List Char)
    (hx : x = 'x' ∨ x = 'X') :
    (1 ≤ (rest.takeWhile isdigit_hex).length →
        (∃ t, t.buf = '0' :: x :: rest ∧ t.ptr = 2 + (rest.takeWhile isdigit_hex).length ∧
            t.history = [] ∧
            consumeStep cb (Stream.new ('0' :: x :: rest) name) =
              deliver cb t
                (Call.consumeIntegerLiteral ⟨0, 2 + (rest.takeWhile isdigit_hex).length⟩)) ∧
          (consume cb (Stream.new ('0' :: x :: rest) name)).history.head? =
            some (Obs.call
              (Call.consumeIntegerLiteral ⟨0, 2 + (rest.takeWhile isdigit_hex).length⟩))) ∧
      ((rest.takeWhile isdigit_hex).length = 0 →
        ∃ c s, consume cb (Stream.new ('0' :: x :: rest) name) =
            Res.throw (invalidCharacterMessage c) s ∧
          s.history = [Obs.error ⟨invalidCharacterMessage c, name, 1, 2⟩] ∧
          "invalid input character".toList <+: (invalidCharacterMessage c).toList) := by
  have hc0 : (Stream.new ('0' :: x :: rest) name).current = '0' := rfl
  have hcx : (Stream.new ('0' :: x :: rest) name).get.current = x := rfl
  have hxn : x ≠ '\n' := by rcases hx with h | h <;> rw [h] <;> decide
  have hx2 : (Stream.new ('0' :: x :: rest) name).get.current = 'x' ∨
      (Stream.new ('0' :: x :: rest) name).get.current = 'X' := by rw [hcx]; exact hx
  have hadv1 : Adv notNewline (Stream.new ('0' :: x :: rest) name)
      (Stream.new ('0' :: x :: rest) name).get.get :=
    (Adv.oneNotNewline (by simp [Stream.new]) (by rw [hc0]; decide)).trans
      (Adv.oneNotNewline (by simp [Stream.new]) (by rw [hcx]; exact hxn))
  have hadv2 : Adv notNewline (Stream.new ('0' :: x :: rest) name).get.get
      (readSequence isdigit_hex (Stream.new ('0' :: x :: rest) name).get.get) :=
    (readSequence_adv isdigit_hex _).mono isdigit_hex_ne_newline
  have hadv := hadv1.trans hadv2
  have hptr : (readSequence isdigit_hex (Stream.new ('0' :: x :: rest) name).get.get).ptr =
      2 + (rest.takeWhile isdigit_hex).length := readSequence_ptr isdigit_hex _
  have hstep0 := consumeStep_zero cb (Stream.new ('0' :: x :: rest) name) hc0
  unfold readNumberLiteralPrefix at hstep0
  rw [if_pos hx2] at hstep0
  dsimp only at hstep0
  have hletter : (Stream.new ('0' :: x :: rest) name).get.ptr = 1 := rfl
  have hstart : (Stream.new ('0' :: x :: rest) name).ptr = 0 := rfl
  rw [hptr, hletter, hstart] at hstep0
  constructor
  · intro hn
    have hcond : ¬ (((2 + (rest.takeWhile isdigit_hex).length : Nat) : Int) - ((1 : Nat) : Int)
        ≤ 1) := by omega
    rw [if_neg hcond, Step.ofRes_invoke] at hstep0
    have hhist : (readSequence isdigit_hex
        (Stream.new ('0' :: x :: rest) name).get.get).history = [] := hadv.history_eq
    exact ⟨⟨_, hadv.buf_eq, hptr, hhist, hstep0⟩,
      consume_first_call cb _ name _ _ (by simp) hstep0 hhist⟩
  · intro hn
    have hcond : ((2 + (rest.takeWhile isdigit_hex).length : Nat) : Int) - ((1 : Nat) : Int)
        ≤ 1 := by omega
    rw [if_pos hcond] at hstep0
    refine ⟨(readSequence isdigit_hex (Stream.new ('0' :: x :: rest) name).get.get).current,
      (readSequence isdigit_hex (Stream.new ('0' :: x :: rest) name).get.get).error
        (invalidCharacterMessage
          (readSequence isdigit_hex (Stream.new ('0' :: x :: rest) name).get.get).current),
      ?_, ?_, ?_⟩
    · unfold consume consumeWhile
      have hfuel : (Stream.new ('0' :: x :: rest) name).buf.length -
          (Stream.new ('0' :: x :: rest) name).ptr = (rest.length + 1) + 1 := by
        simp [Stream.new]
      rw [hfuel]
      unfold consumeLoop
      rw [if_neg (by simp [Stream.eof, Stream.new]), hstep0]
      rfl
    · have hl := hadv.lines_eq
      have hh := hadv.history_eq
      have hname := hadv.stream_name_eq
      rw [hn] at hptr
      simp only [Stream.error, Stream.getCurrentLineNumber, Stream.getCurrentColumn, hl, hh,
        hname, hptr]
      rfl
    · rw [invalidCharacterMessage_toList]
      exact List.prefix_append _ _

/-- C10, witnessed on `0x1F` (the literal covers the four characters) and on
`0x` (the scan throws after one diagnostic). -/
theorem consume_hex_literal_witness :
    ((∃ t, t.buf = ['0', 'x', '1', 'F'] ∧ t.ptr = 2 + (['1', 'F'].takeWhile isdigit_hex).length ∧
          t.history = [] ∧
          consumeStep alwaysContinue (Stream.new ['0', 'x', '1', 'F'] "cfg") =
            deliver alwaysContinue t
              (Call.consumeIntegerLiteral
                ⟨0, 2 + (['1', 'F'].takeWhile isdigit_hex).length⟩)) ∧
        (consume alwaysContinue (Stream.new ['0', 'x', '1', 'F'] "cfg")).history.head? =
          some (Obs.call
            (Call.consumeIntegerLiteral ⟨0, 2 + (['1', 'F'].takeWhile isdigit_hex).length⟩))) ∧
      (∃ c s, consume alwaysContinue (Stream.new ['0', 'x'] "cfg") =
          Res.throw (invalidCharacterMessage c) s ∧
        s.history = [Obs.error ⟨invalidCharacterMessage c, "cfg", 1, 2⟩] ∧
        "invalid input character".toList <+: (invalidCharacterMessage c).toList) :=
  ⟨(consume_hex_literal alwaysContinue "cfg" 'x' ['1', 'F'] (Or.inl rfl)).1 (by decide),
    (consume_hex_literal alwaysContinue "cfg" 'x' [] (Or.inl rfl)).2 (by decide)⟩

/-! ## Unrolling the driver loop -/

theorem deliver_alwaysContinue (t : Stream) (c : Call) :
    deliver alwaysContinue t c = Step.proceed (invoke alwaysContinue t c).2 := rfl

theorem deliver_of_true {cb : LexerCallback} {t : Stream} {c : Call}
    (h : cb t.history c = true) : deliver cb t c = Step.proceed (invoke cb t c).2 := by
  simp [deliver, h]

theorem deliver_of_false {cb : LexerCallback} {t : Stream} {c : Call}
    (h : cb t.history c = false) : deliver cb t c = Step.stop (invoke cb t c).2 := by
  simp [deliver, h]

theorem deliver_cases (cb : LexerCallback) (t : Stream) (c : Call) :
    deliver cb t c = Step.proceed (invoke cb t c).2 ∨
      deliver cb t c = Step.stop (invoke cb t c).2 := by
  cases h : cb t.history c
  · exact Or.inr (deliver_of_false h)
  · exact Or.inl (deliver_of_true h)

/-- A round of the loop that ends in `break` has moved the cursor forward
inside the same buffer. -/
theorem StepSpec.advances {cb : LexerCallback} {s t : Stream}
    (h : StepSpec cb s (Step.proceed t)) : s.ptr < t.ptr ∧ t.buf = s.buf := by
  generalize hr : Step.proceed t = r at h
  cases h with
  | blank hc =>
    simp only [Step.proceed.injEq] at hr
    subst hr
    exact ⟨by simp, rfl⟩
  | eol hc =>
    rcases deliver_cases cb s.get Call.consumeEOL with hd | hd
    · rw [hd] at hr
      simp only [Step.proceed.injEq] at hr
      subst hr
      exact ⟨by simp, rfl⟩
    · rw [hd] at hr
      simp at hr
  | comment u hadv hpt =>
    rcases deliver_cases cb u (Call.consumeComment ⟨s.ptr, u.ptr⟩) with hd | hd
    · rw [hd] at hr
      simp only [Step.proceed.injEq] at hr
      subst hr
      exact ⟨hpt, hadv.buf_eq⟩
    · rw [hd] at hr
      simp at hr
  | token u c hadv hpt hc =>
    rcases deliver_cases cb u c with hd | hd
    · rw [hd] at hr
      simp only [Step.proceed.injEq] at hr
      subst hr
      exact ⟨hpt, hadv.buf_eq⟩
    · rw [hd] at hr
      simp at hr
  | raise u msg hadv => simp at hr

/-- The result of the loop does not depend on the fuel, once the fuel covers the
characters left. -/
theorem consumeLoop_fuel (cb : LexerCallback) :
    ∀ (n m : Nat) (s : Stream), s.buf.length - s.ptr ≤ n → s.buf.length - s.ptr ≤ m →
      consumeLoop cb n s = consumeLoop cb m s
  | 0, m, s, hn, hm => by
    have he : s.eof = true := by rw [Stream.eof_eq_true_iff]; omega
    cases m <;> simp [consumeLoop, he]
  | n + 1, 0, s, hn, hm => by
    have he : s.eof = true := by rw [Stream.eof_eq_true_iff]; omega
    simp [consumeLoop, he]
  | n + 1, m + 1, s, hn, hm => by
    unfold consumeLoop
    by_cases he : s.eof = true
    · rw [if_pos he, if_pos he]
    · rw [if_neg he, if_neg he]
      have hlt : s.ptr < s.buf.length := (s.eof_eq_false_iff).1 (by simpa using he)
      have hspec := consumeStep_spec cb s hlt
      cases hr : consumeStep cb s with
      | proceed t =>
        rw [hr] at hspec
        have := hspec.advances
        simp only
        exact consumeLoop_fuel cb n m t (by rw [this.2]; omega) (by rw [this.2]; omega)
      | stop t => rfl
      | raise msg t => rfl
      | diverge => rfl

theorem consumeWhile_eof {cb : LexerCallback} {s : Stream} (h : s.eof = true) :
    consumeWhile cb s = LoopExit.exhausted s := by
  unfold consumeWhile
  cases s.buf.length - s.ptr <;> simp [consumeLoop, h]

theorem consumeWhile_unfold (cb : LexerCallback) (s : Stream) (hlt : s.ptr < s.buf.length) :
    consumeWhile cb s =
      match consumeStep cb s with
      | Step.proceed s1 => consumeWhile cb s1
      | Step.stop s1 => LoopExit.stopped s1
      | Step.raise msg s1 => LoopExit.raised msg s1
      | Step.diverge => LoopExit.diverge := by
  have he : ¬ s.eof = true := by rw [Stream.eof_eq_true_iff]; omega
  obtain ⟨n, hn⟩ : ∃ n, s.buf.length - s.ptr = n + 1 := ⟨s.buf.length - s.ptr - 1, by omega⟩
  have hspec := consumeStep_spec cb s hlt
  unfold consumeWhile
  rw [hn]
  conv_lhs => unfold consumeLoop
  rw [if_neg he]
  cases hr : consumeStep cb s with
  | proceed t =>
    rw [hr] at hspec
    have := hspec.advances
    simp only
    exact consumeLoop_fuel cb n _ t (by rw [this.2]; omega) (Nat.le_refl _)
  | stop t => rfl
  | raise msg t => rfl
  | diverge => rfl

theorem consumeWhile_proceed {cb : LexerCallback} {s t : Stream} (hlt : s.ptr < s.buf.length)
    (h : consumeStep cb s = Step.proceed t) : consumeWhile cb s = consumeWhile cb t := by
  rw [consumeWhile_unfold cb s hlt, h]

theorem consumeWhile_stop {cb : LexerCallback} {s t : Stream} (hlt : s.ptr < s.buf.length)
    (h : consumeStep cb s = Step.stop t) : consumeWhile cb s = LoopExit.stopped t := by
  rw [consumeWhile_unfold cb s hlt, h]

theorem consumeWhile_raise {cb : LexerCallback} {s t : Stream} {msg : String}
    (hlt : s.ptr < s.buf.length) (h : consumeStep cb s = Step.raise msg t) :
    consumeWhile cb s = LoopExit.raised msg t := by
  rw [consumeWhile_unfold cb s hlt, h]

theorem consume_of_exhausted {cb : LexerCallback} {s t : Stream}
    (h : consumeWhile cb s = LoopExit.exhausted t) :
    consume cb s = Res.ok () (invoke cb (invoke cb t Call.consumeEOL).2 Call.consumeEOF).2 := by
  unfold consume
  rw [h]

theorem consume_of_raised {cb : LexerCallback} {s t : Stream} {msg : String}
    (h : consumeWhile cb s = LoopExit.raised msg t) : consume cb s = Res.throw msg t := by
  unfold consume
  rw [h]

theorem consume_of_stopped {cb : LexerCallback} {s t : Stream}
    (h : consumeWhile cb s = LoopExit.stopped t) : consume cb s = Res.ok () t := by
  unfold consume
  rw [h]

/-! ## The characters left -/

theorem Stream.rest_nil {s : Stream} (h : s.rest = []) : s.eof = true ∧ s.current = NUL := by
  have hle : s.buf.length ≤ s.ptr := by
    have := congrArg List.length h
    simp [Stream.rest] at this
    omega
  exact ⟨(s.eof_eq_true_iff).2 hle, s.current_of_eof hle⟩

theorem Stream.rest_cons {s : Stream} {c : Char} {r : List Char} (h : s.rest = c :: r) :
    s.ptr < s.buf.length ∧ s.eof = false ∧ s.current = c ∧ s.get.rest = r := by
  have hlt : s.ptr < s.buf.length := by
    by_contra hn
    have : s.rest = [] := List.drop_eq_nil_of_le (by omega)
    rw [this] at h
    simp at h
  unfold Stream.rest at h
  rw [List.drop_eq_getElem_cons hlt] at h
  simp only [List.cons.injEq] at h
  refine ⟨hlt, (s.eof_eq_false_iff).2 hlt, ?_, ?_⟩
  · rw [s.current_eq_getElem hlt]
    exact h.1
  · exact h.2

theorem invoke_rest (cb : LexerCallback) (s : Stream) (c : Call) :
    (invoke cb s c).2.rest = s.rest := rfl

/-- The template `readSequence` on a run `xs` of characters that satisfy the
predicate, followed by the end of input or by a character that fails it: the
cursor ends right after the run. -/
theorem readSequence_rest (f : Char → Bool) {s : Stream} {x r : List Char}
    (h : s.rest = x ++ r) (hxs : ∀ c ∈ x, f c = true)
    (hr : ∀ c r1, r = c :: r1 → f c = false) :
    (readSequence f s).rest = r ∧ (readSequence f s).ptr = s.ptr + x.length ∧
      (readSequence f s).history = s.history ∧ (readSequence f s).buf = s.buf := by
  have hadv := readSequence_adv f s
  have htw : (x ++ r).takeWhile f = x := by
    rw [List.takeWhile_append_of_pos hxs]
    cases r with
    | nil => simp
    | cons c r1 => simp [List.takeWhile_cons, hr c r1 rfl]
  have hptr : (readSequence f s).ptr = s.ptr + x.length := by
    rw [readSequence_ptr]
    show s.ptr + (List.takeWhile f s.rest).length = _
    rw [h, htw]
  refine ⟨?_, hptr, hadv.history_eq, hadv.buf_eq⟩
  unfold Stream.rest at h ⊢
  rw [hadv.buf_eq, hptr, ← List.drop_drop, h]
  simp

theorem Moved.here (s : Stream) : Moved s s 0 s.rest := ⟨rfl, rfl, rfl, rfl⟩

theorem Moved.step {s : Stream} {c : Char} {r : List Char} (h : s.rest = c :: r) :
    Moved s s.get 1 r := ⟨(Stream.rest_cons h).2.2.2, rfl, rfl, rfl⟩

theorem Moved.then {s t u : Stream} {k j : Nat} {r r1 : List Char} (h1 : Moved s t k r)
    (h2 : Moved t u j r1) : Moved s u (k + j) r1 :=
  ⟨h2.rest, by rw [h2.ptr, h1.ptr]; omega, h2.history.trans h1.history, h2.buf.trans h1.buf⟩

theorem Moved.cast {s t : Stream} {k j : Nat} {r : List Char} (h : Moved s t k r)
    (hk : k = j) : Moved s t j r := hk ▸ h

theorem Moved.readSequence (f : Char → Bool) {s : Stream} {x r : List Char}
    (h : s.rest = x ++ r) (hxs : ∀ c ∈ x, f c = true)
    (hr : ∀ c r1, r = c :: r1 → f c = false) : Moved s (readSequence f s) x.length r := by
  obtain ⟨h1, h2, h3, h4⟩ := readSequence_rest f h hxs hr
  exact ⟨h1, h2, h3, h4⟩

theorem next_of_rest {s : Stream} {c d : Char} {r : List Char} (h : s.rest = c :: d :: r) :
    next s = Res.ok () s.get := by
  have h1 := Stream.rest_cons h
  have h2 := Stream.rest_cons h1.2.2.2
  rcases next_cases s with ⟨hn, _⟩ | ⟨_, hle⟩
  · exact hn
  · have := h2.1
    simp at this
    omega

/-! ## Decimal literals -/

theorem isdigit_dec_ne {c : Char} (h : isdigit_dec c = true) (d : Char)
    (hd : isdigit_dec d = false) : c ≠ d := by
  rintro rfl
  rw [h] at hd
  exact absurd hd (by simp)

theorem readFloatLiteralExponent_ok (cb : LexerCallback) (s : Stream) (start : Nat)
    (ex : List Char) (h : s.rest = ex) (hex : ex = [] ∨ IsExponent ex) :
    ∃ t, Moved s t ex.length [] ∧
      readFloatLiteralExponent cb s start =
        Res.ok (invoke cb t (Call.consumeFloatLiteral ⟨start, t.ptr⟩)).1
          (invoke cb t (Call.consumeFloatLiteral ⟨start, t.ptr⟩)).2 := by
  rcases hex with rfl | ⟨e, sg, xs, rfl, he, hsg, hxs, hdig⟩
  · refine ⟨s, ⟨h, rfl, rfl, rfl⟩, ?_⟩
    unfold readFloatLiteralExponent
    simp [(Stream.rest_nil h).1]
  · obtain ⟨x, xs1, rfl⟩ := List.exists_cons_of_ne_nil hxs
    have hx : isdigit_dec x = true := hdig x (by simp)
    have h0 := Stream.rest_cons h
    have hcond : (!s.eof && (decide (s.current = 'e') || decide (s.current = 'E'))) = true := by
      rw [h0.2.1, h0.2.2.1]
      rcases he with rfl | rfl <;> decide
    have hseq : ∀ u : Stream, u.rest = x :: xs1 →
        Moved u (readSequence isdigit_dec u) (x :: xs1).length [] := fun u hu =>
      Moved.readSequence isdigit_dec (by rw [hu]; simp) hdig (by simp)
    unfold readFloatLiteralExponent
    simp only
    rw [if_pos hcond]
    rcases hsg with rfl | rfl | rfl
    · have h1 : s.get.rest = x :: xs1 := h0.2.2.2
      have h1c := Stream.rest_cons h1
      rw [next_of_rest h]
      simp only
      have hns : ¬ (s.get.current = '+' ∨ s.get.current = '-') := by
        rw [h1c.2.2.1]
        rintro (hp | hp)
        · exact isdigit_dec_ne hx '+' (by decide) hp
        · exact isdigit_dec_ne hx '-' (by decide) hp
      rw [if_neg hns]
      simp only
      rw [h1c.2.2.1, hx]
      simp only [Bool.not_true, Bool.false_eq_true, if_false]
      refine ⟨readSequence isdigit_dec s.get, ?_, rfl⟩
      exact ((Moved.step h).then (hseq s.get h1)).cast (by simp; omega)
    · have h1 : s.get.rest = '+' :: x :: xs1 := h0.2.2.2
      have h1c := Stream.rest_cons h1
      have h2 : s.get.get.rest = x :: xs1 := h1c.2.2.2
      have h2c := Stream.rest_cons h2
      rw [next_of_rest h]
      simp only
      rw [if_pos (Or.inl h1c.2.2.1), next_of_rest h1]
      simp only
      rw [h2c.2.2.1, hx]
      simp only [Bool.not_true, Bool.false_eq_true, if_false]
      refine ⟨readSequence isdigit_dec s.get.get, ?_, rfl⟩
      exact (((Moved.step h).then (Moved.step h1)).then (hseq s.get.get h2)).cast
        (by simp; omega)
    · have h1 : s.get.rest = '-' :: x :: xs1 := h0.2.2.2
      have h1c := Stream.rest_cons h1
      have h2 : s.get.get.rest = x :: xs1 := h1c.2.2.2
      have h2c := Stream.rest_cons h2
      rw [next_of_rest h]
      simp only
      rw [if_pos (Or.inr h1c.2.2.1), next_of_rest h1]
      simp only
      rw [h2c.2.2.1, hx]
      simp only [Bool.not_true, Bool.false_eq_true, if_false]
      refine ⟨readSequence isdigit_dec s.get.get, ?_, rfl⟩
      exact (((Moved.step h).then (Moved.step h1)).then (hseq s.get.get h2)).cast
        (by simp; omega)

theorem readFloatLiteralFraction_ok (cb : LexerCallback) (s : Stream) (start : Nat)
    (fs ex : List Char) (h : s.rest = fs ++ ex) (hfs : ∀ c ∈ fs, isdigit_dec c = true)
    (hex : ex = [] ∨ IsExponent ex) :
    ∃ t, Moved s t (fs.length + ex.length) [] ∧
      readFloatLiteralFraction cb s start =
        Res.ok (invoke cb t (Call.consumeFloatLiteral ⟨start, t.ptr⟩)).1
          (invoke cb t (Call.consumeFloatLiteral ⟨start, t.ptr⟩)).2 := by
  have hhead : ∀ c r1, ex = c :: r1 → isdigit_dec c = false := by
    intro c r1 hc
    rcases hex with rfl | ⟨e, sg, xs, rfl, he, _⟩
    · simp at hc
    · simp only [List.cons.injEq] at hc
      rw [← hc.1]
      rcases he with rfl | rfl <;> decide
  have hm := Moved.readSequence isdigit_dec h hfs hhead
  obtain ⟨t, ht, hres⟩ := readFloatLiteralExponent_ok cb (readSequence isdigit_dec s) start ex
    hm.rest hex
  exact ⟨t, hm.then ht, hres⟩

theorem readNumberLiteral_integer (cb : LexerCallback) (s : Stream) (start : Nat)
    (ds : List Char) (h : s.rest = ds) (hds : ∀ c ∈ ds, isdigit_dec c = true) :
    ∃ t, Moved s t ds.length [] ∧
      readNumberLiteral cb s start =
        Res.ok (invoke cb t (Call.consumeIntegerLiteral ⟨start, t.ptr⟩)).1
          (invoke cb t (Call.consumeIntegerLiteral ⟨start, t.ptr⟩)).2 := by
  have hm := Moved.readSequence isdigit_dec (r := []) (by rw [h]; simp) hds (by simp)
  refine ⟨readSequence isdigit_dec s, hm, ?_⟩
  unfold readNumberLiteral
  simp [(Stream.rest_nil hm.rest).1]

theorem readNumberLiteral_float (cb : LexerCallback) (s : Stream) (start : Nat)
    (ds fs ex : List Char) (h : s.rest = ds ++ '.' :: (fs ++ ex))
    (hds : ∀ c ∈ ds, isdigit_dec c = true) (hfs : ∀ c ∈ fs, isdigit_dec c = true)
    (hex : ex = [] ∨ IsExponent ex) :
    ∃ t, Moved s t (ds.length + (1 + (fs.length + ex.length))) [] ∧
      readNumberLiteral cb s start =
        Res.ok (invoke cb t (Call.consumeFloatLiteral ⟨start, t.ptr⟩)).1
          (invoke cb t (Call.consumeFloatLiteral ⟨start, t.ptr⟩)).2 := by
  have hm := Moved.readSequence isdigit_dec h hds (by
    intro c r1 hc
    simp only [List.cons.injEq] at hc
    rw [← hc.1]
    decide)
  have hc := Stream.rest_cons hm.rest
  obtain ⟨t, ht, hres⟩ := readFloatLiteralFraction_ok cb (readSequence isdigit_dec s).get start
    fs ex hc.2.2.2 hfs hex
  refine ⟨t, hm.then ((Moved.step hm.rest).then ht), ?_⟩
  unfold readNumberLiteral
  simp only
  rw [if_pos (by rw [hc.2.1, hc.2.2.1]; decide)]
  exact hres

theorem isdigit_dec_cases {c : Char} (h : isdigit_dec c = true) :
    c ≠ '/' ∧ c ≠ '.' ∧ c ≠ '%' ∧ c ≠ QUOTE ∧ c ≠ '\n' ∧
      ¬ (c = '\r' ∨ c = '\t' ∨ c = ' ') ∧ c ≠ 'x' ∧ c ≠ 'X' := by
  refine ⟨?_, ?_, ?_, ?_, ?_, ?_, ?_, ?_⟩
  · exact isdigit_dec_ne h _ (by decide)
  · exact isdigit_dec_ne h _ (by decide)
  · exact isdigit_dec_ne h _ (by decide)
  · exact isdigit_dec_ne h _ (by decide)
  · exact isdigit_dec_ne h _ (by decide)
  · rintro (hc | hc | hc)
    · exact isdigit_dec_ne h _ (by decide) hc
    · exact isdigit_dec_ne h _ (by decide) hc
    · exact isdigit_dec_ne h _ (by decide) hc
  · exact isdigit_dec_ne h _ (by decide)
  · exact isdigit_dec_ne h _ (by decide)

/-- A round of the loop that starts on a decimal digit not followed by `x` or
`X` runs `readNumberLiteral` from that digit. -/
theorem consumeStep_digit (cb : LexerCallback) (s : Stream) (hlt : s.ptr < s.buf.length)
    (hd : isdigit_dec s.current = true) (hx : ¬ (s.get.current = 'x' ∨ s.get.current = 'X')) :
    consumeStep cb s = Step.ofRes (readNumberLiteral cb s s.ptr) := by
  have hdc := isdigit_dec_cases hd
  by_cases h0 : s.current = '0'
  · rw [consumeStep_zero cb s h0]
    unfold readNumberLiteralPrefix
    rw [if_neg hx]
    unfold readNumberLiteral
    rw [readSequence_get isdigit_dec s hlt hd]
  · unfold consumeStep
    dsimp only
    rw [if_neg hdc.1, if_neg hdc.2.1, if_neg hdc.2.2.1, if_neg h0, if_neg hdc.2.2.2.1,
      if_neg hdc.2.2.2.2.1, if_neg hdc.2.2.2.2.2.1, if_pos hd]

/-- A scan whose first round delivers a token that ends at the end of the
input, with the callback answering `true`, makes that invocation, `consumeEOL`
and `consumeEOF`, and returns. -/
theorem consume_single_token (cb : LexerCallback) (s t : Stream) (c : Call)
    (hlt : s.ptr < s.buf.length) (hstep : consumeStep cb s = deliver cb t c)
    (hend : t.rest = []) (hans : cb t.history c = true) :
    consume cb s =
      Res.ok () (invoke cb (invoke cb (invoke cb t c).2 Call.consumeEOL).2 Call.consumeEOF).2 := by
  apply consume_of_exhausted
  rw [consumeWhile_proceed hlt (hstep.trans (deliver_of_true hans))]
  exact consumeWhile_eof (Stream.rest_nil (by rw [invoke_rest]; exact hend)).1

theorem Stream.new_rest (buf : List Char) (name : String) : (Stream.new buf name).rest = buf :=
  rfl

theorem Stream.current_rest (s : Stream) : s.current = s.rest.headD NUL := by
  cases h : s.rest with
  | nil => rw [(Stream.rest_nil h).2]; rfl
  | cons c r => rw [(Stream.rest_cons h).2.2.1]; rfl

theorem consumeStep_dot (cb : LexerCallback) (s : Stream) (hc : s.current = '.')
    (hd : (!s.get.eof && isdigit_dec s.get.current) = true) :
    consumeStep cb s = Step.ofRes (readFloatLiteralFraction cb s.get s.ptr) := by
  unfold consumeStep
  dsimp only
  rw [if_neg (by rw [hc]; decide), if_pos hc, if_pos hd]

theorem history_three (cb : LexerCallback) (t : Stream) (c : Call) (h : t.history = []) :
    (invoke cb (invoke cb (invoke cb t c).2 Call.consumeEOL).2 Call.consumeEOF).2.history =
      [Obs.call c, Obs.call Call.consumeEOL, Obs.call Call.consumeEOF] := by
  simp [h]

/-! ## Malformed exponents -/

theorem next_of_rest_one {s : Stream} {c : Char} (h : s.rest = [c]) :
    next s = Res.throw "unexpected end of file" (s.get.error "unexpected end of file") := by
  have h1 := Stream.rest_cons h
  have h2 := Stream.rest_nil h1.2.2.2
  rcases next_cases s with ⟨_, hlt⟩ | ⟨hn, _⟩
  · have := (s.get.eof_eq_true_iff).1 h2.1
    simp at this
    omega
  · exact hn

theorem readFloatLiteralExponent_throw (cb : LexerCallback) (s : Stream) (start : Nat)
    (e : Char) (sg rest : List Char) (h : s.rest = e :: (sg ++ rest)) (he : e = 'e' ∨ e = 'E')
    (hsg : sg = [] ∨ sg = ['+'] ∨ sg = ['-'])
    (hrest : ∀ c r1, rest = c :: r1 →
      isdigit_dec c = false ∧ (sg = [] → c ≠ '+' ∧ c ≠ '-')) :
    ∃ (msg : String) (t : Stream),
      readFloatLiteralExponent cb s start = Res.throw msg (t.error msg) ∧
      t.history = s.history := by
  have h0 := Stream.rest_cons h
  have hcond : (!s.eof && (decide (s.current = 'e') || decide (s.current = 'E'))) = true := by
    rw [h0.2.1, h0.2.2.1]
    rcases he with rfl | rfl <;> decide
  unfold readFloatLiteralExponent
  simp only
  rw [if_pos hcond]
  rcases hsg with rfl | rfl | rfl
  · cases rest with
    | nil =>
      rw [next_of_rest_one h]
      exact ⟨_, s.get, rfl, rfl⟩
    | cons c r1 =>
      have h1 : s.get.rest = c :: r1 := h0.2.2.2
      have h1c := Stream.rest_cons h1
      have hc := hrest c r1 rfl
      have hns : ¬ (s.get.current = '+' ∨ s.get.current = '-') := by
        rw [h1c.2.2.1]
        rintro (hp | hp)
        · exact (hc.2 rfl).1 hp
        · exact (hc.2 rfl).2 hp
      rw [next_of_rest h]
      simp only
      rw [if_neg hns]
      simp only
      rw [h1c.2.2.1, hc.1]
      exact ⟨_, s.get, rfl, rfl⟩
  · have h1 : s.get.rest = '+' :: rest := h0.2.2.2
    have h1c := Stream.rest_cons h1
    rw [next_of_rest h]
    simp only
    rw [if_pos (Or.inl h1c.2.2.1)]
    cases rest with
    | nil =>
      rw [next_of_rest_one h1]
      exact ⟨_, s.get.get, rfl, rfl⟩
    | cons c r1 =>
      have h2c := Stream.rest_cons h1c.2.2.2
      rw [next_of_rest h1]
      simp only
      rw [h2c.2.2.1, (hrest c r1 rfl).1]
      exact ⟨_, s.get.get, rfl, rfl⟩
  · have h1 : s.get.rest = '-' :: rest := h0.2.2.2
    have h1c := Stream.rest_cons h1
    rw [next_of_rest h]
    simp only
    rw [if_pos (Or.inr h1c.2.2.1)]
    cases rest with
    | nil =>
      rw [next_of_rest_one h1]
      exact ⟨_, s.get.get, rfl, rfl⟩
    | cons c r1 =>
      have h2c := Stream.rest_cons h1c.2.2.2
      rw [next_of_rest h1]
      simp only
      rw [h2c.2.2.1, (hrest c r1 rfl).1]
      exact ⟨_, s.get.get, rfl, rfl⟩

theorem readFloatLiteralFraction_throw (cb : LexerCallback) (s : Stream) (start : Nat)
    (fs : List Char) (e : Char) (sg rest : List Char) (h : s.rest = fs ++ e :: (sg ++ rest))
    (hfs : ∀ c ∈ fs, isdigit_dec c = true) (he : e = 'e' ∨ e = 'E')
    (hsg : sg = [] ∨ sg = ['+'] ∨ sg = ['-'])
    (hrest : ∀ c r1, rest = c :: r1 →
      isdigit_dec c = false ∧ (sg = [] → c ≠ '+' ∧ c ≠ '-')) :
    ∃ (msg : String) (t : Stream),
      readFloatLiteralFraction cb s start = Res.throw msg (t.error msg) ∧
      t.history = s.history := by
  have hm := Moved.readSequence isdigit_dec h hfs (by
    intro c r1 hc
    simp only [List.cons.injEq] at hc
    rw [← hc.1]
    rcases he with rfl | rfl <;> decide)
  obtain ⟨msg, t, hres, ht⟩ := readFloatLiteralExponent_throw cb (readSequence isdigit_dec s)
    start e sg rest hm.rest he hsg hrest
  exact ⟨msg, t, hres, ht.trans hm.history⟩

theorem history_of_error (t : Stream) (msg : String) (h : t.history = []) :
    ∃ d, (t.error msg).history = [Obs.error d] ∧ d.message = msg :=
  ⟨⟨msg, t.stream_name, t.getCurrentLineNumber, t.getCurrentColumn⟩,
    by simp [Stream.error, h], rfl⟩

/-- C12. Let `ds` and `fs` be runs of decimal digits, `e` be `e` or `E`, `sg` be
empty or one sign, and let what follows be the end of input or a character that
is not a decimal digit (nor, when `sg` is empty, a sign). Then on the buffer
`ds . fs e sg ...` with `ds` non-empty, and on the buffer `. fs e sg ...` with
`fs` non-empty, `consume` throws a lexer error, and the history of the scan is
exactly one diagnostic that carries the message of the error: no callback, in
particular no `consumeFloatLiteral`, is invoked. -/
theorem consume_malformed_exponent (cb : LexerCallback) (name : String) (ds fs : List Char)
    (e : Char) (sg rest : List Char) (hds : ∀ c ∈ ds, isdigit_dec c = true)
    (hfs : ∀ c ∈ fs, isdigit_dec c = true) (he : e = 'e' ∨ e = 'E')
    (hsg : sg = [] ∨ sg = ['+'] ∨ sg = ['-'])
    (hrest : ∀ c r1, rest = c :: r1 →
      isdigit_dec c = false ∧ (sg = [] → c ≠ '+' ∧ c ≠ '-')) :
    (ds ≠ [] → ∃ msg s,
        consume cb (Stream.new (ds ++ '.' :: (fs ++ e :: (sg ++ rest))) name) =
          Res.throw msg s ∧
        ∃ d, s.history = [Obs.error d] ∧ d.message = msg) ∧
      (fs ≠ [] → ∃ msg s,
        consume cb (Stream.new ('.' :: (fs ++ e :: (sg ++ rest))) name) = Res.throw msg s ∧
        ∃ d, s.history = [Obs.error d] ∧ d.message = msg) := by
  constructor
  · intro hne
    obtain ⟨d, ds1, rfl⟩ := List.exists_cons_of_ne_nil hne
    have hd : isdigit_dec d = true := hds d (by simp)
    have h0 := Stream.rest_cons
      (s := Stream.new (d :: ds1 ++ '.' :: (fs ++ e :: (sg ++ rest))) name) rfl
    have hx : ¬ ((Stream.new (d :: ds1 ++ '.' :: (fs ++ e :: (sg ++ rest))) name).get.current
        = 'x' ∨ (Stream.new (d :: ds1 ++ '.' :: (fs ++ e :: (sg ++ rest))) name).get.current
        = 'X') := by
      rw [Stream.current_rest, h0.2.2.2]
      cases ds1 with
      | nil => simp
      | cons c1 ds2 =>
        have := isdigit_dec_cases (hds c1 (by simp))
        simpa using ⟨this.2.2.2.2.2.2.1, this.2.2.2.2.2.2.2⟩
    have hstep := consumeStep_digit cb _ h0.1 (by rw [h0.2.2.1]; exact hd) hx
    have hm := Moved.readSequence isdigit_dec
      (s := Stream.new (d :: ds1 ++ '.' :: (fs ++ e :: (sg ++ rest))) name)
      (x := d :: ds1) (r := '.' :: (fs ++ e :: (sg ++ rest))) rfl hds (by
        intro c r1 hc
        simp only [List.cons.injEq] at hc
        rw [← hc.1]
        decide)
    have hc := Stream.rest_cons hm.rest
    obtain ⟨msg, t, hres, ht⟩ := readFloatLiteralFraction_throw cb
      (readSequence isdigit_dec
        (Stream.new (d :: ds1 ++ '.' :: (fs ++ e :: (sg ++ rest))) name)).get
      0 fs e sg rest hc.2.2.2 hfs he hsg hrest
    have hnum : readNumberLiteral cb
        (Stream.new (d :: ds1 ++ '.' :: (fs ++ e :: (sg ++ rest))) name) 0 =
          Res.throw msg (t.error msg) := by
      unfold readNumberLiteral
      simp only
      rw [if_pos (by rw [hc.2.1, hc.2.2.1]; decide)]
      exact hres
    have hptr0 : (Stream.new (d :: ds1 ++ '.' :: (fs ++ e :: (sg ++ rest))) name).ptr = 0 := rfl
    rw [hptr0, hnum] at hstep
    refine ⟨msg, t.error msg, consume_of_raised (consumeWhile_raise h0.1 hstep), ?_⟩
    exact history_of_error t msg (by rw [ht, Stream.get_history, hm.history]; rfl)
  · intro hne
    obtain ⟨d, fs1, rfl⟩ := List.exists_cons_of_ne_nil hne
    have hd : isdigit_dec d = true := hfs d (by simp)
    have h0 := Stream.rest_cons
      (s := Stream.new ('.' :: (d :: fs1 ++ e :: (sg ++ rest))) name) rfl
    have h1 := Stream.rest_cons h0.2.2.2
    have hstep := consumeStep_dot cb _ h0.2.2.1 (by rw [h1.2.1, h1.2.2.1, hd]; rfl)
    obtain ⟨msg, t, hres, ht⟩ := readFloatLiteralFraction_throw cb
      (Stream.new ('.' :: (d :: fs1 ++ e :: (sg ++ rest))) name).get 0 (d :: fs1) e sg rest
      h0.2.2.2 hfs he hsg hrest
    have hptr0 : (Stream.new ('.' :: (d :: fs1 ++ e :: (sg ++ rest))) name).ptr = 0 := rfl
    rw [hptr0, hres] at hstep
    refine ⟨msg, t.error msg, consume_of_raised (consumeWhile_raise h0.1 hstep), ?_⟩
    exact history_of_error t msg (by rw [ht]; rfl)

/-- C12, witnessed on the buffer `1.0e+`: the scan throws and its history is one
diagnostic. -/
theorem consume_malformed_exponent_witness :
    ∃ msg s, consume alwaysContinue
        (Stream.new (['1'] ++ '.' :: (['0'] ++ 'e' :: (['+'] ++ []))) "cfg") = Res.throw msg s ∧
      ∃ d, s.history = [Obs.error d] ∧ d.message = msg :=
  (consume_malformed_exponent alwaysContinue "cfg" ['1'] ['0'] 'e' ['+'] [] (by decide)
    (by decide) (Or.inl rfl) (Or.inr (Or.inl rfl)) (by intro c r1 h; simp at h)).1 (by decide)

/-! ## Growth of the history -/

/-- Whatever a round of the loop does, it leaves the buffer alone, does not move
the cursor backwards and only adds to the history. -/
theorem StepSpec.grows {cb : LexerCallback} {s : Stream} {r : Step} (h : StepSpec cb s r) :
    ∃ t, (r = Step.proceed t ∨ r = Step.stop t ∨ ∃ msg, r = Step.raise msg t) ∧
      s.history <+: t.history ∧ t.buf = s.buf ∧ s.ptr ≤ t.ptr := by
  have viaDeliver : ∀ (u : Stream) (c : Call), u.history = s.history → u.buf = s.buf →
      s.ptr ≤ u.ptr →
      ∃ t, (deliver cb u c = Step.proceed t ∨ deliver cb u c = Step.stop t ∨
          ∃ msg, deliver cb u c = Step.raise msg t) ∧
        s.history <+: t.history ∧ t.buf = s.buf ∧ s.ptr ≤ t.ptr := by
    intro u c hh hb hp
    refine ⟨(invoke cb u c).2, ?_, ?_, hb, hp⟩
    · rcases deliver_cases cb u c with hd | hd
      · exact Or.inl hd
      · exact Or.inr (Or.inl hd)
    · rw [invoke_history, hh]
      exact List.prefix_append _ _
  cases h with
  | blank hc => exact ⟨s.get, Or.inl rfl, List.prefix_refl _, rfl, by simp⟩
  | eol hc => exact viaDeliver s.get _ rfl rfl (by simp)
  | comment u hadv hpt => exact viaDeliver u _ hadv.history_eq hadv.buf_eq hadv.ptr_le
  | token u c hadv hpt hc => exact viaDeliver u c hadv.history_eq hadv.buf_eq hadv.ptr_le
  | raise u msg hadv =>
    refine ⟨u.error msg, Or.inr (Or.inr ⟨msg, rfl⟩), ?_, hadv.buf_eq, hadv.ptr_le⟩
    show s.history <+: u.history ++ _
    rw [hadv.history_eq]
    exact List.prefix_append _ _

theorem consumeLoop_history_grows (cb : LexerCallback) :
    ∀ (n : Nat) (s : Stream), s.buf.length - s.ptr ≤ n →
      s.history <+: (consumeLoop cb n s).history
  | 0, s, hn => by
    have he : s.eof = true := by rw [Stream.eof_eq_true_iff]; omega
    simp [consumeLoop, he, LoopExit.history]
  | n + 1, s, hn => by
    unfold consumeLoop
    by_cases he : s.eof = true
    · rw [if_pos he]
      exact List.prefix_refl _
    · rw [if_neg he]
      have hlt : s.ptr < s.buf.length := (s.eof_eq_false_iff).1 (by simpa using he)
      have hspec := consumeStep_spec cb s hlt
      obtain ⟨t, hr, hh, hb, hp⟩ := hspec.grows
      rcases hr with hr | hr | ⟨msg, hr⟩
      · rw [hr] at hspec ⊢
        have := hspec.advances
        exact hh.trans (consumeLoop_history_grows cb n t (by rw [hb]; omega))
      · rw [hr]
        exact hh
      · rw [hr]
        exact hh

theorem consume_history_grows (cb : LexerCallback) (s : Stream) :
    s.history <+: (consume cb s).history :=
  (consumeLoop_history_grows cb _ s (Nat.le_refl _)).trans (consume_history_extends cb s)

theorem take_of_initial {α : Type} {l1 l : List α} (h : l1 <+: l) : l.take l1.length = l1 := by
  obtain ⟨r, rfl⟩ := h
  simp

/-! ## Line comments -/

theorem consumeStep_line_comment (cb : LexerCallback) (s : Stream) (hc : s.current = '/')
    (hd : (!s.get.eof && decide (s.get.current = '/')) = true) :
    consumeStep cb s =
      deliver cb (readLineComment s.get)
        (Call.consumeComment ⟨s.ptr, (readLineComment s.get).ptr⟩) := by
  unfold consumeStep
  dsimp only
  rw [if_pos hc, if_pos hd]

theorem consumeStep_newline (cb : LexerCallback) (s : Stream) (hc : s.current = '\n') :
    consumeStep cb s = deliver cb s.get Call.consumeEOL := by
  unfold consumeStep
  dsimp only
  rw [if_neg (by rw [hc]; decide), if_neg (by rw [hc]; decide), if_neg (by rw [hc]; decide),
    if_neg (by rw [hc]; decide), if_neg (by rw [hc]; decide), if_pos hc]

/-- The first round on a buffer that starts with `//`: the comment runs up to the
first newline of `tail`-free text `txt`, where `tail` is empty or starts with a
newline. -/
theorem line_comment_step (cb : LexerCallback) (name : String) (txt tail : List Char)
    (htxt : ∀ c ∈ txt, c ≠ '\n') (htail : ∀ c r1, tail = c :: r1 → c = '\n') :
    ∃ t, Moved (Stream.new ('/' :: '/' :: (txt ++ tail)) name) t (2 + txt.length) tail ∧
      consumeStep cb (Stream.new ('/' :: '/' :: (txt ++ tail)) name) =
        deliver cb t (Call.consumeComment ⟨0, 2 + txt.length⟩) := by
  have h0 := Stream.rest_cons (s := Stream.new ('/' :: '/' :: (txt ++ tail)) name) rfl
  have h1 := Stream.rest_cons h0.2.2.2
  have hstep := consumeStep_line_comment cb _ h0.2.2.1 (by rw [h1.2.1, h1.2.2.1]; rfl)
  have hm := Moved.readSequence (fun c => decide (c ≠ '\n'))
    (s := (Stream.new ('/' :: '/' :: (txt ++ tail)) name).get) (x := '/' :: txt) (r := tail)
    h0.2.2.2
    (by
      intro c hc
      rcases List.mem_cons.1 hc with rfl | hc
      · decide
      · simpa using htxt c hc)
    (by
      intro c r1 hc
      simpa using htail c r1 hc)
  have hmv := ((Moved.step (s := Stream.new ('/' :: '/' :: (txt ++ tail)) name) rfl).then
    hm).cast (j := 2 + txt.length) (by simp; omega)
  refine ⟨_, hmv, ?_⟩
  rw [hstep]
  have hp : (readLineComment (Stream.new ('/' :: '/' :: (txt ++ tail)) name).get).ptr =
      2 + txt.length := hmv.ptr.trans (Nat.zero_add _)
  rw [hp]
  rfl

/-- C13, the claim as stated fails for a callback that answers `false` to the
comment: the scan of `//a` ends there, its history is the `consumeComment`
invocation alone and not that invocation, `consumeEOL`, `consumeEOF`; and in the
scan of `//a`, newline, `b` no second invocation is made. -/
theorem scan_line_comment_refused :
    (consume (fun _ _ => false) (Stream.new ['/', '/', 'a'] "input")).history =
        [Obs.call (Call.consumeComment ⟨0, 3⟩)] ∧
      (consume (fun _ _ => false) (Stream.new ['/', '/', 'a'] "input")).history ≠
        [Obs.call (Call.consumeComment ⟨0, 3⟩), Obs.call Call.consumeEOL,
          Obs.call Call.consumeEOF] ∧
      (consume (fun _ _ => false) (Stream.new ['/', '/', 'a', '\n', 'b'] "input")).history =
        [Obs.call (Call.consumeComment ⟨0, 3⟩)] := by
  refine ⟨?_, ?_, ?_⟩ <;> decide

/-- C13, amended. On a buffer made of `//` and a text `txt` without newline, the first
entry of the history is `consumeComment` with the span of `//` and `txt`, and
when the callback answers `true` to it the history of the scan is exactly that
invocation, `consumeEOL`, `consumeEOF`. On a buffer where a newline and any
`rest` follow `txt`, the first entry is the same invocation (the newline is not
in the span) and, when the callback answers `true` to it, the second entry is
`consumeEOL`. -/
theorem consume_line_comment (cb : LexerCallback) (name : String) (txt rest : List Char)
    (htxt : ∀ c ∈ txt, c ≠ '\n') :
    ((consume cb (Stream.new ('/' :: '/' :: (txt ++ [])) name)).history.head? =
        some (Obs.call (Call.consumeComment ⟨0, 2 + txt.length⟩)) ∧
      (cb [] (Call.consumeComment ⟨0, 2 + txt.length⟩) = true →
        ∃ s, consume cb (Stream.new ('/' :: '/' :: (txt ++ [])) name) = Res.ok () s ∧
          s.history = [Obs.call (Call.consumeComment ⟨0, 2 + txt.length⟩),
            Obs.call Call.consumeEOL, Obs.call Call.consumeEOF])) ∧
    ((consume cb (Stream.new ('/' :: '/' :: (txt ++ '\n' :: rest)) name)).history.head? =
        some (Obs.call (Call.consumeComment ⟨0, 2 + txt.length⟩)) ∧
      (cb [] (Call.consumeComment ⟨0, 2 + txt.length⟩) = true →
        (consume cb (Stream.new ('/' :: '/' :: (txt ++ '\n' :: rest)) name)).history.take 2 =
          [Obs.call (Call.consumeComment ⟨0, 2 + txt.length⟩), Obs.call Call.consumeEOL])) := by
  constructor
  · obtain ⟨t, hm, hstep⟩ := line_comment_step cb name txt [] htxt (by simp)
    have hh : t.history = [] := hm.history
    refine ⟨consume_first_call cb _ name t _ (by simp) hstep hh, ?_⟩
    intro hans
    refine ⟨_, consume_single_token cb _ t _ (by simp [Stream.new]) hstep hm.rest
      (by rw [hh]; exact hans), history_three cb t _ hh⟩
  · obtain ⟨t, hm, hstep⟩ := line_comment_step cb name txt ('\n' :: rest) htxt (by
      intro c r1 h
      simp only [List.cons.injEq] at h
      exact h.1.symm)
    have hh : t.history = [] := hm.history
    refine ⟨consume_first_call cb _ name t _ (by simp) hstep hh, ?_⟩
    intro hans
    have hrest : (invoke cb t (Call.consumeComment ⟨0, 2 + txt.length⟩)).2.rest = '\n' :: rest :=
      hm.rest
    have h1 := Stream.rest_cons hrest
    have hw : consumeWhile cb (Stream.new ('/' :: '/' :: (txt ++ '\n' :: rest)) name) =
        consumeWhile cb (invoke cb t (Call.consumeComment ⟨0, 2 + txt.length⟩)).2 :=
      consumeWhile_proceed (by simp [Stream.new])
        (hstep.trans (deliver_of_true (by rw [hh]; exact hans)))
    have hstep2 := consumeStep_newline cb _ h1.2.2.1
    have hhist2 : (invoke cb (invoke cb t (Call.consumeComment ⟨0, 2 + txt.length⟩)).2.get
        Call.consumeEOL).2.history =
        [Obs.call (Call.consumeComment ⟨0, 2 + txt.length⟩), Obs.call Call.consumeEOL] := by
      simp [hh]
    have key : [Obs.call (Call.consumeComment ⟨0, 2 + txt.length⟩), Obs.call Call.consumeEOL]
        <+: (consume cb (Stream.new ('/' :: '/' :: (txt ++ '\n' :: rest)) name)).history := by
      refine List.IsPrefix.trans ?_ (consume_history_extends cb _)
      rw [hw]
      rcases deliver_cases cb (invoke cb t (Call.consumeComment ⟨0, 2 + txt.length⟩)).2.get
        Call.consumeEOL with hd | hd
      · rw [consumeWhile_proceed h1.1 (hstep2.trans hd), ← hhist2]
        exact consumeLoop_history_grows cb _ _ (Nat.le_refl _)
      · rw [consumeWhile_stop h1.1 (hstep2.trans hd), ← hhist2]
        exact List.prefix_refl _
    exact take_of_initial key

/-- C13, witnessed on the spec scenario `// trailing comment` and on a comment
followed by a newline and more text. -/
theorem consume_line_comment_witness :
    (∃ s, consume alwaysContinue (Stream.new ('/' :: '/' :: (" trailing comment".toList ++ []))
          "cfg") = Res.ok () s ∧
        s.history = [Obs.call (Call.consumeComment ⟨0, 2 + " trailing comment".toList.length⟩),
          Obs.call Call.consumeEOL, Obs.call Call.consumeEOF]) ∧
      (consume alwaysContinue (Stream.new ('/' :: '/' :: (['a'] ++ '\n' :: ['b'])) "cfg")
          ).history.take 2 =
        [Obs.call (Call.consumeComment ⟨0, 2 + ['a'].length⟩), Obs.call Call.consumeEOL] :=
  ⟨(consume_line_comment alwaysContinue "cfg" " trailing comment".toList [] (by decide)).1.2 rfl,
    (consume_line_comment alwaysContinue "cfg" ['a'] ['b'] (by decide)).2.2 rfl⟩

/-! ## Block comments -/

/-- C14. A closed block comment: on `/**/` and on `/* a */` the comment handed to
`consumeComment` ends before the closing `/` (`readBlockComment` leaves the loop
with the cursor on that character), and the closing `/` is then delivered as the
operator `SLASH`: two content invocations, not one comment over the whole
buffer. -/
theorem scan_block_comment :
    (scan alwaysContinue "/**/").history =
        [Obs.call (Call.consumeComment ⟨0, 3⟩),
          Obs.call (Call.consumeOperator OPERATOR_TOKEN.SLASH ⟨3, 4⟩),
          Obs.call Call.consumeEOL, Obs.call Call.consumeEOF] ∧
      (scan alwaysContinue "/* a */").history =
        [Obs.call (Call.consumeComment ⟨0, 6⟩),
          Obs.call (Call.consumeOperator OPERATOR_TOKEN.SLASH ⟨6, 7⟩),
          Obs.call Call.consumeEOL, Obs.call Call.consumeEOF] := by
  constructor <;> decide

theorem consumeStep_block_comment (cb : LexerCallback) (s : Stream) (hc : s.current = '/')
    (hd : (!s.get.eof && decide (s.get.current = '*')) = true) :
    consumeStep cb s =
      match readBlockComment s.get with
      | Res.ok _ s2 => deliver cb s2 (Call.consumeComment ⟨s.ptr, s2.ptr⟩)
      | Res.throw msg s2 => Step.raise msg s2
      | Res.diverge => Step.diverge := by
  have hn : ¬ (!s.get.eof && decide (s.get.current = '/')) = true := by
    simp only [Bool.and_eq_true, Bool.not_eq_true', decide_eq_true_eq] at hd ⊢
    rintro ⟨_, h⟩
    rw [hd.2] at h
    exact absurd h (by decide)
  unfold consumeStep
  dsimp only
  rw [if_pos hc, if_neg hn, if_pos hd]

theorem readBlockCommentLoop_unterminated (buf : List Char)
    (hno : ∀ i, 2 ≤ i → ¬ (buf.getD i NUL = '*' ∧ buf.getD (i + 1) NUL = '/')) :
    ∀ (n : Nat) (s : Stream) (c0 : Char), s.buf = buf → 2 ≤ s.ptr → s.ptr < s.buf.length →
      c0 = s.current → s.buf.length - s.ptr ≤ n →
      ∃ t : Stream, readBlockCommentLoop n s c0 =
          Res.throw "unexpected end of file" (t.error "unexpected end of file") ∧
        t.history = s.history
  | 0, s, c0, hb, h2, hlt, hc, hn => by omega
  | n + 1, s, c0, hb, h2, hlt, hc, hn => by
    unfold readBlockCommentLoop
    rcases next_cases s with ⟨hnx, hlt1⟩ | ⟨hnx, _⟩
    · rw [hnx]
      simp only
      have hcond : ¬ (c0 = '*' ∧ s.get.current = '/') := by
        have := hno s.ptr h2
        rw [hc]
        unfold Stream.current
        rw [Stream.get_buf, Stream.get_ptr, hb]
        exact this
      rw [if_neg hcond]
      obtain ⟨t, ht, hh⟩ := readBlockCommentLoop_unterminated buf hno n s.get s.get.current
        hb (by simp; omega) (by simpa using hlt1) rfl (by simp; omega)
      exact ⟨t, ht, hh⟩
    · rw [hnx]
      exact ⟨s.get, rfl, rfl⟩

/-- C15. On a buffer that begins with `/*` and holds no `*/` that starts at
index 2 or later, `consume` throws the lexer error "unexpected end of file", and
the history of the scan is exactly one diagnostic with that message: it is
reported before the throw and `consumeComment` is not invoked. -/
theorem consume_unterminated_block_comment (cb : LexerCallback) (name : String)
    (body : List Char)
    (hno : ∀ i, 2 ≤ i → ¬ (('/' :: '*' :: body).getD i NUL = '*' ∧
      ('/' :: '*' :: body).getD (i + 1) NUL = '/')) :
    ∃ s d, consume cb (Stream.new ('/' :: '*' :: body) name) =
        Res.throw "unexpected end of file" s ∧
      s.history = [Obs.error d] ∧ d.message = "unexpected end of file" := by
  have h0 := Stream.rest_cons (s := Stream.new ('/' :: '*' :: body) name) rfl
  have h1 := Stream.rest_cons h0.2.2.2
  have hstep := consumeStep_block_comment cb _ h0.2.2.1 (by rw [h1.2.1, h1.2.2.1]; rfl)
  have hread : ∃ t : Stream, readBlockComment (Stream.new ('/' :: '*' :: body) name).get =
      Res.throw "unexpected end of file" (t.error "unexpected end of file") ∧
      t.history = [] := by
    unfold readBlockComment
    rcases next_cases (Stream.new ('/' :: '*' :: body) name).get with ⟨hnx, hlt1⟩ | ⟨hnx, _⟩
    · rw [hnx]
      simp only
      exact readBlockCommentLoop_unterminated _ hno _ _ _ rfl (by simp [Stream.new])
        (by simpa using hlt1) rfl (Nat.le_refl _)
    · rw [hnx]
      exact ⟨_, rfl, rfl⟩
  obtain ⟨t, hr, hh⟩ := hread
  rw [hr] at hstep
  obtain ⟨d, hd1, hd2⟩ := history_of_error t "unexpected end of file" hh
  exact ⟨_, d, consume_of_raised (consumeWhile_raise h0.1 hstep), hd1, hd2⟩

/-- C15, witnessed on `/*/` (no `*/` from index 2 on): the scan throws
"unexpected end of file". -/
theorem consume_unterminated_block_comment_witness :
    ∃ s d, consume alwaysContinue (Stream.new ('/' :: '*' :: ['/']) "cfg") =
        Res.throw "unexpected end of file" s ∧
      s.history = [Obs.error d] ∧ d.message = "unexpected end of file" :=
  consume_unterminated_block_comment alwaysContinue "cfg" ['/'] (by
    intro i hi h
    rcases Nat.eq_or_lt_of_le hi with rfl | hlt
    · exact absurd h.1 (by decide)
    · have h3 : ('/' :: '*' :: ['/']).getD i NUL = NUL :=
        List.getD_eq_default _ _ (by show 3 ≤ i; omega)
      rw [h3] at h
      exact absurd h.1 (by decide))

/-! ## Identifier, operator, hex literal -/

theorem char_le_iff (a b : Char) : a ≤ b ↔ a.toNat ≤ b.toNat := by
  rw [Char.le_def, UInt32.le_def, BitVec.le_def]
  rfl

theorem isalpha_not_digit (c : Char) (h : isalpha c = true) : isdigit_dec c = false := by
  simp only [isalpha, isdigit_dec, Bool.or_eq_true, Bool.and_eq_true, decide_eq_true_eq,
    char_le_iff] at h ⊢
  have e1 : ('A' : Char).toNat = 65 := rfl
  have e2 : ('Z' : Char).toNat = 90 := rfl
  have e3 : ('a' : Char).toNat = 97 := rfl
  have e4 : ('z' : Char).toNat = 122 := rfl
  have e5 : ('0' : Char).toNat = 48 := rfl
  have e6 : ('9' : Char).toNat = 57 := rfl
  rw [e1, e2, e3, e4] at h
  simp only [Bool.and_eq_false_imp, decide_eq_true_eq, decide_eq_false_iff_not, e5, e6]
  rcases h with ((((h | h) | rfl) | rfl) | rfl) | rfl
  · omega
  · omega
  · decide
  · decide
  · decide
  · decide

theorem isalpha_ne {c : Char} (h : isalpha c = true) (d : Char) (hd : isalpha d = false) :
    c ≠ d := by
  rintro rfl
  rw [h] at hd
  exact absurd hd (by simp)

/-- A round of the loop that starts on an identifier character other than `.`
reads an identifier from there. -/
theorem consumeStep_identifier (cb : LexerCallback) (s : Stream) (ha : isalpha s.current = true)
    (hdot : s.current ≠ '.') :
    consumeStep cb s =
      deliver cb (readIdentifier s) (Call.consumeIdentifier ⟨s.ptr, (readIdentifier s).ptr⟩) := by
  have hb : ¬ (s.current = '\r' ∨ s.current = '\t' ∨ s.current = ' ') := by
    rintro (hc | hc | hc)
    · exact isalpha_ne ha _ (by decide) hc
    · exact isalpha_ne ha _ (by decide) hc
    · exact isalpha_ne ha _ (by decide) hc
  have hnd : ¬ isdigit_dec s.current = true := by
    rw [isalpha_not_digit _ ha]
    simp
  have han : isalnum s.current = true := by
    unfold isalnum
    rw [ha]
    rfl
  unfold consumeStep
  dsimp only
  rw [if_neg (isalpha_ne ha _ (by decide)), if_neg hdot, if_neg (isalpha_ne ha _ (by decide)),
    if_neg (isalpha_ne ha _ (by decide)), if_neg (isalpha_ne ha _ (by decide)),
    if_neg (isalpha_ne ha _ (by decide)), if_neg hb, if_neg hnd, if_pos han]

/-- A round of the loop that starts on the one-character spelling of an operator
kind, followed by a space, delivers that kind over that character. -/
theorem consumeStep_single_operator (cb : LexerCallback) (s : Stream) (k : OPERATOR_TOKEN)
    (c : Char) (r : List Char) (hk : ∃ t, token k = Except.ok t ∧ t.literal.toList = [c])
    (h : s.rest = c :: ' ' :: r) :
    consumeStep cb s = deliver cb s.get (Call.consumeOperator k ⟨s.ptr, s.ptr + 1⟩) := by
  have h0 := Stream.rest_cons h
  have h1 := Stream.rest_cons h0.2.2.2
  obtain ⟨t, ht, hl⟩ := hk
  have hcur := h0.2.2.1
  have he := h1.2.1
  have hnx := h1.2.2.1
  cases k <;> simp only [token, Except.ok.injEq, reduceCtorEq] at ht <;> subst ht <;>
    simp only [String.toList, List.cons.injEq, and_true, List.cons_ne_self, reduceCtorEq,
      and_false, List.ne_cons_self] at hl
  all_goals subst hl
  all_goals
    unfold consumeStep
    dsimp only
    rw [hcur]
    simp +decide [getOperator, getOperatorCase, getTwoCharacterOp, getTwoCharacterOp3,
      Res.ofPair, hcur, he, hnx, isdigit_dec, isalnum, isalpha]

/-- A round of the loop that starts on `0`, `x` or `X` and a non-empty run of hex
digits that ends the input delivers an integer literal over all of it. -/
theorem consumeStep_hex (cb : LexerCallback) (s : Stream) (x : Char) (hs : List Char)
    (h : s.rest = '0' :: x :: hs) (hx : x = 'x' ∨ x = 'X') (hne : hs ≠ [])
    (hhs : ∀ c ∈ hs, isdigit_hex c = true) :
    ∃ t, Moved s t (2 + hs.length) [] ∧
      consumeStep cb s = deliver cb t (Call.consumeIntegerLiteral ⟨s.ptr, t.ptr⟩) := by
  have h0 := Stream.rest_cons h
  have h1 := Stream.rest_cons h0.2.2.2
  have hm := Moved.readSequence isdigit_hex (s := s.get.get) (x := hs) (r := [])
    (by rw [h1.2.2.2]; simp) hhs (by simp)
  have hmv := (((Moved.step h).then (Moved.step h0.2.2.2)).then hm).cast
    (j := 2 + hs.length) (by omega)
  refine ⟨_, hmv, ?_⟩
  rw [consumeStep_zero cb s h0.2.2.1]
  unfold readNumberLiteralPrefix
  rw [if_pos (by rw [h1.2.2.1]; exact hx)]
  dsimp only
  have hlen : 0 < hs.length := List.length_pos.2 hne
  have hcond : ¬ (((readSequence isdigit_hex s.get.get).ptr : Int) - ((s.get.ptr : Nat) : Int)
      ≤ 1) := by
    rw [hmv.ptr, Stream.get_ptr]
    omega
  rw [if_neg hcond, Step.ofRes_invoke]

theorem while_deliver {s t : Stream} {c : Call} (hlt : s.ptr < s.buf.length)
    (hstep : consumeStep alwaysContinue s = deliver alwaysContinue t c) :
    ∃ u, consumeWhile alwaysContinue s = consumeWhile alwaysContinue u ∧ u.rest = t.rest ∧
      u.ptr = t.ptr ∧ u.history = t.history ++ [Obs.call c] :=
  ⟨(invoke alwaysContinue t c).2, consumeWhile_proceed hlt hstep, rfl, rfl, rfl⟩

theorem while_blank (cb : LexerCallback) {s : Stream} {r : List Char} (h : s.rest = ' ' :: r) :
    ∃ u, consumeWhile cb s = consumeWhile cb u ∧ u.rest = r ∧ u.ptr = s.ptr + 1 ∧
      u.history = s.history :=
  ⟨s.get, consumeWhile_proceed (Stream.rest_cons h).1
      (consumeStep_blank cb s (Or.inr (Or.inr (Stream.rest_cons h).2.2.1))),
    (Stream.rest_cons h).2.2.2, rfl, rfl⟩

/-- C18. An identifier, a single-character operator and a hex integer literal,
separated by single spaces, scanned with the always-continue callback: the scan
returns and its history is exactly the identifier, the operator of that
spelling, the integer literal, `consumeEOL`, `consumeEOF`; the three spans
denote exactly the three source texts. -/
theorem consume_identifier_operator_hex (name : String) (ident : List Char)
    (k : OPERATOR_TOKEN) (c x : Char) (hs : List Char) (hid : IsIdentifier ident)
    (hk : ∃ t, token k = Except.ok t ∧ t.literal.toList = [c]) (hx : x = 'x' ∨ x = 'X')
    (hne : hs ≠ []) (hhs : ∀ d ∈ hs, isdigit_hex d = true) :
    (∃ s, consume alwaysContinue
          (Stream.new (ident ++ ' ' :: c :: ' ' :: '0' :: x :: hs) name) = Res.ok () s ∧
        s.history =
          [Obs.call (Call.consumeIdentifier ⟨0, ident.length⟩),
            Obs.call (Call.consumeOperator k ⟨ident.length + 1, ident.length + 2⟩),
            Obs.call (Call.consumeIntegerLiteral
              ⟨ident.length + 3, ident.length + 5 + hs.length⟩),
            Obs.call Call.consumeEOL, Obs.call Call.consumeEOF]) ∧
      (Token.mk 0 ident.length).text (ident ++ ' ' :: c :: ' ' :: '0' :: x :: hs) = ident ∧
      (Token.mk (ident.length + 1) (ident.length + 2)).text
          (ident ++ ' ' :: c :: ' ' :: '0' :: x :: hs) = [c] ∧
      (Token.mk (ident.length + 3) (ident.length + 5 + hs.length)).text
          (ident ++ ' ' :: c :: ' ' :: '0' :: x :: hs) = '0' :: x :: hs := by
  refine ⟨?_, ?_, ?_, ?_⟩
  · obtain ⟨a, r, rfl, ha, hdot, hr⟩ := hid
    -- the identifier
    have h0 := Stream.rest_cons
      (s := Stream.new (a :: r ++ ' ' :: c :: ' ' :: '0' :: x :: hs) name) rfl
    have hstep1 := consumeStep_identifier alwaysContinue _ (by rw [h0.2.2.1]; exact ha)
      (by rw [h0.2.2.1]; exact hdot)
    have hm1 := Moved.readSequence isalnum
      (s := Stream.new (a :: r ++ ' ' :: c :: ' ' :: '0' :: x :: hs) name) (x := a :: r)
      (r := ' ' :: c :: ' ' :: '0' :: x :: hs) rfl
      (by
        intro d hd
        rcases List.mem_cons.1 hd with rfl | hd
        · unfold isalnum
          rw [ha]
          rfl
        · exact hr d hd)
      (by
        intro d r1 hd
        simp only [List.cons.injEq] at hd
        rw [← hd.1]
        decide)
    have hp1 : (readIdentifier (Stream.new (a :: r ++ ' ' :: c :: ' ' :: '0' :: x :: hs)
        name)).ptr = (a :: r).length := hm1.ptr.trans (Nat.zero_add _)
    have hp0 : (Stream.new (a :: r ++ ' ' :: c :: ' ' :: '0' :: x :: hs) name).ptr = 0 := rfl
    rw [hp0, hp1] at hstep1
    obtain ⟨u1, hw1, hr1, hq1, hh1⟩ := while_deliver h0.1 hstep1
    rw [show (readIdentifier _).rest = _ from hm1.rest] at hr1
    rw [hp1] at hq1
    rw [show (readIdentifier _).history = _ from hm1.history] at hh1
    -- the first space
    obtain ⟨u2, hw2, hr2, hq2, hh2⟩ := while_blank alwaysContinue hr1
    -- the operator
    have h2 := Stream.rest_cons hr2
    have hstep3 := consumeStep_single_operator alwaysContinue u2 k c _ hk hr2
    obtain ⟨u3, hw3, hr3, hq3, hh3⟩ := while_deliver h2.1 hstep3
    rw [h2.2.2.2] at hr3
    -- the second space
    obtain ⟨u4, hw4, hr4, hq4, hh4⟩ := while_blank alwaysContinue hr3
    -- the literal
    obtain ⟨t5, hm5, hstep5⟩ := consumeStep_hex alwaysContinue u4 x hs hr4 hx hne hhs
    obtain ⟨u5, hw5, hr5, hq5, hh5⟩ := while_deliver (Stream.rest_cons hr4).1 hstep5
    have hw6 := @consumeWhile_eof alwaysContinue _
      (Stream.rest_nil (hr5.trans hm5.rest)).1
    refine ⟨_, consume_of_exhausted (hw1.trans (hw2.trans (hw3.trans (hw4.trans
      (hw5.trans hw6))))), ?_⟩
    have hp5 : t5.ptr = (a :: r).length + 5 + hs.length := by
      rw [hm5.ptr, hq4, hq3, Stream.get_ptr, hq2, hq1]
      omega
    have hp4 : u4.ptr = (a :: r).length + 3 := by
      rw [hq4, hq3, Stream.get_ptr, hq2, hq1]
    have hp2 : u2.ptr = (a :: r).length + 1 := by rw [hq2, hq1]
    simp only [invoke_history, hh5, hm5.history, hh4, hh3, Stream.get_history, hh2, hh1, hp5,
      hp4, hp2, List.nil_append, List.cons_append, List.append_assoc]
    rfl
  · simp [Token.text]
  · simp [Token.text, List.drop_append]
  · simp [Token.text, List.drop_append]
    omega

/-- C18, witnessed on the spec scenario `abc + 0x1F`. -/
theorem consume_identifier_operator_hex_witness :
    (∃ s, consume alwaysContinue
          (Stream.new (['a', 'b', 'c'] ++ ' ' :: '+' :: ' ' :: '0' :: 'x' :: ['1', 'F']) "cfg") =
            Res.ok () s ∧
        s.history =
          [Obs.call (Call.consumeIdentifier ⟨0, ['a', 'b', 'c'].length⟩),
            Obs.call (Call.consumeOperator OPERATOR_TOKEN.PLUS
              ⟨['a', 'b', 'c'].length + 1, ['a', 'b', 'c'].length + 2⟩),
            Obs.call (Call.consumeIntegerLiteral
              ⟨['a', 'b', 'c'].length + 3, ['a', 'b', 'c'].length + 5 + ['1', 'F'].length⟩),
            Obs.call Call.consumeEOL, Obs.call Call.consumeEOF]) ∧
      (Token.mk 0 ['a', 'b', 'c'].length).text
          (['a', 'b', 'c'] ++ ' ' :: '+' :: ' ' :: '0' :: 'x' :: ['1', 'F']) = ['a', 'b', 'c'] ∧
      (Token.mk (['a', 'b', 'c'].length + 1) (['a', 'b', 'c'].length + 2)).text
          (['a', 'b', 'c'] ++ ' ' :: '+' :: ' ' :: '0' :: 'x' :: ['1', 'F']) = ['+'] ∧
      (Token.mk (['a', 'b', 'c'].length + 3)
            (['a', 'b', 'c'].length + 5 + ['1', 'F'].length)).text
          (['a', 'b', 'c'] ++ ' ' :: '+' :: ' ' :: '0' :: 'x' :: ['1', 'F']) =
        '0' :: 'x' :: ['1', 'F'] :=
  consume_identifier_operator_hex "cfg" ['a', 'b', 'c'] OPERATOR_TOKEN.PLUS '+' 'x' ['1', 'F']
    ⟨'a', ['b', 'c'], rfl, by decide, by decide, by decide⟩ ⟨⟨"+", 1⟩, rfl, rfl⟩ (Or.inl rfl)
    (by decide) (by decide)

/-! ## The character named by `invalidCharacter` -/

/-- C20. An unrecognised character: on the buffer `#a` the driver reaches
`getOperator` on `#`, which consumes it with `get()` before `invalidCharacter`
reads `*stream.current()`; the lexer error and the diagnostic therefore name the
character after it, `a`, and not `#`; the column reported is the one after the
offending character. When `#` is the last character of the buffer, the character
named is the one read at the end boundary (the NUL of the model). -/
theorem scan_invalid_character :
    consume alwaysContinue (Stream.new ['#', 'a'] "cfg") =
        Res.throw (invalidCharacterMessage 'a')
          ⟨['#', 'a'], 1, [0], "cfg", [Obs.error ⟨invalidCharacterMessage 'a', "cfg", 1, 1⟩]⟩ ∧
      invalidCharacterMessage 'a' ≠ invalidCharacterMessage '#' ∧
      invalidCharacterMessage 'a' = "invalid input character: 'a'" ∧
      consume alwaysContinue (Stream.new ['#'] "cfg") =
        Res.throw (invalidCharacterMessage NUL)
          ⟨['#'], 1, [0], "cfg", [Obs.error ⟨invalidCharacterMessage NUL, "cfg", 1, 1⟩]⟩ := by
  refine ⟨?_, ?_, ?_, ?_⟩ <;> decide

/-! ## Case analysis of one round, induction over the loop -/

theorem TokenCall.span_eq {t : Token} {c : Call} (h : TokenCall t c) : c.span? = some t := by
  cases h <;> rfl

/-- A round that ends in `break` skipped a blank, or consumed a newline and
invoked `consumeEOL`, or delivered a token that spans the characters consumed. -/
theorem StepSpec.proceed_cases {cb : LexerCallback} {s t : Stream}
    (h : StepSpec cb s (Step.proceed t)) :
    ((s.current = '\r' ∨ s.current = '\t' ∨ s.current = ' ') ∧ t = s.get) ∨
      (s.current = '\n' ∧ t = (invoke cb s.get Call.consumeEOL).2) ∨
      ∃ u c, Adv anyChar s u ∧ s.ptr < u.ptr ∧ c.span? = some ⟨s.ptr, u.ptr⟩ ∧
        t = (invoke cb u c).2 := by
  generalize hr : Step.proceed t = r at h
  cases h with
  | blank hc =>
    simp only [Step.proceed.injEq] at hr
    exact Or.inl ⟨hc, hr⟩
  | eol hc =>
    rcases deliver_cases cb s.get Call.consumeEOL with hd | hd
    · rw [hd] at hr
      simp only [Step.proceed.injEq] at hr
      exact Or.inr (Or.inl ⟨hc, hr⟩)
    · rw [hd] at hr
      simp at hr
  | comment u hadv hpt =>
    rcases deliver_cases cb u (Call.consumeComment ⟨s.ptr, u.ptr⟩) with hd | hd
    · rw [hd] at hr
      simp only [Step.proceed.injEq] at hr
      exact Or.inr (Or.inr ⟨u, Call.consumeComment ⟨s.ptr, u.ptr⟩, hadv, hpt, rfl, hr⟩)
    · rw [hd] at hr
      simp at hr
  | token u c hadv hpt hc =>
    rcases deliver_cases cb u c with hd | hd
    · rw [hd] at hr
      simp only [Step.proceed.injEq] at hr
      exact Or.inr (Or.inr ⟨u, c, hadv.any, hpt, hc.span_eq, hr⟩)
    · rw [hd] at hr
      simp at hr
  | raise u msg hadv => simp at hr

/-- A round that ends in `return stream` consumed a newline and invoked
`consumeEOL`, or delivered a token that spans the characters consumed. -/
theorem StepSpec.stop_cases {cb : LexerCallback} {s t : Stream}
    (h : StepSpec cb s (Step.stop t)) :
    (s.current = '\n' ∧ t = (invoke cb s.get Call.consumeEOL).2) ∨
      ∃ u c, Adv anyChar s u ∧ s.ptr < u.ptr ∧ c.span? = some ⟨s.ptr, u.ptr⟩ ∧
        t = (invoke cb u c).2 := by
  generalize hr : Step.stop t = r at h
  cases h with
  | blank hc => simp at hr
  | eol hc =>
    rcases deliver_cases cb s.get Call.consumeEOL with hd | hd
    · rw [hd] at hr
      simp at hr
    · rw [hd] at hr
      simp only [Step.stop.injEq] at hr
      exact Or.inl ⟨hc, hr⟩
  | comment u hadv hpt =>
    rcases deliver_cases cb u (Call.consumeComment ⟨s.ptr, u.ptr⟩) with hd | hd
    · rw [hd] at hr
      simp at hr
    · rw [hd] at hr
      simp only [Step.stop.injEq] at hr
      exact Or.inr ⟨u, Call.consumeComment ⟨s.ptr, u.ptr⟩, hadv, hpt, rfl, hr⟩
  | token u c hadv hpt hc =>
    rcases deliver_cases cb u c with hd | hd
    · rw [hd] at hr
      simp at hr
    · rw [hd] at hr
      simp only [Step.stop.injEq] at hr
      exact Or.inr ⟨u, c, hadv.any, hpt, hc.span_eq, hr⟩
  | raise u msg hadv => simp at hr

/-- A round that throws advanced the cursor and reported the message. -/
theorem StepSpec.raise_cases {cb : LexerCallback} {s t : Stream} {msg : String}
    (h : StepSpec cb s (Step.raise msg t)) : ∃ u, Adv anyChar s u ∧ t = u.error msg := by
  generalize hr : Step.raise msg t = r at h
  cases h with
  | blank hc => simp at hr
  | eol hc => rcases deliver_cases cb s.get Call.consumeEOL with hd | hd <;> rw [hd] at hr <;>
      simp at hr
  | comment u hadv hpt =>
    rcases deliver_cases cb u (Call.consumeComment ⟨s.ptr, u.ptr⟩) with hd | hd <;>
      rw [hd] at hr <;> simp at hr
  | token u c hadv hpt hc =>
    rcases deliver_cases cb u c with hd | hd <;> rw [hd] at hr <;> simp at hr
  | raise u m hadv =>
    simp only [Step.raise.injEq] at hr
    obtain ⟨rfl, rfl⟩ := hr
    exact ⟨u, hadv, rfl⟩

theorem consumeStep_ne_diverge (cb : LexerCallback) (s : Stream) (hlt : s.ptr < s.buf.length) :
    consumeStep cb s ≠ Step.diverge := by
  intro h
  have hspec := consumeStep_spec cb s hlt
  obtain ⟨t, hr, _⟩ := hspec.grows
  rw [h] at hr
  rcases hr with hr | hr | ⟨msg, hr⟩ <;> simp at hr

/-- Induction over the loop of `consume`: a property `I` of the states at the
head of the loop that every `break` round preserves gives the property `F` of
the exit as soon as the three kinds of exit give it. -/
theorem consumeLoop_induct (cb : LexerCallback) (I : Stream → Prop) (F : LoopExit → Prop)
    (hexh : ∀ t, I t → t.buf.length ≤ t.ptr → F (LoopExit.exhausted t))
    (hpro : ∀ s t, I s → s.ptr < s.buf.length → consumeStep cb s = Step.proceed t → I t)
    (hstop : ∀ s t, I s → s.ptr < s.buf.length → consumeStep cb s = Step.stop t →
      F (LoopExit.stopped t))
    (hraise : ∀ s t msg, I s → s.ptr < s.buf.length → consumeStep cb s = Step.raise msg t →
      F (LoopExit.raised msg t)) :
    ∀ (n : Nat) (s : Stream), I s → s.buf.length - s.ptr ≤ n → F (consumeLoop cb n s)
  | 0, s, hI, hn => by
    have hle : s.buf.length ≤ s.ptr := by omega
    unfold consumeLoop
    rw [if_pos ((s.eof_eq_true_iff).2 hle)]
    exact hexh s hI hle
  | n + 1, s, hI, hn => by
    unfold consumeLoop
    by_cases he : s.eof = true
    · rw [if_pos he]
      exact hexh s hI ((s.eof_eq_true_iff).1 he)
    · rw [if_neg he]
      have hlt : s.ptr < s.buf.length := (s.eof_eq_false_iff).1 (by simpa using he)
      have hspec := consumeStep_spec cb s hlt
      cases hr : consumeStep cb s with
      | proceed t =>
        rw [hr] at hspec
        have := hspec.advances
        simp only
        exact consumeLoop_induct cb I F hexh hpro hstop hraise n t (hpro s t hI hlt hr)
          (by rw [this.2]; omega)
      | stop t => exact hstop s t hI hlt hr
      | raise msg t => exact hraise s t msg hI hlt hr
      | diverge => exact absurd hr (consumeStep_ne_diverge cb s hlt)

/-! ## The spans tile the buffer -/

theorem spans_append (h1 h2 : List Obs) : spans (h1 ++ h2) = spans h1 ++ spans h2 := by
  simp [spans, List.filterMap_append]

theorem spans_call_none (h : List Obs) {c : Call} (hc : c.span? = none) :
    spans (h ++ [Obs.call c]) = spans h := by
  simp [spans_append, spans, List.filterMap_cons, Obs.span?, hc]

theorem spans_call_some (h : List Obs) {c : Call} {t : Token} (hc : c.span? = some t) :
    spans (h ++ [Obs.call c]) = spans h ++ [t] := by
  simp [spans_append, spans, List.filterMap_cons, Obs.span?, hc]

theorem spans_error (h : List Obs) (d : Diagnostic) : spans (h ++ [Obs.error d]) = spans h := by
  simp [spans_append, spans, List.filterMap_cons, Obs.span?]

theorem Tiled.same_spans {buf : List Char} {h h1 : List Obs} {p : Nat} (ht : Tiled buf h p)
    (hs : spans h1 = spans h) : Tiled buf h1 p :=
  ⟨by rw [hs]; exact ht.nonempty, by rw [hs]; exact ht.inside, by rw [hs]; exact ht.ordered,
    fun i hi => by
      unfold coveredBy
      rw [hs]
      exact ht.covered i hi⟩

theorem Tiled.skip {buf : List Char} {h : List Obs} {p : Nat} (ht : Tiled buf h p)
    (hb : isBlank (buf.getD p NUL)) : Tiled buf h (p + 1) :=
  ⟨ht.nonempty, fun t hm => Nat.le_succ_of_le (ht.inside t hm), ht.ordered, fun i hi => by
    rcases Nat.lt_succ_iff_lt_or_eq.1 hi with hlt | rfl
    · exact ht.covered i hlt
    · exact Or.inr hb⟩

theorem Tiled.add {buf : List Char} {h h1 : List Obs} {p q : Nat} (ht : Tiled buf h p)
    (hpq : p < q) (hs : spans h1 = spans h ++ [⟨p, q⟩]) : Tiled buf h1 q := by
  refine ⟨?_, ?_, ?_, ?_⟩
  · intro t hm
    rw [hs] at hm
    rcases List.mem_append.1 hm with hm | hm
    · exact ht.nonempty t hm
    · simp only [List.mem_singleton] at hm
      subst hm
      exact hpq
  · intro t hm
    rw [hs] at hm
    rcases List.mem_append.1 hm with hm | hm
    · exact Nat.le_trans (ht.inside t hm) (Nat.le_of_lt hpq)
    · simp only [List.mem_singleton] at hm
      subst hm
      exact Nat.le_refl _
  · rw [hs, List.pairwise_append]
    refine ⟨ht.ordered, List.pairwise_singleton _ _, ?_⟩
    intro a ha b hb
    simp only [List.mem_singleton] at hb
    subst hb
    exact ht.inside a ha
  · intro i hi
    by_cases hip : i < p
    · rcases ht.covered i hip with ⟨t, hm, h1, h2⟩ | hb
      · left
        exact ⟨t, by rw [hs]; exact List.mem_append_left _ hm, h1, h2⟩
      · exact Or.inr hb
    · left
      exact ⟨⟨p, q⟩, by rw [hs]; simp, by simp; omega, hi⟩

theorem Tiled.nil (buf : List Char) : Tiled buf [] 0 :=
  ⟨by simp [spans], by simp [spans], by simp [spans], fun i hi => by omega⟩

theorem consumeWhile_tiled (cb : LexerCallback) (buf : List Char) (name : String) :
    TiledExit buf (consumeWhile cb (Stream.new buf name)) := by
  refine consumeLoop_induct cb
    (fun s => Tiled s.buf s.history s.ptr ∧ s.ptr ≤ s.buf.length ∧ s.buf = buf) (TiledExit buf)
    ?_ ?_ ?_ ?_ _ (Stream.new buf name) ⟨Tiled.nil buf, Nat.zero_le _, rfl⟩ (Nat.le_refl _)
  · intro t hI _
    exact hI
  · intro s t hI hlt hr
    have hspec := consumeStep_spec cb s hlt
    rw [hr] at hspec
    rcases hspec.proceed_cases with ⟨hc, rfl⟩ | ⟨hc, rfl⟩ | ⟨u, c, hadv, hpt, hsp, rfl⟩
    · refine ⟨hI.1.skip ?_, by simp; omega, hI.2.2⟩
      show isBlank s.current
      rcases hc with h | h | h
      · exact Or.inl h
      · exact Or.inr (Or.inl h)
      · exact Or.inr (Or.inr (Or.inl h))
    · refine ⟨(hI.1.skip (show isBlank s.current from Or.inr (Or.inr (Or.inr hc)))).same_spans
        ?_, by simp; omega, hI.2.2⟩
      rw [invoke_history]
      exact spans_call_none _ rfl
    · refine ⟨?_, ?_, ?_⟩
      · rw [invoke_buf, hadv.buf_eq]
        refine hI.1.add hpt ?_
        rw [invoke_history, hadv.history_eq]
        exact spans_call_some _ hsp
      · exact hadv.ptr_le_length hI.2.1
      · exact hadv.buf_eq.trans hI.2.2
  · intro s t hI hlt hr
    have hspec := consumeStep_spec cb s hlt
    rw [hr] at hspec
    rcases hspec.stop_cases with ⟨hc, rfl⟩ | ⟨u, c, hadv, hpt, hsp, rfl⟩
    · refine ⟨(hI.1.skip (show isBlank s.current from Or.inr (Or.inr (Or.inr hc)))).same_spans
        ?_, by simp; omega, hI.2.2⟩
      rw [invoke_history]
      exact spans_call_none _ rfl
    · refine ⟨?_, ?_, ?_⟩
      · rw [invoke_buf, hadv.buf_eq]
        refine hI.1.add hpt ?_
        rw [invoke_history, hadv.history_eq]
        exact spans_call_some _ hsp
      · exact hadv.ptr_le_length hI.2.1
      · exact hadv.buf_eq.trans hI.2.2
  · intro s t msg hI hlt hr
    have hspec := consumeStep_spec cb s hlt
    rw [hr] at hspec
    obtain ⟨u, hadv, rfl⟩ := hspec.raise_cases
    refine ⟨⟨s.ptr, hadv.ptr_le, ?_⟩, hadv.ptr_le_length hI.2.1, hadv.buf_eq.trans hI.2.2⟩
    rw [Stream.error_buf, hadv.buf_eq]
    refine hI.1.same_spans ?_
    show spans (u.history ++ _) = _
    rw [hadv.history_eq]
    exact spans_error _ _

/-- C19, the claim as stated fails for a scan that ends in a lexer error: on
the buffer made of a double quote and `abc` the scan throws with the cursor at
position 4 and no span delivered, so the character `a` at position 1 stands
before the final cursor position, is covered by no span and is not a blank. -/
theorem scan_error_leaves_text_uncovered :
    ∃ msg s, consume alwaysContinue (Stream.new [QUOTE, 'a', 'b', 'c'] "cfg") =
        Res.throw msg s ∧
      ∃ i, i < s.ptr ∧
        ¬ (coveredBy s.history i ∨ isBlank ([QUOTE, 'a', 'b', 'c'].getD i NUL)) :=
  ⟨"unexpected end of file",
    ⟨[QUOTE, 'a', 'b', 'c'], 4, [0], "cfg", [Obs.error ⟨"unexpected end of file", "cfg", 1, 4⟩]⟩,
    by decide, 1, by decide, by decide⟩

/-- The spans of a scan by `consume`: they are non-empty, lie inside the buffer,
and each of them starts at or after the end of every span delivered before it;
and when the scan returns, the cursor is inside the buffer and every character
before it lies inside a delivered span or is one of `\r`, `\t`, space and
newline. -/
theorem consume_spans_tiled (cb : LexerCallback) (buf : List Char) (name : String) :
    (∀ t ∈ spans (consume cb (Stream.new buf name)).history,
        t.start < t.stop ∧ t.stop ≤ buf.length) ∧
      (spans (consume cb (Stream.new buf name)).history).Pairwise
        (fun a b => a.stop ≤ b.start) ∧
      ∀ s, consume cb (Stream.new buf name) = Res.ok () s →
        s.ptr ≤ buf.length ∧
          ∀ i, i < s.ptr → coveredBy s.history i ∨ isBlank (buf.getD i NUL) := by
  have hspec := consumeWhile_tiled cb buf name
  unfold consume
  generalize consumeWhile cb (Stream.new buf name) = e at hspec
  have parts : ∀ (h : List Obs) (p : Nat), Tiled buf h p → p ≤ buf.length →
      (∀ t ∈ spans h, t.start < t.stop ∧ t.stop ≤ buf.length) ∧
        (spans h).Pairwise (fun a b => a.stop ≤ b.start) :=
    fun h p ht hp =>
      ⟨fun t hm => ⟨ht.nonempty t hm, Nat.le_trans (ht.inside t hm) hp⟩, ht.ordered⟩
  cases e with
  | exhausted t =>
    obtain ⟨ht, hp, hb⟩ := hspec
    rw [hb] at ht hp
    have hfin : Tiled buf
        (invoke cb (invoke cb t Call.consumeEOL).2 Call.consumeEOF).2.history t.ptr := by
      refine ht.same_spans ?_
      rw [invoke_history, invoke_history,
        spans_call_none _ (c := Call.consumeEOF) rfl, spans_call_none _ (c := Call.consumeEOL) rfl]
    refine ⟨(parts _ _ hfin hp).1, (parts _ _ hfin hp).2, ?_⟩
    intro s hs
    simp only [Res.ok.injEq, true_and] at hs
    subst hs
    exact ⟨hp, fun i hi => hfin.covered i hi⟩
  | stopped t =>
    obtain ⟨ht, hp, hb⟩ := hspec
    rw [hb] at ht hp
    refine ⟨(parts _ _ ht hp).1, (parts _ _ ht hp).2, ?_⟩
    intro s hs
    simp only [Res.ok.injEq, true_and] at hs
    subst hs
    exact ⟨hp, fun i hi => ht.covered i hi⟩
  | raised msg t =>
    obtain ⟨⟨p, hpt, ht⟩, hp, hb⟩ := hspec
    rw [hb] at ht hp
    refine ⟨(parts _ _ ht (Nat.le_trans hpt hp)).1, (parts _ _ ht (Nat.le_trans hpt hp)).2, ?_⟩
    intro s hs
    simp at hs
  | diverge => exact hspec.elim

/-! ## Reads at the end boundary

The scanner with checked reads returns what the scanner returns whenever it
returns at all; and there are buffers on which it does not. -/

theorem Stream.currentChecked_some {s : Stream} {c : Char} (h : s.currentChecked = some c) :
    s.eof = false ∧ s.current = c := by
  unfold Stream.currentChecked at h
  by_cases he : s.eof = true
  · simp [he] at h
  · simpa [he] using h

theorem Stream.currentChecked_bind {β : Type} {s : Stream} {f : Char → Option β} {r : β}
    (h : s.currentChecked.bind f = some r) : s.eof = false ∧ f s.current = some r := by
  cases hc : s.currentChecked with
  | none => rw [hc] at h; simp at h
  | some c =>
    rw [hc] at h
    obtain ⟨he, rfl⟩ := Stream.currentChecked_some hc
    exact ⟨he, h⟩

theorem invalidCharacterChecked_sound {α : Type} {s : Stream} {r : Res α}
    (h : invalidCharacterChecked s = some r) : invalidCharacter s = r := by
  unfold invalidCharacterChecked at h
  have h2 := (Stream.currentChecked_bind h).2
  simpa [invalidCharacter] using h2

theorem readSequenceLoopChecked_sound (f : Char → Bool) :
    ∀ (n : Nat) (s t : Stream), readSequenceLoopChecked f n s = some t →
      readSequenceLoop f n s = t
  | 0, s, t, h => by simpa [readSequenceLoopChecked, readSequenceLoop] using h
  | n + 1, s, t, h => by
    unfold readSequenceLoopChecked at h
    unfold readSequenceLoop
    by_cases he : s.eof = true
    · simpa [he] using h
    · have he2 : s.eof = false := by simpa using he
      rw [if_neg he] at h
      cases hc : s.currentChecked with
      | none => rw [hc] at h; simp at h
      | some c =>
        rw [hc] at h
        obtain ⟨_, rfl⟩ := Stream.currentChecked_some hc
        dsimp only at h
        by_cases hf : f s.current = true
        · rw [if_pos hf] at h
          simpa [he2, hf] using readSequenceLoopChecked_sound f n _ _ h
        · rw [if_neg hf] at h
          simpa [he2, hf] using h

theorem readSequenceChecked_sound {f : Char → Bool} {s t : Stream}
    (h : readSequenceChecked f s = some t) : readSequence f s = t :=
  readSequenceLoopChecked_sound f _ s t h

theorem readBlockCommentLoopChecked_sound :
    ∀ (n : Nat) (s : Stream) (c0 : Char) (r : Res Unit),
      readBlockCommentLoopChecked n s c0 = some r → readBlockCommentLoop n s c0 = r
  | 0, s, c0, r, h => by simpa [readBlockCommentLoopChecked, readBlockCommentLoop] using h
  | n + 1, s, c0, r, h => by
    unfold readBlockCommentLoopChecked at h
    unfold readBlockCommentLoop
    cases hn : next s with
    | ok u s1 =>
      rw [hn] at h
      dsimp only at h ⊢
      cases hc : s1.currentChecked with
      | none => rw [hc] at h; simp at h
      | some c =>
        rw [hc] at h
        obtain ⟨_, rfl⟩ := Stream.currentChecked_some hc
        dsimp only at h
        by_cases hq : c0 = '*' ∧ s1.current = '/'
        · rw [if_pos hq] at h ⊢
          simpa using h
        · rw [if_neg hq] at h ⊢
          exact readBlockCommentLoopChecked_sound n _ _ _ h
    | throw msg s1 => rw [hn] at h; simpa using h
    | diverge => rw [hn] at h; simpa using h

theorem readBlockCommentChecked_sound {s : Stream} {r : Res Unit}
    (h : readBlockCommentChecked s = some r) : readBlockComment s = r := by
  unfold readBlockCommentChecked at h
  unfold readBlockComment
  cases hn : next s with
  | ok u s1 =>
    rw [hn] at h
    exact readBlockCommentLoopChecked_sound _ _ _ _ (Stream.currentChecked_bind h).2
  | throw msg s1 => rw [hn] at h; simpa using h
  | diverge => rw [hn] at h; simpa using h

theorem readStringLiteralLoopChecked_sound :
    ∀ (n : Nat) (s : Stream) (e : Bool) (r : Res Unit),
      readStringLiteralLoopChecked n s e = some r → readStringLiteralLoop n s e = r
  | 0, s, e, r, h => by simpa [readStringLiteralLoopChecked, readStringLiteralLoop] using h
  | n + 1, s, e, r, h => by
    unfold readStringLiteralLoopChecked at h
    unfold readStringLiteralLoop
    cases hc : s.currentChecked with
    | none => rw [hc] at h; simp at h
    | some c =>
      rw [hc] at h
      obtain ⟨_, rfl⟩ := Stream.currentChecked_some hc
      dsimp only at h
      split
      · rename_i h1; rw [if_pos h1] at h; simpa using h
      · rename_i h1
        rw [if_neg h1] at h
        split
        · rename_i h2; rw [if_pos h2] at h; simpa using h
        · rename_i h2
          rw [if_neg h2] at h
          split
          · rename_i h3; rw [if_pos h3] at h; simpa using h
          · rename_i h3
            rw [if_neg h3] at h
            split
            · rename_i h4
              rw [if_pos h4] at h
              cases hn : next s with
              | ok u s1 =>
                rw [hn] at h
                exact readStringLiteralLoopChecked_sound n _ _ _ h
              | throw msg s1 => rw [hn] at h; simpa using h
              | diverge => rw [hn] at h; simpa using h
            · rename_i h4
              rw [if_neg h4] at h
              cases hn : next s with
              | ok u s1 =>
                rw [hn] at h
                exact readStringLiteralLoopChecked_sound n _ _ _ h
              | throw msg s1 => rw [hn] at h; simpa using h
              | diverge => rw [hn] at h; simpa using h

theorem readStringLiteralChecked_sound {s : Stream} {r : Res Unit}
    (h : readStringLiteralChecked s = some r) : readStringLiteral s = r :=
  readStringLiteralLoopChecked_sound _ _ _ _ h

theorem readFloatLiteralExponentChecked_sound {cb : LexerCallback} {s : Stream} {start : Nat}
    {r : Res Bool} (h : readFloatLiteralExponentChecked cb s start = some r) :
    readFloatLiteralExponent cb s start = r := by
  unfold readFloatLiteralExponentChecked at h
  unfold readFloatLiteralExponent
  dsimp only at h ⊢
  by_cases he : s.eof = true
  · simpa [he] using h
  · have he2 : s.eof = false := by simpa using he
    rw [if_neg he] at h
    have h2 := (Stream.currentChecked_bind h).2
    by_cases hc : s.current = 'e' ∨ s.current = 'E'
    · have hc2 : (!s.eof && (decide (s.current = 'e') || decide (s.current = 'E'))) = true := by
        simpa [he2] using hc
      rw [if_pos hc] at h2
      rw [if_pos hc2]
      cases hn : next s with
      | ok u s1 =>
        rw [hn] at h2
        dsimp only at h2 ⊢
        unfold readExponentDigitsChecked at h2
        have h3 := (Stream.currentChecked_bind h2).2
        dsimp only at h3
        generalize (if s1.current = '+' ∨ s1.current = '-' then next s1 else Res.ok () s1) = a
          at h3 ⊢
        cases a with
        | ok u2 s2 =>
          dsimp only at h3 ⊢
          have h4 := (Stream.currentChecked_bind h3).2
          by_cases hd : (!isdigit_dec s2.current) = true
          · rw [if_pos hd] at h4 ⊢
            exact invalidCharacterChecked_sound h4
          · rw [if_neg hd] at h4 ⊢
            cases hq : readSequenceChecked isdigit_dec s2 with
            | none => rw [hq] at h4; simp at h4
            | some t =>
              rw [hq] at h4
              rw [readSequenceChecked_sound hq]
              simpa using h4
        | throw msg s2 => simpa using h3
        | diverge => simpa using h3
      | throw msg s1 => rw [hn] at h2; simpa using h2
      | diverge => rw [hn] at h2; simpa using h2
    · have hc2 : ¬ (!s.eof && (decide (s.current = 'e') || decide (s.current = 'E'))) = true := by
        simpa [he2] using hc
      rw [if_neg hc] at h2
      rw [if_neg hc2]
      simpa using h2

theorem readFloatLiteralFractionChecked_sound {cb : LexerCallback} {s : Stream} {start : Nat}
    {r : Res Bool} (h : readFloatLiteralFractionChecked cb s start = some r) :
    readFloatLiteralFraction cb s start = r := by
  unfold readFloatLiteralFractionChecked at h
  unfold readFloatLiteralFraction
  cases hq : readSequenceChecked isdigit_dec s with
  | none => rw [hq] at h; simp at h
  | some t =>
    rw [hq] at h
    rw [readSequenceChecked_sound hq]
    exact readFloatLiteralExponentChecked_sound h

theorem readNumberLiteralChecked_sound {cb : LexerCallback} {s : Stream} {start : Nat}
    {r : Res Bool} (h : readNumberLiteralChecked cb s start = some r) :
    readNumberLiteral cb s start = r := by
  unfold readNumberLiteralChecked at h
  unfold readNumberLiteral
  cases hq : readSequenceChecked isdigit_dec s with
  | none => rw [hq] at h; simp at h
  | some t =>
    rw [hq] at h
    rw [readSequenceChecked_sound hq]
    dsimp only [Option.bind] at h ⊢
    by_cases he : t.eof = true
    · simpa [he] using h
    · have he2 : t.eof = false := by simpa using he
      rw [if_neg he] at h
      have h2 := (Stream.currentChecked_bind h).2
      by_cases hc : t.current = '.'
      · rw [if_pos hc] at h2
        rw [if_pos (by simpa [he2] using hc)]
        exact readFloatLiteralFractionChecked_sound h2
      · rw [if_neg hc] at h2
        rw [if_neg (by simpa [he2] using hc)]
        simpa using h2

theorem readNumberLiteralPrefixChecked_sound {cb : LexerCallback} {s : Stream} {start : Nat}
    {r : Res Bool} (h : readNumberLiteralPrefixChecked cb s start = some r) :
    readNumberLiteralPrefix cb s start = r := by
  unfold readNumberLiteralPrefixChecked at h
  unfold readNumberLiteralPrefix
  have h2 := (Stream.currentChecked_bind h).2
  by_cases hc : s.current = 'x' ∨ s.current = 'X'
  · rw [if_pos hc] at h2 ⊢
    dsimp only at h2 ⊢
    cases hq : readSequenceChecked isdigit_hex s.get with
    | none => rw [hq] at h2; simp at h2
    | some t =>
      rw [hq] at h2
      rw [readSequenceChecked_sound hq]
      dsimp only [Option.bind] at h2
      by_cases hd : (t.ptr : Int) - (s.ptr : Int) ≤ 1
      · rw [if_pos hd] at h2 ⊢
        exact invalidCharacterChecked_sound h2
      · rw [if_neg hd] at h2 ⊢
        simpa using h2
  · rw [if_neg hc] at h2 ⊢
    exact readNumberLiteralChecked_sound h2

theorem getTwoCharacterOpChecked_sound {s : Stream} {op1 op2 : OPERATOR_TOKEN} {c2 : Char}
    {r : OPERATOR_TOKEN × Stream} (h : getTwoCharacterOpChecked s op1 c2 op2 = some r) :
    getTwoCharacterOp s op1 c2 op2 = r := by
  unfold getTwoCharacterOpChecked at h
  unfold getTwoCharacterOp
  by_cases he : s.eof = true
  · simpa [he] using h
  · have he2 : s.eof = false := by simpa using he
    rw [if_neg he] at h
    have h2 := (Stream.currentChecked_bind h).2
    by_cases hc : s.current = c2
    · rw [if_pos hc] at h2
      rw [if_pos (by simpa [he2] using hc)]
      simpa using h2
    · rw [if_neg hc] at h2
      rw [if_neg (by simpa [he2] using hc)]
      simpa using h2

theorem getTwoCharacterOp3Checked_sound {s : Stream} {op1 op2 op3 : OPERATOR_TOKEN}
    {c2 c3 : Char} {r : OPERATOR_TOKEN × Stream}
    (h : getTwoCharacterOp3Checked s op1 c2 op2 c3 op3 = some r) :
    getTwoCharacterOp3 s op1 c2 op2 c3 op3 = r := by
  unfold getTwoCharacterOp3Checked at h
  unfold getTwoCharacterOp3
  by_cases he : s.eof = true
  · simpa [he] using h
  · have he2 : s.eof = false := by simpa using he
    rw [if_neg he] at h
    have h2 := (Stream.currentChecked_bind h).2
    rw [if_pos (by simpa using he2)]
    by_cases hc : s.current = c2
    · rw [if_pos hc] at h2 ⊢
      simpa using h2
    · rw [if_neg hc] at h2 ⊢
      by_cases hc3 : s.current = c3
      · rw [if_pos hc3] at h2 ⊢
        simpa using h2
      · rw [if_neg hc3] at h2 ⊢
        simpa using h2

theorem map_ofPair_sound {o : Option (OPERATOR_TOKEN × Stream)} {p : OPERATOR_TOKEN × Stream}
    {r : Res OPERATOR_TOKEN} (ho : ∀ q, o = some q → p = q) (h : o.map Res.ofPair = some r) :
    Res.ofPair p = r := by
  cases o with
  | none => simp at h
  | some q =>
    rw [ho q rfl]
    simpa using h

theorem ite_sound {α : Type} {c : Prop} [Decidable c] {a b : Option α} {x y r : α}
    (ha : a = some r → x = r) (hb : b = some r → y = r) :
    (if c then a else b) = some r → (if c then x else y) = r := by
  intro h
  by_cases hc : c
  · rw [if_pos hc] at h ⊢; exact ha h
  · rw [if_neg hc] at h ⊢; exact hb h

theorem getOperatorCaseChecked_sound {c : Char} {s1 : Stream} {r : Res OPERATOR_TOKEN} :
    getOperatorCaseChecked c s1 = some r → getOperatorCase c s1 = r := by
  unfold getOperatorCaseChecked getOperatorCase
  repeat' first
    | apply ite_sound
    | exact fun h => Option.some.inj h
    | exact fun h => map_ofPair_sound (fun _ hq => getTwoCharacterOpChecked_sound hq) h
    | exact fun h => map_ofPair_sound (fun _ hq => getTwoCharacterOp3Checked_sound hq) h
    | exact fun h => invalidCharacterChecked_sound h

theorem getOperatorChecked_sound {s : Stream} {r : Res OPERATOR_TOKEN}
    (h : getOperatorChecked s = some r) : getOperator s = r :=
  getOperatorCaseChecked_sound (Stream.currentChecked_bind h).2

theorem map_sound {α β : Type} {o : Option α} {a : α} {f : α → β} {r : β}
    (ho : ∀ q, o = some q → a = q) (h : o.map f = some r) : f a = r := by
  cases o with
  | none => simp at h
  | some q =>
    rw [ho q rfl]
    simpa using h

theorem guarded_sound {α : Type} {s1 : Stream} {p : Char → Bool} {a : Option α} {x y r : α}
    (ha : a = some r → x = r) :
    (if s1.eof = true then some y
      else s1.currentChecked.bind fun c1 => if p c1 = true then a else some y) = some r →
    (if (!s1.eof && p s1.current) = true then x else y) = r := by
  intro h
  by_cases he : s1.eof = true
  · rw [if_pos he] at h
    rw [if_neg (by simp [he])]
    exact Option.some.inj h
  · have he2 : s1.eof = false := by simpa using he
    rw [if_neg he] at h
    have h2 := (Stream.currentChecked_bind h).2
    by_cases hp : p s1.current = true
    · rw [if_pos hp] at h2
      rw [if_pos (by simp [he2, hp])]
      exact ha h2
    · rw [if_neg hp] at h2
      rw [if_neg (by simp [he2, hp])]
      exact Option.some.inj h2

theorem consumeStepChecked_sound {cb : LexerCallback} {s : Stream} {r : Step}
    (h : consumeStepChecked cb s = some r) : consumeStep cb s = r := by
  unfold consumeStepChecked at h
  have h2 := (Stream.currentChecked_bind h).2
  clear h
  revert h2
  unfold consumeStep
  dsimp only
  refine ite_sound ?_ (ite_sound ?_ (ite_sound ?_ (ite_sound ?_ (ite_sound ?_ (ite_sound ?_
    (ite_sound ?_ (ite_sound ?_ (ite_sound ?_ ?_))))))))
  · intro h
    by_cases he : s.get.eof = true
    · rw [if_pos he] at h
      rw [if_neg (by simp [he]), if_neg (by simp [he])]
      exact Option.some.inj h
    · have he2 : s.get.eof = false := by simpa using he
      rw [if_neg he] at h
      have h2 := (Stream.currentChecked_bind h).2
      by_cases h1 : s.get.current = '/'
      · rw [if_pos h1] at h2
        rw [if_pos (by simp [he2, h1])]
        exact map_sound (a := readLineComment s.get)
          (f := fun s2 => deliver cb s2 (Call.consumeComment ⟨s.ptr, s2.ptr⟩))
          (fun _ hq => readSequenceChecked_sound hq) h2
      · rw [if_neg h1] at h2
        rw [if_neg (by simp [he2, h1])]
        by_cases h3 : s.get.current = '*'
        · rw [if_pos h3] at h2
          rw [if_pos (by simp [he2, h3])]
          have := map_sound (fun _ hq => readBlockCommentChecked_sound hq) h2
          rw [← this]
          cases readBlockComment s.get <;> rfl
        · rw [if_neg h3] at h2
          rw [if_neg (by simp [he2, h3])]
          exact Option.some.inj h2
  · exact guarded_sound (fun h => map_sound (fun _ hq => readFloatLiteralFractionChecked_sound hq) h)
  · exact guarded_sound (fun h => map_sound (a := readIdentifier s.get)
      (f := fun s2 => deliver cb s2 (Call.consumeIdentifier ⟨s.ptr, s2.ptr⟩))
      (fun _ hq => readSequenceChecked_sound hq) h)
  · exact fun h => map_sound (fun _ hq => readNumberLiteralPrefixChecked_sound hq) h
  · intro h
    have := map_sound (fun _ hq => readStringLiteralChecked_sound hq) h
    rw [← this]
    cases readStringLiteral s.get <;> rfl
  · exact fun h => Option.some.inj h
  · exact fun h => Option.some.inj h
  · exact fun h => map_sound (fun _ hq => readNumberLiteralChecked_sound hq) h
  · exact fun h => map_sound (a := readIdentifier s)
      (f := fun s2 => deliver cb s2 (Call.consumeIdentifier ⟨s.ptr, s2.ptr⟩))
      (fun _ hq => readSequenceChecked_sound hq) h
  · intro h
    have := map_sound (a := getOperator s) (fun _ hq => getOperatorChecked_sound hq) h
    rw [← this]

theorem consumeLoopChecked_sound (cb : LexerCallback) :
    ∀ (n : Nat) (s : Stream) (e : LoopExit), consumeLoopChecked cb n s = some e →
      consumeLoop cb n s = e
  | 0, s, e, h => by
    unfold consumeLoopChecked at h
    unfold consumeLoop
    exact Option.some.inj h
  | n + 1, s, e, h => by
    unfold consumeLoopChecked at h
    unfold consumeLoop
    by_cases he : s.eof = true
    · rw [if_pos he] at h ⊢
      exact Option.some.inj h
    · rw [if_neg he] at h ⊢
      cases hq : consumeStepChecked cb s with
      | none => rw [hq] at h; simp at h
      | some st =>
        rw [hq] at h
        rw [consumeStepChecked_sound hq]
        cases st with
        | proceed s1 => exact consumeLoopChecked_sound cb n s1 e h
        | stop s1 => exact Option.some.inj h
        | raise msg s1 => exact Option.some.inj h
        | diverge => exact Option.some.inj h

/-- The scanner with checked reads agrees with the scanner: when no read at the
end boundary happens, it returns the outcome of `consume`. -/
theorem consumeChecked_sound {cb : LexerCallback} {s : Stream} {r : Res Unit}
    (h : consumeChecked cb s = some r) : consume cb s = r := by
  unfold consumeChecked at h
  unfold consume consumeWhile
  cases hq : consumeLoopChecked cb (s.buf.length - s.ptr) s with
  | none => rw [hq] at h; simp at h
  | some e =>
    rw [hq] at h
    rw [consumeLoopChecked_sound cb _ _ _ hq]
    exact Option.some.inj h

/-! ## Reads in bounds

Where the scanner with checked reads returns on number literals. -/

theorem Stream.currentChecked_of_lt {s : Stream} (h : s.ptr < s.buf.length) :
    s.currentChecked = some s.current := by
  unfold Stream.currentChecked
  rw [(s.eof_eq_false_iff).2 h]
  rfl

theorem readSequenceLoopChecked_complete (f : Char → Bool) :
    ∀ (n : Nat) (s : Stream), readSequenceLoopChecked f n s = some (readSequenceLoop f n s)
  | 0, s => rfl
  | n + 1, s => by
    unfold readSequenceLoopChecked readSequenceLoop
    by_cases he : s.eof = true
    · simp [he]
    · have hlt := (s.eof_eq_false_iff).1 (by simpa using he)
      rw [if_neg he, Stream.currentChecked_of_lt hlt]
      dsimp only
      by_cases hf : f s.current = true
      · rw [if_pos hf, if_pos (by simp [(s.eof_eq_false_iff).2 hlt, hf])]
        exact readSequenceLoopChecked_complete f n s.get
      · rw [if_neg hf, if_neg (by simp [hf])]

theorem readSequenceChecked_complete (f : Char → Bool) (s : Stream) :
    readSequenceChecked f s = some (readSequence f s) :=
  readSequenceLoopChecked_complete f _ s

theorem invalidCharacterChecked_complete {α : Type} {s : Stream} (h : s.ptr < s.buf.length) :
    invalidCharacterChecked s = some (invalidCharacter s : Res α) := by
  unfold invalidCharacterChecked
  rw [Stream.currentChecked_of_lt h]
  rfl

theorem readFloatLiteralExponentChecked_complete (cb : LexerCallback) (s : Stream)
    (start : Nat) :
    readFloatLiteralExponentChecked cb s start = some (readFloatLiteralExponent cb s start) := by
  unfold readFloatLiteralExponentChecked readFloatLiteralExponent
  dsimp only
  by_cases he : s.eof = true
  · simp [he]
  · have hlt := (s.eof_eq_false_iff).1 (by simpa using he)
    have he2 : s.eof = false := by simpa using he
    rw [if_neg he, Stream.currentChecked_of_lt hlt]
    dsimp only [Option.bind]
    by_cases hc : s.current = 'e' ∨ s.current = 'E'
    · rw [if_pos hc, if_pos (by simpa [he2] using hc)]
      rcases next_cases s with ⟨hn, hlt1⟩ | ⟨hn, _⟩
      · rw [hn]
        dsimp only
        unfold readExponentDigitsChecked
        have hlt1g : s.get.ptr < s.get.buf.length := hlt1
        rw [Stream.currentChecked_of_lt hlt1g]
        dsimp only [Option.bind]
        by_cases hs : s.get.current = '+' ∨ s.get.current = '-'
        · rw [if_pos hs]
          rcases next_cases s.get with ⟨hn2, hlt2⟩ | ⟨hn2, _⟩
          · rw [hn2]
            dsimp only
            have hlt2g : s.get.get.ptr < s.get.get.buf.length := hlt2
            rw [Stream.currentChecked_of_lt hlt2g]
            dsimp only [Option.bind]
            by_cases hd : (!isdigit_dec s.get.get.current) = true
            · rw [if_pos hd, if_pos hd]
              exact invalidCharacterChecked_complete hlt2g
            · rw [if_neg hd, if_neg hd, readSequenceChecked_complete]
              rfl
          · rw [hn2]
        · rw [if_neg hs]
          dsimp only
          rw [Stream.currentChecked_of_lt hlt1g]
          dsimp only [Option.bind]
          by_cases hd : (!isdigit_dec s.get.current) = true
          · rw [if_pos hd, if_pos hd]
            exact invalidCharacterChecked_complete hlt1g
          · rw [if_neg hd, if_neg hd, readSequenceChecked_complete]
            rfl
      · rw [hn]
    · rw [if_neg hc, if_neg (by simpa [he2] using hc)]

theorem readFloatLiteralFractionChecked_complete (cb : LexerCallback) (s : Stream)
    (start : Nat) :
    readFloatLiteralFractionChecked cb s start = some (readFloatLiteralFraction cb s start) := by
  unfold readFloatLiteralFractionChecked readFloatLiteralFraction
  rw [readSequenceChecked_complete]
  exact readFloatLiteralExponentChecked_complete cb _ start

theorem readNumberLiteralChecked_complete (cb : LexerCallback) (s : Stream) (start : Nat) :
    readNumberLiteralChecked cb s start = some (readNumberLiteral cb s start) := by
  unfold readNumberLiteralChecked readNumberLiteral
  rw [readSequenceChecked_complete]
  dsimp only [Option.bind]
  by_cases he : (readSequence isdigit_dec s).eof = true
  · simp [he]
  · have hlt := ((readSequence isdigit_dec s).eof_eq_false_iff).1 (by simpa using he)
    have he2 : (readSequence isdigit_dec s).eof = false := by simpa using he
    rw [if_neg he, Stream.currentChecked_of_lt hlt]
    dsimp only [Option.bind]
    by_cases hc : (readSequence isdigit_dec s).current = '.'
    · rw [if_pos hc, if_pos (by simpa [he2] using hc)]
      exact readFloatLiteralFractionChecked_complete cb _ start
    · rw [if_neg hc, if_neg (by simpa [he2] using hc)]

theorem readNumberLiteralPrefixChecked_complete (cb : LexerCallback) (s : Stream) (start : Nat)
    (hlt : s.ptr < s.buf.length) (hx : ¬ (s.current = 'x' ∨ s.current = 'X')) :
    readNumberLiteralPrefixChecked cb s start = some (readNumberLiteralPrefix cb s start) := by
  unfold readNumberLiteralPrefixChecked readNumberLiteralPrefix
  rw [Stream.currentChecked_of_lt hlt]
  dsimp only [Option.bind]
  rw [if_neg hx, if_neg hx]
  exact readNumberLiteralChecked_complete cb s start

/-- A round of the loop that starts on a decimal digit reads no character at the
end boundary, unless the digit is a `0` that ends the buffer or is followed by
`x` or `X`. -/
theorem consumeStepChecked_digit (cb : LexerCallback) (s : Stream) (hlt : s.ptr < s.buf.length)
    (hd : isdigit_dec s.current = true)
    (h0 : s.current = '0' →
      s.ptr + 1 < s.buf.length ∧ ¬ (s.get.current = 'x' ∨ s.get.current = 'X')) :
    consumeStepChecked cb s = some (consumeStep cb s) := by
  have hdc := isdigit_dec_cases hd
  by_cases hz : s.current = '0'
  · rw [consumeStep_zero cb s hz]
    unfold consumeStepChecked
    rw [Stream.currentChecked_of_lt hlt]
    dsimp only [Option.bind]
    rw [if_neg hdc.1, if_neg hdc.2.1, if_neg hdc.2.2.1, if_pos hz,
      readNumberLiteralPrefixChecked_complete cb s.get s.ptr (h0 hz).1 (h0 hz).2]
    rfl
  · unfold consumeStepChecked consumeStep
    rw [Stream.currentChecked_of_lt hlt]
    dsimp only [Option.bind]
    rw [if_neg hdc.1, if_neg hdc.2.1, if_neg hdc.2.2.1, if_neg hz, if_neg hdc.2.2.2.1,
      if_neg hdc.2.2.2.2.1, if_neg hdc.2.2.2.2.2.1, if_pos hd,
      if_neg hdc.1, if_neg hdc.2.1, if_neg hdc.2.2.1, if_neg hz, if_neg hdc.2.2.2.1,
      if_neg hdc.2.2.2.2.1, if_neg hdc.2.2.2.2.2.1, if_pos hd,
      readNumberLiteralChecked_complete]
    rfl

/-- A round of the loop that starts on a `.` reads no character at the end
boundary. -/
theorem consumeStepChecked_dot (cb : LexerCallback) (s : Stream) (hlt : s.ptr < s.buf.length)
    (hc : s.current = '.') : consumeStepChecked cb s = some (consumeStep cb s) := by
  unfold consumeStepChecked consumeStep
  rw [Stream.currentChecked_of_lt hlt]
  dsimp only [Option.bind]
  have h1 : s.current ≠ '/' := by rw [hc]; decide
  rw [if_neg h1, if_pos hc, if_neg h1, if_pos hc]
  by_cases he : s.get.eof = true
  · rw [if_pos he, if_neg (by simp [he])]
  · have hlt1 := (s.get.eof_eq_false_iff).1 (by simpa using he)
    have he2 : s.get.eof = false := by simpa using he
    rw [if_neg he, Stream.currentChecked_of_lt hlt1]
    dsimp only [Option.bind]
    by_cases hd : isdigit_dec s.get.current = true
    · rw [if_pos hd, if_pos (by simp [he2, hd]), readFloatLiteralFractionChecked_complete]
      rfl
    · rw [if_neg hd, if_neg (by simp [he2, hd])]

theorem consumeLoopChecked_eof (cb : LexerCallback) (n : Nat) {s : Stream} (h : s.eof = true) :
    consumeLoopChecked cb n s = some (LoopExit.exhausted s) := by
  cases n <;> simp [consumeLoopChecked, h]

/-- A scan whose first round reads no character at the end boundary and delivers
a token that ends at the end of the input, with the callback answering `true`,
reads no character at the end boundary at all: it makes that invocation,
`consumeEOL` and `consumeEOF`, and returns. -/
theorem consumeChecked_single_token (cb : LexerCallback) (s t : Stream) (c : Call)
    (hlt : s.ptr < s.buf.length) (hstep : consumeStepChecked cb s = some (deliver cb t c))
    (hend : t.rest = []) (hans : cb t.history c = true) :
    consumeChecked cb s =
      some (Res.ok ()
        (invoke cb (invoke cb (invoke cb t c).2 Call.consumeEOL).2 Call.consumeEOF).2) := by
  unfold consumeChecked
  obtain ⟨n, hn⟩ : ∃ n, s.buf.length - s.ptr = n + 1 := ⟨s.buf.length - s.ptr - 1, by omega⟩
  rw [hn]
  unfold consumeLoopChecked
  rw [if_neg (by simp [(s.eof_eq_false_iff).2 hlt]), hstep, deliver_of_true hans]
  dsimp only
  rw [consumeLoopChecked_eof cb n (Stream.rest_nil (by rw [invoke_rest]; exact hend)).1]
  rfl

/-! ## Decimal literals, read in bounds -/

/-- C11, the claim as stated fails: the buffer `1e5` (a digit run and an
exponent, no `.`) is delivered as the integer literal `1` followed by the
identifier `e5`, not as one float literal. -/
theorem scan_exponent_without_dot :
    (scan alwaysContinue "1e5").history =
        [Obs.call (Call.consumeIntegerLiteral ⟨0, 1⟩), Obs.call (Call.consumeIdentifier ⟨1, 3⟩),
          Obs.call Call.consumeEOL, Obs.call Call.consumeEOF] ∧
      (scan alwaysContinue "1e5").history ≠
        [Obs.call (Call.consumeFloatLiteral ⟨0, 3⟩), Obs.call Call.consumeEOL,
          Obs.call Call.consumeEOF] := by
  constructor <;> decide

/-- C11, amended. Let `ds` and `fs` be runs of decimal digits and `ex` be empty
or an exponent. With the always-continue callback and reading no character at
the end boundary: a buffer that is a non-empty digit run `ds` other than the
single digit `0` gives exactly `consumeIntegerLiteral` over the whole buffer,
`consumeEOL`, `consumeEOF`; a buffer that is a non-empty `ds`, a `.`, `fs`
(possibly empty) and `ex` gives exactly `consumeFloatLiteral` over the whole
buffer, `consumeEOL`, `consumeEOF`; and so does a buffer that is a `.`, a
non-empty `fs` and `ex`. Each scan is stated twice: for `consume`, and for the
scanner with checked reads, which returns only when no `*stream.current()` is
evaluated at the end boundary. -/
theorem consume_decimal_literal (name : String) (ds fs ex : List Char)
    (hds : ∀ c ∈ ds, isdigit_dec c = true) (hfs : ∀ c ∈ fs, isdigit_dec c = true)
    (hex : ex = [] ∨ IsExponent ex) :
    (ds ≠ [] → ds ≠ ['0'] →
        ∃ s, consume alwaysContinue (Stream.new ds name) = Res.ok () s ∧
          consumeChecked alwaysContinue (Stream.new ds name) = some (Res.ok () s) ∧
          s.history = [Obs.call (Call.consumeIntegerLiteral ⟨0, ds.length⟩),
            Obs.call Call.consumeEOL, Obs.call Call.consumeEOF]) ∧
      (ds ≠ [] → ∃ s,
        consume alwaysContinue (Stream.new (ds ++ '.' :: (fs ++ ex)) name) = Res.ok () s ∧
        consumeChecked alwaysContinue (Stream.new (ds ++ '.' :: (fs ++ ex)) name) =
          some (Res.ok () s) ∧
        s.history = [Obs.call (Call.consumeFloatLiteral ⟨0, (ds ++ '.' :: (fs ++ ex)).length⟩),
          Obs.call Call.consumeEOL, Obs.call Call.consumeEOF]) ∧
      (fs ≠ [] → ∃ s,
        consume alwaysContinue (Stream.new ('.' :: (fs ++ ex)) name) = Res.ok () s ∧
        consumeChecked alwaysContinue (Stream.new ('.' :: (fs ++ ex)) name) =
          some (Res.ok () s) ∧
        s.history = [Obs.call (Call.consumeFloatLiteral ⟨0, ('.' :: (fs ++ ex)).length⟩),
          Obs.call Call.consumeEOL, Obs.call Call.consumeEOF]) := by
  have start : ∀ (buf : List Char) (d : Char) (r : List Char), buf = d :: r →
      isdigit_dec d = true → (∀ c r1, r = c :: r1 → c ≠ 'x' ∧ c ≠ 'X') →
      (d = '0' → r ≠ []) →
      (Stream.new buf name).ptr < (Stream.new buf name).buf.length ∧
        consumeStepChecked alwaysContinue (Stream.new buf name) =
          some (Step.ofRes (readNumberLiteral alwaysContinue (Stream.new buf name) 0)) := by
    intro buf d r hb hd hr hz
    have h0 := Stream.rest_cons (s := Stream.new buf name) hb
    have hx : ¬ ((Stream.new buf name).get.current = 'x' ∨
        (Stream.new buf name).get.current = 'X') := by
      rw [Stream.current_rest, h0.2.2.2]
      cases r with
      | nil => decide
      | cons c r1 =>
        have := hr c r1 rfl
        simpa using this
    refine ⟨h0.1, ?_⟩
    rw [consumeStepChecked_digit _ _ h0.1 (by rw [h0.2.2.1]; exact hd) ?_,
      consumeStep_digit _ _ h0.1 (by rw [h0.2.2.1]; exact hd) hx]
    · rfl
    · intro hc
      rw [h0.2.2.1] at hc
      refine ⟨?_, hx⟩
      cases r with
      | nil => exact absurd rfl (hz hc)
      | cons c r1 => exact (Stream.rest_cons h0.2.2.2).1
  refine ⟨?_, ?_, ?_⟩
  · intro hne hnz
    obtain ⟨d, ds1, rfl⟩ := List.exists_cons_of_ne_nil hne
    have hd : isdigit_dec d = true := hds d (by simp)
    obtain ⟨hlt, hstep⟩ := start (d :: ds1) d ds1 rfl hd (by
      intro c r1 hc
      have := isdigit_dec_cases (hds c (by simp [hc]))
      exact ⟨this.2.2.2.2.2.2.1, this.2.2.2.2.2.2.2⟩) (by
      rintro rfl rfl
      exact hnz rfl)
    obtain ⟨t, ht, hres⟩ := readNumberLiteral_integer alwaysContinue
      (Stream.new (d :: ds1) name) 0 (d :: ds1) rfl hds
    rw [hres, Step.ofRes_invoke] at hstep
    have hch := consumeChecked_single_token _ _ t _ hlt hstep ht.rest rfl
    refine ⟨_, consumeChecked_sound hch, hch, ?_⟩
    rw [history_three _ _ _ ht.history, ht.ptr]
    simp [Stream.new]
  · intro hne
    obtain ⟨d, ds1, rfl⟩ := List.exists_cons_of_ne_nil hne
    have hd : isdigit_dec d = true := hds d (by simp)
    obtain ⟨hlt, hstep⟩ := start (d :: ds1 ++ '.' :: (fs ++ ex)) d (ds1 ++ '.' :: (fs ++ ex))
      rfl hd (by
        intro c r1 hc
        cases ds1 with
        | nil =>
          simp only [List.nil_append, List.cons.injEq] at hc
          rw [← hc.1]
          decide
        | cons c1 ds2 =>
          simp only [List.cons_append, List.cons.injEq] at hc
          have := isdigit_dec_cases (hds c1 (by simp))
          rw [← hc.1]
          exact ⟨this.2.2.2.2.2.2.1, this.2.2.2.2.2.2.2⟩) (by simp)
    obtain ⟨t, ht, hres⟩ := readNumberLiteral_float alwaysContinue
      (Stream.new (d :: ds1 ++ '.' :: (fs ++ ex)) name) 0 (d :: ds1) fs ex rfl hds hfs hex
    rw [hres, Step.ofRes_invoke] at hstep
    have hch := consumeChecked_single_token _ _ t _ hlt hstep ht.rest rfl
    refine ⟨_, consumeChecked_sound hch, hch, ?_⟩
    rw [history_three _ _ _ ht.history, ht.ptr]
    simp [Stream.new]
    omega
  · intro hne
    obtain ⟨d, fs1, rfl⟩ := List.exists_cons_of_ne_nil hne
    have hd : isdigit_dec d = true := hfs d (by simp)
    have h0 := Stream.rest_cons (s := Stream.new ('.' :: (d :: fs1 ++ ex)) name) rfl
    have h1 := Stream.rest_cons h0.2.2.2
    have hstep := consumeStep_dot alwaysContinue _ h0.2.2.1 (by rw [h1.2.1, h1.2.2.1, hd]; rfl)
    have hstepc := consumeStepChecked_dot alwaysContinue _ h0.1 h0.2.2.1
    obtain ⟨t, ht, hres⟩ := readFloatLiteralFraction_ok alwaysContinue
      (Stream.new ('.' :: (d :: fs1 ++ ex)) name).get 0 (d :: fs1) ex h0.2.2.2 hfs hex
    have hptr0 : (Stream.new ('.' :: (d :: fs1 ++ ex)) name).ptr = 0 := rfl
    rw [hptr0, hres, Step.ofRes_invoke] at hstep
    rw [hstep] at hstepc
    have hch := consumeChecked_single_token _ _ t _ h0.1 hstepc ht.rest rfl
    refine ⟨_, consumeChecked_sound hch, hch, ?_⟩
    rw [history_three _ _ _ ht.history, ht.ptr]
    simp [Stream.new]
    omega

/-- C11 amended, witnessed on `42`, one integer literal, and on `1.` and `.5e10`,
each one float literal over the whole buffer, read without touching the end
boundary. -/
theorem consume_decimal_literal_witness :
    (∃ s, consume alwaysContinue (Stream.new ['4', '2'] "cfg") = Res.ok () s ∧
        consumeChecked alwaysContinue (Stream.new ['4', '2'] "cfg") = some (Res.ok () s) ∧
        s.history = [Obs.call (Call.consumeIntegerLiteral ⟨0, ['4', '2'].length⟩),
          Obs.call Call.consumeEOL, Obs.call Call.consumeEOF]) ∧
      (∃ s, consume alwaysContinue (Stream.new (['1'] ++ '.' :: ([] ++ [])) "cfg") =
          Res.ok () s ∧
        consumeChecked alwaysContinue (Stream.new (['1'] ++ '.' :: ([] ++ [])) "cfg") =
          some (Res.ok () s) ∧
        s.history =
          [Obs.call (Call.consumeFloatLiteral ⟨0, (['1'] ++ '.' :: ([] ++ [])).length⟩),
            Obs.call Call.consumeEOL, Obs.call Call.consumeEOF]) ∧
      (∃ s, consume alwaysContinue (Stream.new ('.' :: (['5'] ++ ['e', '1', '0'])) "cfg") =
          Res.ok () s ∧
        consumeChecked alwaysContinue (Stream.new ('.' :: (['5'] ++ ['e', '1', '0'])) "cfg") =
          some (Res.ok () s) ∧
        s.history =
          [Obs.call (Call.consumeFloatLiteral ⟨0, ('.' :: (['5'] ++ ['e', '1', '0'])).length⟩),
            Obs.call Call.consumeEOL, Obs.call Call.consumeEOF]) :=
  ⟨(consume_decimal_literal "cfg" ['4', '2'] [] [] (by decide) (by decide) (Or.inl rfl)).1
      (by decide) (by decide),
    (consume_decimal_literal "cfg" ['1'] [] [] (by decide) (by decide) (Or.inl rfl)).2.1
      (by decide),
    (consume_decimal_literal "cfg" [] ['5'] ['e', '1', '0'] (by decide) (by decide)
      (Or.inr ⟨'e', [], ['1', '0'], rfl, Or.inl rfl, Or.inl rfl, by decide, by decide⟩)).2.2
      (by decide)⟩

/-! ## The three reads at the end boundary -/

/-- C16. Against the claim that `consume` never reads `*stream.current()` at
the end boundary: on the one-character buffers made of a zero digit, of a double
quote and of a number sign the scan with checked reads has no outcome, the read at the end boundary being the first
statement of `readNumberLiteralPrefix`, the first condition of the loop of
`readStringLiteral`, and the read of `invalidCharacter` after `getOperator` has
consumed the last character. -/
theorem scan_reads_at_end_boundary :
    consumeChecked alwaysContinue (Stream.new ['0'] "input") = none ∧
      consumeChecked alwaysContinue (Stream.new [QUOTE] "input") = none ∧
      consumeChecked alwaysContinue (Stream.new ['#'] "input") = none ∧
      (Stream.new ['0'] "input").get.eof = true ∧
      readNumberLiteralPrefixChecked alwaysContinue (Stream.new ['0'] "input").get 0 = none ∧
      readStringLiteralChecked (Stream.new [QUOTE] "input").get = none ∧
      getOperatorChecked (Stream.new ['#'] "input") = none ∧
      consumeChecked alwaysContinue (Stream.new ['0', ' '] "input") =
        some (consume alwaysContinue (Stream.new ['0', ' '] "input")) := by
  refine ⟨?_, ?_, ?_, ?_, ?_, ?_, ?_, ?_⟩ <;> decide

/-! ## Token spans -/

/-- C19, amended. Take a scan that reads no character at the end boundary, so
that the scanner with checked reads returns its outcome `r`, whatever the buffer
and the callback. Then `r` is the outcome of `consume`, the token spans handed
to the callbacks are non-empty,
lie inside the buffer, and each of them starts at or after the end of every span
delivered before it; and when the scan returns (no lexer error), the final
cursor position is inside the buffer and every character of the buffer before
it lies inside a delivered span or is one of `\r`, `\t`, space and newline. -/
theorem consume_token_spans (cb : LexerCallback) (buf : List Char) (name : String)
    (r : Res Unit) (hread : consumeChecked cb (Stream.new buf name) = some r) :
    consume cb (Stream.new buf name) = r ∧
      (∀ t ∈ spans r.history, t.start < t.stop ∧ t.stop ≤ buf.length) ∧
      (spans r.history).Pairwise (fun a b => a.stop ≤ b.start) ∧
      ∀ s, r = Res.ok () s →
        s.ptr ≤ buf.length ∧
          ∀ i, i < s.ptr → coveredBy s.history i ∨ isBlank (buf.getD i NUL) := by
  have hr : consume cb (Stream.new buf name) = r := consumeChecked_sound hread
  refine ⟨hr, ?_⟩
  rw [← hr]
  exact consume_spans_tiled cb buf name

/-- C19 amended, witnessed on `a +b`, which is scanned without a read at the end
boundary: the space at position 1 is the one character outside the spans. -/
theorem consume_token_spans_witness :
    (⟨['a', ' ', '+', 'b'], 4, [0], "cfg",
          [Obs.call (Call.consumeIdentifier ⟨0, 1⟩),
            Obs.call (Call.consumeOperator OPERATOR_TOKEN.PLUS ⟨2, 3⟩),
            Obs.call (Call.consumeIdentifier ⟨3, 4⟩),
            Obs.call Call.consumeEOL, Obs.call Call.consumeEOF]⟩ : Stream).ptr ≤
        ['a', ' ', '+', 'b'].length ∧
      ∀ i, i < (⟨['a', ' ', '+', 'b'], 4, [0], "cfg",
            [Obs.call (Call.consumeIdentifier ⟨0, 1⟩),
              Obs.call (Call.consumeOperator OPERATOR_TOKEN.PLUS ⟨2, 3⟩),
              Obs.call (Call.consumeIdentifier ⟨3, 4⟩),
              Obs.call Call.consumeEOL, Obs.call Call.consumeEOF]⟩ : Stream).ptr →
        coveredBy
            [Obs.call (Call.consumeIdentifier ⟨0, 1⟩),
              Obs.call (Call.consumeOperator OPERATOR_TOKEN.PLUS ⟨2, 3⟩),
              Obs.call (Call.consumeIdentifier ⟨3, 4⟩),
              Obs.call Call.consumeEOL, Obs.call Call.consumeEOF] i ∨
          isBlank (['a', ' ', '+', 'b'].getD i NUL) :=
  (consume_token_spans alwaysContinue ['a', ' ', '+', 'b'] "cfg"
    (Res.ok () ⟨['a', ' ', '+', 'b'], 4, [0], "cfg",
      [Obs.call (Call.consumeIdentifier ⟨0, 1⟩),
        Obs.call (Call.consumeOperator OPERATOR_TOKEN.PLUS ⟨2, 3⟩),
        Obs.call (Call.consumeIdentifier ⟨3, 4⟩),
        Obs.call Call.consumeEOL, Obs.call Call.consumeEOF]⟩)
    (by decide)).2.2.2 _ rfl

/-! ## The memory after the buffer

With the terminator stored after the buffer the scanner over the memory is the
scanner `consume`; with other contents it leaves the buffer. -/

theorem Stream.currentBeyond_NUL (s : Stream) : s.currentBeyond (fun _ => NUL) = s.current := by
  unfold Stream.currentBeyond
  by_cases h : s.ptr < s.buf.length
  · rw [if_pos h]
  · rw [if_neg h]
    exact (Stream.current_of_eof s (by omega)).symm

theorem Stream.getBeyond_NUL (s : Stream) : s.getBeyond (fun _ => NUL) = s.get := by
  unfold Stream.getBeyond Stream.get
  rw [Stream.currentBeyond_NUL]

theorem invalidCharacterBeyond_NUL {α : Type} (s : Stream) :
    (invalidCharacterBeyond (fun _ => NUL) s : Res α) = invalidCharacter s := by
  unfold invalidCharacterBeyond invalidCharacter
  rw [Stream.currentBeyond_NUL]

theorem nextBeyond_NUL (s : Stream) : nextBeyond (fun _ => NUL) s = next s := by
  unfold nextBeyond next
  rw [Stream.getBeyond_NUL]

theorem readSequenceLoopBeyond_NUL (f : Char → Bool) :
    ∀ (n : Nat) (s : Stream), readSequenceLoopBeyond (fun _ => NUL) f n s = readSequenceLoop f n s
  | 0, _ => rfl
  | n + 1, s => by
    unfold readSequenceLoopBeyond readSequenceLoop
    rw [Stream.currentBeyond_NUL, Stream.getBeyond_NUL, readSequenceLoopBeyond_NUL f n]

theorem readSequenceBeyond_NUL (f : Char → Bool) (s : Stream) :
    readSequenceBeyond (fun _ => NUL) f s = readSequence f s :=
  readSequenceLoopBeyond_NUL f _ s

theorem readBlockCommentLoopBeyond_NUL :
    ∀ (n : Nat) (s : Stream) (c0 : Char),
      readBlockCommentLoopBeyond (fun _ => NUL) n s c0 = readBlockCommentLoop n s c0
  | 0, _, _ => rfl
  | n + 1, s, c0 => by
    unfold readBlockCommentLoopBeyond readBlockCommentLoop
    rw [nextBeyond_NUL]
    cases next s with
    | ok u s1 =>
      dsimp only
      rw [Stream.currentBeyond_NUL, readBlockCommentLoopBeyond_NUL n]
    | throw msg s1 => rfl
    | diverge => rfl

theorem readBlockCommentBeyond_NUL (s : Stream) :
    readBlockCommentBeyond (fun _ => NUL) s = readBlockComment s := by
  unfold readBlockCommentBeyond readBlockComment
  rw [nextBeyond_NUL]
  cases next s with
  | ok u s1 =>
    dsimp only
    rw [Stream.currentBeyond_NUL, readBlockCommentLoopBeyond_NUL]
  | throw msg s1 => rfl
  | diverge => rfl

theorem readStringLiteralLoopBeyond_NUL :
    ∀ (n : Nat) (s : Stream) (e : Bool),
      readStringLiteralLoopBeyond (fun _ => NUL) n s e = readStringLiteralLoop n s e
  | 0, _, _ => rfl
  | n + 1, s, e => by
    unfold readStringLiteralLoopBeyond readStringLiteralLoop
    rw [Stream.currentBeyond_NUL, Stream.getBeyond_NUL, nextBeyond_NUL]
    cases next s with
    | ok u s1 =>
      dsimp only
      rw [readStringLiteralLoopBeyond_NUL n, readStringLiteralLoopBeyond_NUL n]
    | throw msg s1 => rfl
    | diverge => rfl

theorem readStringLiteralBeyond_NUL (s : Stream) :
    readStringLiteralBeyond (fun _ => NUL) s = readStringLiteral s :=
  readStringLiteralLoopBeyond_NUL _ s false

theorem readFloatLiteralExponentBeyond_NUL (cb : LexerCallback) (s : Stream) (start : Nat) :
    readFloatLiteralExponentBeyond (fun _ => NUL) cb s start =
      readFloatLiteralExponent cb s start := by
  unfold readFloatLiteralExponentBeyond readFloatLiteralExponent
  simp only [Stream.currentBeyond_NUL, nextBeyond_NUL, invalidCharacterBeyond_NUL,
    readSequenceBeyond_NUL]

theorem readFloatLiteralFractionBeyond_NUL (cb : LexerCallback) (s : Stream) (start : Nat) :
    readFloatLiteralFractionBeyond (fun _ => NUL) cb s start =
      readFloatLiteralFraction cb s start := by
  unfold readFloatLiteralFractionBeyond readFloatLiteralFraction
  rw [readSequenceBeyond_NUL, readFloatLiteralExponentBeyond_NUL]

theorem readNumberLiteralBeyond_NUL (cb : LexerCallback) (s : Stream) (start : Nat) :
    readNumberLiteralBeyond (fun _ => NUL) cb s start = readNumberLiteral cb s start := by
  unfold readNumberLiteralBeyond readNumberLiteral
  simp only [Stream.currentBeyond_NUL, Stream.getBeyond_NUL, readSequenceBeyond_NUL,
    readFloatLiteralFractionBeyond_NUL]

theorem readNumberLiteralPrefixBeyond_NUL (cb : LexerCallback) (s : Stream) (start : Nat) :
    readNumberLiteralPrefixBeyond (fun _ => NUL) cb s start =
      readNumberLiteralPrefix cb s start := by
  unfold readNumberLiteralPrefixBeyond readNumberLiteralPrefix
  simp only [Stream.currentBeyond_NUL, Stream.getBeyond_NUL, readSequenceBeyond_NUL,
    invalidCharacterBeyond_NUL, readNumberLiteralBeyond_NUL]

theorem getTwoCharacterOpBeyond_NUL (s : Stream) (op1 : OPERATOR_TOKEN) (c2 : Char)
    (op2 : OPERATOR_TOKEN) :
    getTwoCharacterOpBeyond (fun _ => NUL) s op1 c2 op2 = getTwoCharacterOp s op1 c2 op2 := by
  unfold getTwoCharacterOpBeyond getTwoCharacterOp
  rw [Stream.currentBeyond_NUL, Stream.getBeyond_NUL]

theorem getTwoCharacterOp3Beyond_NUL (s : Stream) (op1 : OPERATOR_TOKEN) (c2 : Char)
    (op2 : OPERATOR_TOKEN) (c3 : Char) (op3 : OPERATOR_TOKEN) :
    getTwoCharacterOp3Beyond (fun _ => NUL) s op1 c2 op2 c3 op3 =
      getTwoCharacterOp3 s op1 c2 op2 c3 op3 := by
  unfold getTwoCharacterOp3Beyond getTwoCharacterOp3
  rw [Stream.currentBeyond_NUL, Stream.getBeyond_NUL]

theorem getOperatorCaseBeyond_NUL (c : Char) (s1 : Stream) :
    getOperatorCaseBeyond (fun _ => NUL) c s1 = getOperatorCase c s1 := by
  unfold getOperatorCaseBeyond getOperatorCase
  simp only [getTwoCharacterOpBeyond_NUL, getTwoCharacterOp3Beyond_NUL,
    invalidCharacterBeyond_NUL]

theorem getOperatorBeyond_NUL (s : Stream) :
    getOperatorBeyond (fun _ => NUL) s = getOperator s := by
  unfold getOperatorBeyond getOperator
  rw [Stream.currentBeyond_NUL, Stream.getBeyond_NUL, getOperatorCaseBeyond_NUL]

theorem consumeStepBeyond_NUL (cb : LexerCallback) (s : Stream) :
    consumeStepBeyond (fun _ => NUL) cb s = consumeStep cb s := by
  unfold consumeStepBeyond consumeStep readLineCommentBeyond readLineComment
    readIdentifierBeyond readIdentifier
  simp only [Stream.currentBeyond_NUL, Stream.getBeyond_NUL, readSequenceBeyond_NUL,
    readBlockCommentBeyond_NUL, readFloatLiteralFractionBeyond_NUL,
    readNumberLiteralPrefixBeyond_NUL, readStringLiteralBeyond_NUL,
    readNumberLiteralBeyond_NUL, getOperatorBeyond_NUL]

theorem consumeLoopBeyond_NUL (cb : LexerCallback) :
    ∀ (n : Nat) (s : Stream), consumeLoopBeyond (fun _ => NUL) cb n s = consumeLoop cb n s
  | 0, _ => rfl
  | n + 1, s => by
    unfold consumeLoopBeyond consumeLoop
    rw [consumeStepBeyond_NUL]
    cases consumeStep cb s with
    | proceed s1 =>
      dsimp only
      rw [consumeLoopBeyond_NUL cb n]
    | stop s1 => rfl
    | raise msg s1 => rfl
    | diverge => rfl

/-- With the terminator `NUL` stored after the buffer, the scanner over the
memory is the scanner `consume`. -/
theorem consumeBeyond_NUL (cb : LexerCallback) (s : Stream) :
    consumeBeyond (fun _ => NUL) cb s = consume cb s := by
  unfold consumeBeyond consume consumeWhileBeyond consumeWhile
  rw [consumeLoopBeyond_NUL]

/-! ### Scans that stay inside the buffer -/

theorem Stream.currentBeyond_of_lt (m : Nat → Char) {s : Stream} (h : s.ptr < s.buf.length) :
    s.currentBeyond m = s.current := if_pos h

theorem Stream.getBeyond_of_lt (m : Nat → Char) {s : Stream} (h : s.ptr < s.buf.length) :
    s.getBeyond m = s.get := by
  unfold Stream.getBeyond Stream.get
  rw [Stream.currentBeyond_of_lt m h]

theorem nextBeyond_of_lt (m : Nat → Char) {s : Stream} (h : s.ptr < s.buf.length) :
    nextBeyond m s = next s := by
  unfold nextBeyond next
  rw [Stream.getBeyond_of_lt m h]

theorem invalidCharacterBeyond_of_lt (m : Nat → Char) {α : Type} {s : Stream}
    (h : s.ptr < s.buf.length) : (invalidCharacterBeyond m s : Res α) = invalidCharacter s := by
  unfold invalidCharacterBeyond invalidCharacter
  rw [Stream.currentBeyond_of_lt m h]

theorem readSequenceLoopBeyond_eq (m : Nat → Char) (f : Char → Bool) :
    ∀ (n : Nat) (s : Stream), readSequenceLoopBeyond m f n s = readSequenceLoop f n s
  | 0, _ => rfl
  | n + 1, s => by
    unfold readSequenceLoopBeyond readSequenceLoop
    by_cases he : s.eof = true
    · simp [he]
    · have hlt := (s.eof_eq_false_iff).1 (by simpa using he)
      rw [Stream.currentBeyond_of_lt m hlt, Stream.getBeyond_of_lt m hlt,
        readSequenceLoopBeyond_eq m f n]

/-- The template `readSequence` asks `eof()` before every read: it does not
depend on the memory after the buffer. -/
theorem readSequenceBeyond_eq (m : Nat → Char) (f : Char → Bool) (s : Stream) :
    readSequenceBeyond m f s = readSequence f s :=
  readSequenceLoopBeyond_eq m f _ s

theorem readBlockCommentLoopBeyond_of_lt (m : Nat → Char) :
    ∀ (n : Nat) (s : Stream) (c0 : Char), s.ptr < s.buf.length →
      readBlockCommentLoopBeyond m n s c0 = readBlockCommentLoop n s c0
  | 0, _, _, _ => rfl
  | n + 1, s, c0, hlt => by
    unfold readBlockCommentLoopBeyond readBlockCommentLoop
    rw [nextBeyond_of_lt m hlt]
    rcases next_cases s with ⟨hn, hlt1⟩ | ⟨hn, _⟩
    · rw [hn]
      dsimp only
      have hlt1g : s.get.ptr < s.get.buf.length := hlt1
      rw [Stream.currentBeyond_of_lt m hlt1g, readBlockCommentLoopBeyond_of_lt m n _ _ hlt1g]
    · rw [hn]

theorem readBlockCommentBeyond_of_lt (m : Nat → Char) {s : Stream} (hlt : s.ptr < s.buf.length) :
    readBlockCommentBeyond m s = readBlockComment s := by
  unfold readBlockCommentBeyond readBlockComment
  rw [nextBeyond_of_lt m hlt]
  rcases next_cases s with ⟨hn, hlt1⟩ | ⟨hn, _⟩
  · rw [hn]
    dsimp only
    have hlt1g : s.get.ptr < s.get.buf.length := hlt1
    rw [Stream.currentBeyond_of_lt m hlt1g, readBlockCommentLoopBeyond_of_lt m _ _ _ hlt1g]
  · rw [hn]

theorem readStringLiteralLoopBeyond_of_lt (m : Nat → Char) :
    ∀ (n : Nat) (s : Stream) (e : Bool), s.ptr < s.buf.length →
      readStringLiteralLoopBeyond m n s e = readStringLiteralLoop n s e
  | 0, _, _, _ => rfl
  | n + 1, s, e, hlt => by
    unfold readStringLiteralLoopBeyond readStringLiteralLoop
    rw [Stream.currentBeyond_of_lt m hlt, Stream.getBeyond_of_lt m hlt, nextBeyond_of_lt m hlt]
    rcases next_cases s with ⟨hn, hlt1⟩ | ⟨hn, _⟩
    · rw [hn]
      dsimp only
      have hlt1g : s.get.ptr < s.get.buf.length := hlt1
      rw [readStringLiteralLoopBeyond_of_lt m n _ _ hlt1g,
        readStringLiteralLoopBeyond_of_lt m n _ _ hlt1g]
    · rw [hn]

theorem readFloatLiteralExponentBeyond_eq (m : Nat → Char) (cb : LexerCallback) (s : Stream)
    (start : Nat) :
    readFloatLiteralExponentBeyond m cb s start = readFloatLiteralExponent cb s start := by
  unfold readFloatLiteralExponentBeyond readFloatLiteralExponent
  dsimp only
  by_cases he : s.eof = true
  · simp [he]
  · have hlt := (s.eof_eq_false_iff).1 (by simpa using he)
    rw [Stream.currentBeyond_of_lt m hlt, nextBeyond_of_lt m hlt]
    by_cases hc : (!s.eof && (decide (s.current = 'e') || decide (s.current = 'E'))) = true
    · rw [if_pos hc, if_pos hc]
      rcases next_cases s with ⟨hn, hlt1⟩ | ⟨hn, _⟩
      · rw [hn]
        dsimp only
        have hlt1g : s.get.ptr < s.get.buf.length := hlt1
        rw [Stream.currentBeyond_of_lt m hlt1g, nextBeyond_of_lt m hlt1g]
        by_cases hs : s.get.current = '+' ∨ s.get.current = '-'
        · rw [if_pos hs]
          rcases next_cases s.get with ⟨hn2, hlt2⟩ | ⟨hn2, _⟩
          · rw [hn2]
            dsimp only
            have hlt2g : s.get.get.ptr < s.get.get.buf.length := hlt2
            rw [Stream.currentBeyond_of_lt m hlt2g, invalidCharacterBeyond_of_lt m hlt2g,
              readSequenceBeyond_eq]
          · rw [hn2]
        · rw [if_neg hs]
          dsimp only
          rw [Stream.currentBeyond_of_lt m hlt1g, invalidCharacterBeyond_of_lt m hlt1g,
            readSequenceBeyond_eq]
      · rw [hn]
    · rw [if_neg hc, if_neg hc]

theorem readFloatLiteralFractionBeyond_eq (m : Nat → Char) (cb : LexerCallback) (s : Stream)
    (start : Nat) :
    readFloatLiteralFractionBeyond m cb s start = readFloatLiteralFraction cb s start := by
  unfold readFloatLiteralFractionBeyond readFloatLiteralFraction
  rw [readSequenceBeyond_eq, readFloatLiteralExponentBeyond_eq]

/-- The scanner `readNumberLiteral` asks `eof()` before every read: it does not
depend on the memory after the buffer. -/
theorem readNumberLiteralBeyond_eq (m : Nat → Char) (cb : LexerCallback) (s : Stream)
    (start : Nat) : readNumberLiteralBeyond m cb s start = readNumberLiteral cb s start := by
  unfold readNumberLiteralBeyond readNumberLiteral
  rw [readSequenceBeyond_eq]
  dsimp only
  by_cases he : (readSequence isdigit_dec s).eof = true
  · simp [he]
  · have hlt := ((readSequence isdigit_dec s).eof_eq_false_iff).1 (by simpa using he)
    rw [Stream.currentBeyond_of_lt m hlt, Stream.getBeyond_of_lt m hlt,
      readFloatLiteralFractionBeyond_eq]

theorem getTwoCharacterOpBeyond_eq (m : Nat → Char) (s : Stream) (op1 : OPERATOR_TOKEN)
    (c2 : Char) (op2 : OPERATOR_TOKEN) :
    getTwoCharacterOpBeyond m s op1 c2 op2 = getTwoCharacterOp s op1 c2 op2 := by
  unfold getTwoCharacterOpBeyond getTwoCharacterOp
  by_cases he : s.eof = true
  · simp [he]
  · have hlt := (s.eof_eq_false_iff).1 (by simpa using he)
    rw [Stream.currentBeyond_of_lt m hlt, Stream.getBeyond_of_lt m hlt]

theorem getTwoCharacterOp3Beyond_eq (m : Nat → Char) (s : Stream) (op1 : OPERATOR_TOKEN)
    (c2 : Char) (op2 : OPERATOR_TOKEN) (c3 : Char) (op3 : OPERATOR_TOKEN) :
    getTwoCharacterOp3Beyond m s op1 c2 op2 c3 op3 = getTwoCharacterOp3 s op1 c2 op2 c3 op3 := by
  unfold getTwoCharacterOp3Beyond getTwoCharacterOp3
  by_cases he : s.eof = true
  · simp [he]
  · have hlt := (s.eof_eq_false_iff).1 (by simpa using he)
    rw [Stream.currentBeyond_of_lt m hlt, Stream.getBeyond_of_lt m hlt]

theorem ite_transfer {α β : Type} {c : Prop} [Decidable c] {a b : Option α} {x y u v : β}
    {r : α} (ha : a = some r → x = u) (hb : b = some r → y = v) :
    (if c then a else b) = some r → (if c then x else y) = (if c then u else v) := by
  intro h
  by_cases hc : c
  · rw [if_pos hc] at h ⊢
    rw [if_pos hc]
    exact ha h
  · rw [if_neg hc] at h ⊢
    rw [if_neg hc]
    exact hb h

theorem of_map_some {α β : Type} {o : Option α} {f : α → β} {r : β} (h : o.map f = some r) :
    ∃ a, o = some a := by
  cases o with
  | none => simp at h
  | some a => exact ⟨a, rfl⟩

theorem invalidCharacterChecked_lt {α : Type} {s : Stream} {r : Res α}
    (h : invalidCharacterChecked s = some r) : s.ptr < s.buf.length := by
  unfold invalidCharacterChecked at h
  exact (s.eof_eq_false_iff).1 (Stream.currentChecked_bind h).1

theorem readStringLiteralChecked_lt {s : Stream} {r : Res Unit}
    (h : readStringLiteralChecked s = some r) : s.ptr < s.buf.length := by
  unfold readStringLiteralChecked readStringLiteralLoopChecked at h
  cases hc : s.currentChecked with
  | none => rw [hc] at h; simp at h
  | some c => exact (s.eof_eq_false_iff).1 (Stream.currentChecked_some hc).1

theorem readNumberLiteralPrefixBeyond_of_checked (m : Nat → Char) {cb : LexerCallback}
    {s : Stream} {start : Nat} {r : Res Bool}
    (h : readNumberLiteralPrefixChecked cb s start = some r) :
    readNumberLiteralPrefixBeyond m cb s start = readNumberLiteralPrefix cb s start := by
  unfold readNumberLiteralPrefixChecked at h
  obtain ⟨he, h2⟩ := Stream.currentChecked_bind h
  have hlt := (s.eof_eq_false_iff).1 he
  unfold readNumberLiteralPrefixBeyond readNumberLiteralPrefix
  rw [Stream.currentBeyond_of_lt m hlt, Stream.getBeyond_of_lt m hlt, readSequenceBeyond_eq,
    readNumberLiteralBeyond_eq]
  dsimp only
  by_cases hc : s.current = 'x' ∨ s.current = 'X'
  · rw [if_pos hc, readSequenceChecked_complete] at h2
    dsimp only [Option.bind] at h2
    simp only [if_pos hc]
    by_cases hd : ((readSequence isdigit_hex s.get).ptr : Int) - (s.ptr : Int) ≤ 1
    · rw [if_pos hd] at h2
      simp only [if_pos hd]
      exact invalidCharacterBeyond_of_lt m (invalidCharacterChecked_lt h2)
    · simp only [if_neg hd]
  · simp only [if_neg hc]

theorem getOperatorCaseBeyond_of_checked (m : Nat → Char) {c : Char} {s1 : Stream}
    {r : Res OPERATOR_TOKEN} :
    getOperatorCaseChecked c s1 = some r →
      getOperatorCaseBeyond m c s1 = getOperatorCase c s1 := by
  unfold getOperatorCaseChecked getOperatorCaseBeyond getOperatorCase
  simp only [getTwoCharacterOpBeyond_eq, getTwoCharacterOp3Beyond_eq]
  repeat' first
    | apply ite_transfer
    | exact fun _ => rfl
    | exact fun h => invalidCharacterBeyond_of_lt m (invalidCharacterChecked_lt h)

theorem getOperatorBeyond_of_checked (m : Nat → Char) {s : Stream} {r : Res OPERATOR_TOKEN}
    (h : getOperatorChecked s = some r) : getOperatorBeyond m s = getOperator s := by
  unfold getOperatorChecked at h
  obtain ⟨he, h2⟩ := Stream.currentChecked_bind h
  have hlt := (s.eof_eq_false_iff).1 he
  unfold getOperatorBeyond getOperator
  rw [Stream.currentBeyond_of_lt m hlt, Stream.getBeyond_of_lt m hlt]
  exact getOperatorCaseBeyond_of_checked m h2

theorem guard_currentBeyond (m : Nat → Char) (s : Stream) (p : Char → Bool) :
    (!s.eof && p (s.currentBeyond m)) = (!s.eof && p s.current) := by
  by_cases he : s.eof = true
  · simp [he]
  · rw [Stream.currentBeyond_of_lt m ((s.eof_eq_false_iff).1 (by simpa using he))]

theorem consumeStepBeyond_of_checked (m : Nat → Char) {cb : LexerCallback} {s : Stream}
    {st : Step} (h : consumeStepChecked cb s = some st) :
    consumeStepBeyond m cb s = consumeStep cb s := by
  unfold consumeStepChecked at h
  obtain ⟨he, h2⟩ := Stream.currentChecked_bind h
  have hlt := (s.eof_eq_false_iff).1 he
  clear h
  revert h2
  unfold consumeStepBeyond consumeStep readLineCommentBeyond readLineComment
    readIdentifierBeyond readIdentifier
  rw [Stream.currentBeyond_of_lt m hlt, Stream.getBeyond_of_lt m hlt]
  simp only [readSequenceBeyond_eq, readFloatLiteralFractionBeyond_eq, readNumberLiteralBeyond_eq]
  have g1 := guard_currentBeyond m s.get (fun c => decide (c = '/'))
  have g2 := guard_currentBeyond m s.get (fun c => decide (c = '*'))
  have g3 := guard_currentBeyond m s.get isdigit_dec
  have g4 := guard_currentBeyond m s.get isalnum
  rw [g1, g2, g3, g4]
  refine ite_transfer ?_ (ite_transfer ?_ (ite_transfer ?_ (ite_transfer ?_ (ite_transfer ?_
    (ite_transfer ?_ (ite_transfer ?_ (ite_transfer ?_ (ite_transfer ?_ ?_))))))))
  · intro _
    by_cases h1 : (!s.get.eof && decide (s.get.current = '/')) = true
    · simp only [if_pos h1]
    · simp only [if_neg h1]
      by_cases h3 : (!s.get.eof && decide (s.get.current = '*')) = true
      · simp only [if_pos h3]
        have hlt1 : s.get.ptr < s.get.buf.length := by
          simp only [Bool.and_eq_true, Bool.not_eq_true', decide_eq_true_eq] at h3
          exact (s.get.eof_eq_false_iff).1 h3.1
        rw [readBlockCommentBeyond_of_lt m hlt1]
      · simp only [if_neg h3]
  · exact fun _ => rfl
  · exact fun _ => rfl
  · intro h
    obtain ⟨a, ha⟩ := of_map_some h
    rw [readNumberLiteralPrefixBeyond_of_checked m ha]
  · intro h
    obtain ⟨a, ha⟩ := of_map_some h
    have hlt1 := readStringLiteralChecked_lt ha
    unfold readStringLiteralBeyond readStringLiteral
    rw [readStringLiteralLoopBeyond_of_lt m _ _ _ hlt1]
  · exact fun _ => rfl
  · exact fun _ => rfl
  · exact fun _ => rfl
  · exact fun _ => rfl
  · intro h
    obtain ⟨a, ha⟩ := of_map_some h
    rw [getOperatorBeyond_of_checked m ha]

theorem consumeLoopBeyond_of_checked (m : Nat → Char) (cb : LexerCallback) :
    ∀ (n : Nat) (s : Stream) (e : LoopExit), consumeLoopChecked cb n s = some e →
      consumeLoopBeyond m cb n s = consumeLoop cb n s
  | 0, _, _, _ => rfl
  | n + 1, s, e, h => by
    unfold consumeLoopChecked at h
    unfold consumeLoopBeyond consumeLoop
    by_cases he : s.eof = true
    · simp only [if_pos he]
    · rw [if_neg he] at h
      simp only [if_neg he]
      cases hq : consumeStepChecked cb s with
      | none => rw [hq] at h; simp at h
      | some st =>
        rw [hq] at h
        rw [consumeStepBeyond_of_checked m hq, consumeStepChecked_sound hq]
        cases st with
        | proceed s1 => exact consumeLoopBeyond_of_checked m cb n s1 e h
        | stop s1 => rfl
        | raise msg s1 => rfl
        | diverge => rfl

/-- A scan that reads no character at the end boundary does not depend on what
the memory holds after the buffer: when the scanner with checked reads returns,
the scanner over any memory returns the same. -/
theorem consumeBeyond_of_checked (m : Nat → Char) {cb : LexerCallback} {s : Stream}
    {r : Res Unit} (h : consumeChecked cb s = some r) : consumeBeyond m cb s = r := by
  have hr := consumeChecked_sound h
  unfold consumeChecked at h
  obtain ⟨e, he⟩ := of_map_some h
  rw [← hr]
  unfold consumeBeyond consume consumeWhileBeyond consumeWhile
  rw [consumeLoopBeyond_of_checked m cb _ _ _ he]

/-! ### Scans that leave the buffer -/

/-- C17. Against the claim that the position never exceeds the end boundary:
on the one-character buffer `0` followed in memory by `x` and the terminator,
`readNumberLiteralPrefix` reads the `x` at the end boundary and advances over it
with `get()`; the scan throws with the position at 2, one past the end boundary
1. On the one-character buffer made of a double quote and followed in memory by
a double quote, `readStringLiteral` reads the second one and advances over it:
the first invocation is `consumeStringLiteral` with the span from 0 to 2, whose
end is the position, one past the end boundary. -/
theorem scan_cursor_passes_end_boundary :
    (∃ msg s,
        consumeBeyond (fun i => if i = 0 then 'x' else NUL) alwaysContinue
            (Stream.new ['0'] "input") = Res.throw msg s ∧
          s.buf.length = 1 ∧ s.ptr = 2) ∧
      (consumeBeyond (fun i => if i = 0 then QUOTE else NUL) alwaysContinue
          (Stream.new [QUOTE] "input")).history.head? =
        some (Obs.call (Call.consumeStringLiteral ⟨0, 2⟩)) :=
  ⟨⟨_, _, rfl, by decide, by decide⟩, by decide⟩

end ConfigFile
